import Mathlib

/-!
# Mine-Countdown: the numbers-game core of `src/countdown/src/App.jsx`

A shallow embedding of the solver (`getCombinations`, `solverOps`,
`solveNumbersGameInternal`, `solveNumbersGame`) and of the formula checker
(`tokenize`, `toPostfix`, `evaluatePostfix`, `evaluateUserFormula`).

Conventions of the embedding

* The program is embedded twice. The first part computes with mathematical integers
  (`Int`): `jsString`, `parseInt`, `solverOps`, `applyOperator` and what is built on
  them. The last part computes with JavaScript Numbers, which round to 53 binary
  digits and print in exponent notation from `10^21` on: `toDouble`,
  `numberToString`, `parseIntDouble` and the definitions whose names end in `Double`.
  The two parts agree while every value stays below `2^53`.
* JavaScript strings are `String`; the characters the program looks at are ASCII.
* A thrown `FormulaError` is the `Except.error` of a `FormulaError` value; the
  text of the exception is `FormulaError.message`.
* An array used as a stack (`push`/`pop` at the end) is a list whose head is the
  top of the stack.
* The module-level `solveCache` is threaded through the solver as explicit state.
* The recursion of `solveNumbersGameInternal` is bounded by a fuel argument;
  running out of fuel is `none` and is shown never to happen.
-/

namespace Countdown

/-! ## JavaScript primitives -/

/-- The class `\s` of JavaScript regular expressions, which is also the set of
characters removed by `String.prototype.trim` and skipped by `parseInt`. -/
def isWhiteSpace (c : Char) : Bool :=
  c.toNat = 9 || c.toNat = 10 || c.toNat = 11 || c.toNat = 12 || c.toNat = 13 ||
  c.toNat = 32 || c.toNat = 160 || c.toNat = 5760 ||
  (8192 ≤ c.toNat && c.toNat ≤ 8202) ||
  c.toNat = 8232 || c.toNat = 8233 || c.toNat = 8239 || c.toNat = 8287 ||
  c.toNat = 12288 || c.toNat = 65279

/-- The class `\d`: the ASCII digits. -/
def isDigit (c : Char) : Bool := 48 ≤ c.toNat && c.toNat ≤ 57

/-- The class `[+\-*/()]`. -/
def isSymbol (c : Char) : Bool :=
  c = '+' || c = '-' || c = '*' || c = '/' || c = '(' || c = ')'

/-- Value of a character as a digit in the given radix (10 or 16), if it is one. -/
def digitValue (radix : Nat) (c : Char) : Option Nat :=
  if isDigit c then some (c.toNat - 48)
  else if radix = 16 && (97 ≤ c.toNat && c.toNat ≤ 102) then some (c.toNat - 87)
  else if radix = 16 && (65 ≤ c.toNat && c.toNat ≤ 70) then some (c.toNat - 55)
  else none

/-- Value of a run of digits, most significant first. -/
def digitsValue (radix : Nat) (ds : List Char) : Nat :=
  ds.foldl (fun acc c => acc * radix + (digitValue radix c).getD 0) 0

/-- Sign step of `parseInt`: an optional leading `+` or `-`. -/
def stripSign : List Char → Bool × List Char
  | [] => (false, [])
  | c :: cs => if c = '-' then (true, cs) else if c = '+' then (false, cs) else (false, c :: cs)

/-- Radix step of `parseInt` without a radix argument: a leading `0x`/`0X` selects 16. -/
def stripRadix : List Char → Nat × List Char
  | c :: d :: cs => if c = '0' ∧ (d = 'x' ∨ d = 'X') then (16, cs) else (10, c :: d :: cs)
  | cs => (10, cs)

/-- The builtin `parseInt(string)` as the mathematical integer it reads; `none` is
`NaN`. The Number it returns is `toDouble` of that integer (`parseIntDouble`). -/
def parseInt (s : String) : Option Int :=
  let s1 := s.data.dropWhile isWhiteSpace
  let signed := stripSign s1
  let based := stripRadix signed.2
  let ds := based.2.takeWhile (fun c => (digitValue based.1 c).isSome)
  if ds = [] then none
  else if signed.1 then some (-(digitsValue based.1 ds : Int))
  else some (digitsValue based.1 ds : Int)

/-- The test `isNaN(parseInt(token))` negated: the token starts with a number. -/
def isNumberToken (token : String) : Bool := (parseInt token).isSome

/-- The decimal numeral of an integer, which is `String(n)` for a Number below `2^53`
in magnitude; `numberToString` is `String(n)` on every Number. -/
def jsString (n : Int) : String := toString n

/-! ## Formula errors -/

/-- The `FormulaError`s thrown by the program, one constructor per `throw` site. -/
inductive FormulaError where
  | emptyFormula
  | invalidCharacter (token : String)
  | mismatchedParens
  | invalidToken (token : String)
  | numberNotAllowed (num : Int)
  | numberOveruse (num : Int)
  | notEnoughOperands
  | divisionByZero
  | nonIntegerDivision (a b : Int)
  | unknownOperator (token : String)
  | negativeIntermediate
  | tooManyOperands
  deriving DecidableEq, Repr

/-- The message text of each `FormulaError`. -/
def FormulaError.message : FormulaError → String
  | .emptyFormula => "Formula cannot be empty."
  | .invalidCharacter token => "Invalid character or sequence in formula: " ++ token
  | .mismatchedParens => "Mismatched parentheses in formula."
  | .invalidToken token => "Invalid token in formula: " ++ token
  | .numberNotAllowed num => "Number not allowed: " ++ jsString num
  | .numberOveruse num => "Number used too many times: " ++ jsString num
  | .notEnoughOperands => "Invalid formula structure (not enough operands)."
  | .divisionByZero => "Division by zero."
  | .nonIntegerDivision a b =>
      "Non-integer division: " ++ jsString a ++ " / " ++ jsString b ++
        ". Result must be a whole number."
  | .unknownOperator token => "Unknown operator: " ++ token
  | .negativeIntermediate => "Intermediate calculations cannot result in negative numbers."
  | .tooManyOperands => "Invalid formula structure (too many operands or operators)."

deriving instance DecidableEq for Except

/-! ## `tokenize` -/

/-- Emit the digit run collected so far, if any. -/
def flushRun (run : List Char) : List String :=
  if run = [] then [] else [String.mk run]

/-- The global match of `/\d+|[+\-*/()]|\S/g`, read left to right: `run` is the
digit run being extended by `\d+`; any other non-whitespace character is a match
of its own (by `[+\-*/()]` or by `\S`), and whitespace matches nothing. -/
def scanTokens : List Char → List Char → List String
  | [], run => flushRun run
  | c :: cs, run =>
      if isDigit c then scanTokens cs (run ++ [c])
      else if isWhiteSpace c then flushRun run ++ scanTokens cs []
      else flushRun run ++ String.singleton c :: scanTokens cs []

/-- The filter `/\d+|[+\-*/()]/.test(token)`: the token contains a digit or a symbol. -/
def tokenTest (token : String) : Bool :=
  token.data.any (fun c => isDigit c || isSymbol c)

/-- `tokenize(formula)`. -/
def tokenize (formula : String) : List String :=
  (scanTokens formula.data []).filter tokenTest

/-! ## `toPostfix` -/

/-- The table `precedence`; `none` is `undefined`. Tokens are those of `tokenize`
(digit runs and single characters), so no inherited property is ever looked up. -/
def precedence (token : String) : Option Nat :=
  if token = "+" then some 1
  else if token = "-" then some 1
  else if token = "*" then some 2
  else if token = "/" then some 2
  else none

/-- The test `token in precedence`. -/
def inPrecedence (token : String) : Bool := (precedence token).isSome

/-- The comparison `precedence[top] >= precedence[token]`, false when either is `undefined`. -/
def precGe (top token : String) : Bool :=
  match precedence top, precedence token with
  | some p, some q => q ≤ p
  | _, _ => false

/-- The test `operatorStack[operatorStack.length - 1] !== '('` on the top of the stack. -/
def notOpen (top : String) : Bool := top ≠ "("

/-- The loop condition of the operator case, on the top of the operator stack. -/
def popsBefore (token top : String) : Bool := notOpen top && precGe top token

/-- The `for` loop of `toPostfix` over the remaining tokens, from the current
`outputQueue` and `operatorStack` (head = top). -/
def toPostfixLoop : List String → List String → List String →
    Except FormulaError (List String × List String)
  | [], outputQueue, operatorStack => .ok (outputQueue, operatorStack)
  | token :: rest, outputQueue, operatorStack =>
      if isNumberToken token then
        toPostfixLoop rest (outputQueue ++ [token]) operatorStack
      else if inPrecedence token then
        toPostfixLoop rest (outputQueue ++ operatorStack.takeWhile (popsBefore token))
          (token :: operatorStack.dropWhile (popsBefore token))
      else if token = "(" then
        toPostfixLoop rest outputQueue (token :: operatorStack)
      else if token = ")" then
        match operatorStack.dropWhile notOpen with
        | [] => .error .mismatchedParens
        | top :: below =>
            if top ≠ "(" then .error .mismatchedParens
            else toPostfixLoop rest (outputQueue ++ operatorStack.takeWhile notOpen) below
      else .error (.invalidToken token)

/-- The final `while` loop of `toPostfix`: move the remaining operators to the output. -/
def drainOperators : List String → List String → Except FormulaError (List String)
  | [], outputQueue => .ok outputQueue
  | top :: below, outputQueue =>
      if top = "(" then .error .mismatchedParens
      else drainOperators below (outputQueue ++ [top])

/-- `toPostfix(tokens)`. -/
def toPostfix (tokens : List String) : Except FormulaError (List String) :=
  match toPostfixLoop tokens [] [] with
  | .error e => .error e
  | .ok (outputQueue, operatorStack) => drainOperators operatorStack outputQueue

/-! ## `evaluatePostfix` -/

/-- A JavaScript object used as a counter table: `none` is `undefined`. -/
abbrev CountTable := Int → Option Nat

/-- The statement `table[num] = (table[num] || 0) + 1`. -/
def increment (table : CountTable) (num : Int) : CountTable :=
  Function.update table num (some ((table num).getD 0 + 1))

/-- The table `availableNumbersCount` built by the `forEach`. -/
def availableNumbersCount (availableNumbers : List Int) : CountTable :=
  availableNumbers.foldl increment (fun _ => none)

/-- The guard `!availableNumbersCount[num] || usedNumbers[num] >= availableNumbersCount[num]`. -/
def usageExceeded (available used : CountTable) (num : Int) : Bool :=
  (match available num with
    | none => true
    | some c => c = 0) ||
  (match used num, available num with
    | some u, some c => c ≤ u
    | _, _ => false)

/-- The state of the evaluation loop: `valueStack` (head = top) and `usedNumbers`. -/
structure EvalState where
  valueStack : List Int
  usedNumbers : CountTable

/-- The `switch` on the operator, with the checks on division and on the sign of the
result, on integers; `applyOperatorDouble` is the same on Numbers. -/
def applyOperator (token : String) (a b : Int) : Except FormulaError Int :=
  let checked (result : Int) : Except FormulaError Int :=
    if result < 0 then .error .negativeIntermediate else .ok result
  if token = "+" then checked (a + b)
  else if token = "-" then checked (a - b)
  else if token = "*" then checked (a * b)
  else if token = "/" then
    if b = 0 then .error .divisionByZero
    else if a.tmod b ≠ 0 then .error (.nonIntegerDivision a b)
    else checked (a.tdiv b)
  else .error (.unknownOperator token)

/-- One iteration of the `for` loop of `evaluatePostfix`. -/
def evalToken (available : CountTable) (st : EvalState) (token : String) :
    Except FormulaError EvalState :=
  match parseInt token with
  | some num =>
      if usageExceeded available st.usedNumbers num then
        if (available num).isNone then .error (.numberNotAllowed num)
        else .error (.numberOveruse num)
      else
        .ok { valueStack := num :: st.valueStack
              usedNumbers := increment st.usedNumbers num }
  | none =>
      match st.valueStack with
      | b :: a :: below =>
          match applyOperator token a b with
          | .error e => .error e
          | .ok result => .ok { st with valueStack := result :: below }
      | _ => .error .notEnoughOperands

/-- The `for` loop of `evaluatePostfix`. -/
def evalLoop (available : CountTable) : List String → EvalState → Except FormulaError EvalState
  | [], st => .ok st
  | token :: rest, st =>
      match evalToken available st token with
      | .error e => .error e
      | .ok st1 => evalLoop available rest st1

/-- `evaluatePostfix(postfixTokens, availableNumbers)`. -/
def evaluatePostfix (postfixTokens : List String) (availableNumbers : List Int) :
    Except FormulaError Int :=
  match evalLoop (availableNumbersCount availableNumbers) postfixTokens
      { valueStack := [], usedNumbers := fun _ => none } with
  | .error e => .error e
  | .ok st =>
      match st.valueStack with
      | [value] => .ok value
      | _ => .error .tooManyOperands

/-! ## `evaluateUserFormula` -/

/-- The `forEach` that re-checks every token before parsing. -/
def validateTokens : List String → Except FormulaError Unit
  | [] => .ok ()
  | token :: rest =>
      if !isNumberToken token && !(["+", "-", "*", "/", "(", ")"].contains token) then
        .error (.invalidCharacter token)
      else validateTokens rest

/-- `evaluateUserFormula(formulaStr, availableNumbers)`. Every exception raised inside
the `try` is a `FormulaError`, which the `catch` rethrows unchanged. -/
def evaluateUserFormula (formulaStr : String) (availableNumbers : List Int) :
    Except FormulaError Int :=
  if formulaStr.data.all isWhiteSpace then .error .emptyFormula
  else
    match validateTokens (tokenize formulaStr) with
    | .error e => .error e
    | .ok _ =>
        match toPostfix (tokenize formulaStr) with
        | .error e => .error e
        | .ok postfixTokens => evaluatePostfix postfixTokens availableNumbers

/-! ## The solver -/

/-- `getCombinations`, inner function `combine`: `rest` is `array` from `startIndex`
on, `current` is `currentCombination`; the value is what the call appends to `result`. -/
def combine {α : Type} (k : Nat) : List α → List α → List (List α)
  | [], current => if current.length = k then [current] else []
  | x :: rest, current =>
      if current.length = k then [current]
      else combine k rest (current ++ [x]) ++ combine k rest current

/-- `getCombinations(array, k)`. -/
def getCombinations {α : Type} (array : List α) (k : Nat) : List (List α) :=
  combine k array []

/-- The table `solverOps` on integers, in the order `for ... in` enumerates it; `none`
is `null`. `solverOpsDouble` is the table on Numbers. -/
def solverOps : List (String × (Int → Int → Option Int)) :=
  [("+", fun a b => some (a + b)),
   ("-", fun a b => some (a - b)),
   ("*", fun a b => some (a * b)),
   ("/", fun a b => if b ≠ 0 ∧ a.tmod b = 0 then some (a.tdiv b) else none)]

/-- A reachability map: a JavaScript object whose property names are the decimal
numerals of integers, listed in the order `for ... in` enumerates them. A property
name is kept as the integer it denotes (`parseInt (jsString k) = some k`). -/
abbrev ReachabilityMap := List (Int × String)

/-- Property read `m[key]`; `none` is `undefined`. -/
def ReachabilityMap.get : ReachabilityMap → Int → Option String
  | [], _ => none
  | (k, e) :: rest, key => if k = key then some e else ReachabilityMap.get rest key

/-- Array-index property names, which are enumerated first and in ascending order. -/
def isArrayIndex (key : Int) : Bool := 0 ≤ key && key < 4294967295

/-- Add a property that is not yet present, at its place in the enumeration order. -/
def insertKey (key : Int) (expr : String) : ReachabilityMap → ReachabilityMap
  | [] => [(key, expr)]
  | (k, e) :: rest =>
      if isArrayIndex key && (!isArrayIndex k || key < k) then (key, expr) :: (k, e) :: rest
      else (k, e) :: insertKey key expr rest

/-- Overwrite the value of a property that is present; its place does not change. -/
def replaceKey (key : Int) (expr : String) : ReachabilityMap → ReachabilityMap
  | [] => []
  | (k, e) :: rest =>
      if k = key then (k, expr) :: rest else (k, e) :: replaceKey key expr rest

/-- Property write `m[key] = expr`. -/
def ReachabilityMap.set (m : ReachabilityMap) (key : Int) (expr : String) : ReachabilityMap :=
  if (m.get key).isSome then replaceKey key expr m else insertKey key expr m

/-- The keys of a map, in enumeration order. -/
def ReachabilityMap.keys (m : ReachabilityMap) : List Int := m.map Prod.fst

/-- The test `!results[res]`: the property is absent or is the empty string. -/
def isUnset (m : ReachabilityMap) (key : Int) : Bool :=
  match m.get key with
  | none => true
  | some e => e = ""

/-- The memo table `solveCache`: property reads and writes only, so its order is
never observed. -/
abbrev SolveCache := List (String × ReachabilityMap)

/-- Property read `solveCache[key]`. -/
def SolveCache.get : SolveCache → String → Option ReachabilityMap
  | [], _ => none
  | (k, m) :: rest, key => if k = key then some m else SolveCache.get rest key

/-- Property write `solveCache[key] = m`. -/
def SolveCache.set : SolveCache → String → ReachabilityMap → SolveCache
  | [], key, m => [(key, m)]
  | (k, old) :: rest, key, m =>
      if k = key then (k, m) :: rest else (k, old) :: SolveCache.set rest key m

/-- `Array.prototype.join` with a separator. -/
def joinWith (sep : String) : List String → String
  | [] => ""
  | [x] => x
  | x :: y :: rest => x ++ sep ++ joinWith sep (y :: rest)

/-- The memo key `numbers.slice().sort((a, b) => a - b).join(',')`. -/
def numbersTuple (numbers : List Int) : String :=
  joinWith "," ((numbers.insertionSort (· ≤ ·)).map jsString)

/-- The guarded store of lines 120-124 and 128-131: `res` is the value of the
operator (`none` = `null`), `expr` the expression built for it. `Number.isInteger`
holds of every integer. -/
def recordResult (results : ReachabilityMap) (res : Option Int) (expr : String) :
    ReachabilityMap :=
  match res with
  | none => results
  | some r =>
      if 0 ≤ r then
        if 0 < r ∧ isUnset results r then results.set r expr else results
      else results

/-- The template literal for an operation. -/
def exprOf (exprL opSym exprR : String) : String :=
  "(" ++ exprL ++ " " ++ opSym ++ " " ++ exprR ++ ")"

/-- One iteration of the loop over `solverOps` for a given pair of values. -/
def applyOp (numL numR : Int) (exprL exprR : String) (results : ReachabilityMap)
    (entry : String × (Int → Int → Option Int)) : ReachabilityMap :=
  let results1 := recordResult results (entry.2 numL numR) (exprOf exprL entry.1 exprR)
  if entry.1 = "-" ∨ entry.1 = "/" then
    recordResult results1 (entry.2 numR numL) (exprOf exprR entry.1 exprL)
  else results1

/-- The loop `for (const opSym in solverOps)`. -/
def combinePair (entryL entryR : Int × String) (results : ReachabilityMap) : ReachabilityMap :=
  solverOps.foldl (applyOp entryL.1 entryR.1 entryL.2 entryR.2) results

/-- The loops `for (const valL in resLeft)` and `for (const valR in resRight)`. -/
def combineMaps (resLeft resRight results : ReachabilityMap) : ReachabilityMap :=
  resLeft.foldl
    (fun acc entryL => resRight.foldl (fun acc1 entryR => combinePair entryL entryR acc1) acc)
    results

/-- The numbers `leftIndices.map(idx => numbers[idx])`. -/
def leftNumsOf (numbers : List Int) (leftIndices : List Nat) : List Int :=
  leftIndices.map (fun idx => numbers.getD idx 0)

/-- The numbers `numbers.filter((_, idx) => !leftIndices.includes(idx))`. -/
def rightNumsOf (numbers : List Int) (leftIndices : List Nat) : List Int :=
  (numbers.enum.filter (fun p => !leftIndices.contains p.1)).map Prod.snd

/-- All `leftIndices` visited by the two outer loops, in order: for `i` from 1 to
`floor(length / 2)`, the combinations of `i` of the indices `0 .. length - 1`. -/
def allLeftIndices (length : Nat) : List (List Nat) :=
  (List.range' 1 (length / 2)).flatMap (fun i => getCombinations (List.range length) i)

/-- The result type of a call of the solver: the returned map and the memo table
after the call; `none` is a recursion that ran out of fuel. -/
abbrev SolveResult := Option (ReachabilityMap × SolveCache)

/-- The body of the loop over `leftIndices`, iterated over the remaining index
sets; `recur` is the recursive call. -/
def solveSplits (recur : List Int → SolveCache → SolveResult) (numbers : List Int) :
    List (List Nat) → ReachabilityMap → SolveCache → SolveResult
  | [], results, solveCache => some (results, solveCache)
  | leftIndices :: more, results, solveCache =>
      match recur (leftNumsOf numbers leftIndices) solveCache with
      | none => none
      | some (resLeft, cache1) =>
          match recur (rightNumsOf numbers leftIndices) cache1 with
          | none => none
          | some (resRight, cache2) =>
              solveSplits recur numbers more (combineMaps resLeft resRight results) cache2

/-- The `forEach` of lines 95-97: every number reaches itself. -/
def singletons (numbers : List Int) : ReachabilityMap :=
  numbers.foldl (fun results n => results.set n (jsString n)) []

/-- The body of `solveNumbersGameInternal`, with the recursive call as a parameter. -/
def solveStep (recur : List Int → SolveCache → SolveResult) (numbers : List Int)
    (solveCache : SolveCache) : SolveResult :=
  match solveCache.get (numbersTuple numbers) with
  | some cached => some (cached, solveCache)
  | none =>
      match numbers with
      | [n] =>
          let result := ReachabilityMap.set [] n (jsString n)
          some (result, solveCache.set (numbersTuple numbers) result)
      | _ =>
          match solveSplits recur numbers (allLeftIndices numbers.length)
              (singletons numbers) solveCache with
          | none => none
          | some (results, cache1) =>
              some (results, cache1.set (numbersTuple numbers) results)

/-- `solveNumbersGameInternal(numbers)` acting on `solveCache`, with recursion depth
bounded by the fuel. -/
def solveNumbersGameInternal : Nat → List Int → SolveCache → SolveResult
  | 0 => fun _ _ => none
  | fuel + 1 => solveStep (solveNumbersGameInternal fuel)

/-- `solveNumbersGame(numbers)`, run with the module variable `solveCache` holding
`solveCache` on entry: the table is first reset to `{}`. -/
def solveNumbersGame (numbers : List Int) (solveCache : SolveCache) : SolveResult :=
  let _ := solveCache
  solveNumbersGameInternal (numbers.length + 1) numbers []

/-- The map returned by `solveNumbersGame(numbers)` from a fresh module state
(`[]` if the recursion ran out of fuel, which never happens). -/
def solve (numbers : List Int) : ReachabilityMap :=
  match solveNumbersGame numbers [] with
  | some (results, _) => results
  | none => []

/-! ## Reference semantics of expressions -/

/-- The four arithmetic operators. -/
inductive Op where
  | add
  | sub
  | mul
  | div
  deriving DecidableEq, Repr

/-- The symbol of an operator. -/
def Op.sym : Op → String
  | .add => "+"
  | .sub => "-"
  | .mul => "*"
  | .div => "/"

/-- Binding strength: `+` and `-` are 1, `*` and `/` are 2. -/
def Op.prec : Op → Nat
  | .add => 1
  | .sub => 1
  | .mul => 2
  | .div => 2

/-- Reference arithmetic of the game: the value of `a op b`, defined only when a
division is exact with a non-zero divisor and the result is not negative. -/
def Op.apply (op : Op) (a b : Int) : Option Int :=
  match op with
  | .add => if 0 ≤ a + b then some (a + b) else none
  | .sub => if 0 ≤ a - b then some (a - b) else none
  | .mul => if 0 ≤ a * b then some (a * b) else none
  | .div => if b ≠ 0 ∧ b ∣ a ∧ 0 ≤ a / b then some (a / b) else none

/-- An arithmetic expression tree over integer leaves. -/
inductive Tree where
  | leaf (n : Int)
  | node (op : Op) (l r : Tree)
  deriving DecidableEq, Repr

/-- The leaves of a tree, left to right. -/
def Tree.leaves : Tree → List Int
  | .leaf n => [n]
  | .node _ l r => l.leaves ++ r.leaves

/-- Reference value of a tree; `none` when some step is not allowed. -/
def Tree.eval : Tree → Option Int
  | .leaf n => some n
  | .node op l r =>
      match l.eval, r.eval with
      | some a, some b => op.apply a b
      | _, _ => none

/-- The text the solver writes for a tree: a bare numeral for a leaf, and
`(left op right)` with single spaces for an operation. -/
def Tree.render : Tree → String
  | .leaf n => jsString n
  | .node op l r => exprOf l.render op.sym r.render

/-- The abstract syntax of an infix formula: numerals (as written), parenthesised
formulas and binary operations. -/
inductive Formula where
  | num (digits : List Char)
  | paren (e : Formula)
  | bin (op : Op) (l r : Formula)
  deriving DecidableEq, Repr

/-- Binding strength of the outermost construct: numerals and parentheses bind
tighter than every operator. -/
def Formula.level : Formula → Nat
  | .num _ => 3
  | .paren _ => 3
  | .bin op _ _ => op.prec

/-- The syntax tree is the reading of its own token sequence under the usual rules:
numerals are non-empty digit runs; the left operand of an operator binds at least as
tightly as the operator (left associativity), the right operand strictly tighter. -/
def Formula.WellFormed : Formula → Prop
  | .num digits => digits ≠ [] ∧ ∀ c ∈ digits, isDigit c = true
  | .paren e => e.WellFormed
  | .bin op l r => l.WellFormed ∧ r.WellFormed ∧ op.prec ≤ l.level ∧ op.prec < r.level

/-- The token sequence of a formula, in infix order. -/
def Formula.tokens : Formula → List String
  | .num digits => [String.mk digits]
  | .paren e => "(" :: e.tokens ++ [")"]
  | .bin op l r => l.tokens ++ op.sym :: r.tokens

/-- The token sequence of a formula in postfix order. -/
def Formula.postfixOrder : Formula → List String
  | .num digits => [String.mk digits]
  | .paren e => e.postfixOrder
  | .bin op l r => l.postfixOrder ++ r.postfixOrder ++ [op.sym]

/-- The values of the numerals of a formula, left to right. -/
def Formula.numerals : Formula → List Int
  | .num digits => [(digitsValue 10 digits : Int)]
  | .paren e => e.numerals
  | .bin _ l r => l.numerals ++ r.numerals

/-- Reference value of a formula; `none` when some step is not allowed. -/
def Formula.eval : Formula → Option Int
  | .num digits => some (digitsValue 10 digits : Int)
  | .paren e => e.eval
  | .bin op l r =>
      match l.eval, r.eval with
      | some a, some b => op.apply a b
      | _, _ => none

/-- The formula a solver tree is written as: every operation is parenthesised. -/
def Tree.toFormula : Tree → Formula
  | .leaf n => .num (jsString n).data
  | .node op l r => .paren (.bin op l.toFormula r.toFormula)

/-- A text spells a token sequence: the tokens in order, each preceded by any amount
of white space, with any amount of white space at the end. -/
inductive Spaced : List String → List Char → Prop where
  | done (ws : List Char) (hws : ∀ c ∈ ws, isWhiteSpace c = true) : Spaced [] ws
  | token (ws : List Char) (tok : String) (toks : List String) (cs : List Char)
      (hws : ∀ c ∈ ws, isWhiteSpace c = true) (rest : Spaced toks cs) :
      Spaced (tok :: toks) (ws ++ (tok.data ++ cs))

/-- The numeral tokens of a formula text, as the values `evaluatePostfix` reads. -/
def numeralsOf (formula : String) : List Int :=
  (tokenize formula).filterMap parseInt

/-! ## Auxiliary notions used in the proofs -/

/-- A token as `tokenize` returns them: a digit run or a single symbol. -/
def IsToken (tok : String) : Prop :=
  (∃ ds, ds ≠ [] ∧ (∀ c ∈ ds, isDigit c = true) ∧ tok = String.mk ds) ∨
  (∃ c, isSymbol c = true ∧ tok = String.singleton c)

/-- The text starts with something other than a digit, or is empty. -/
def StartsNonDigit (cs : List Char) : Prop := ∀ c ∈ cs.head?, isDigit c = false

/-- No two number tokens are adjacent. -/
def NumbersApart (toks : List String) : Prop :=
  List.Chain' (fun a b => ¬ (isNumberToken a = true ∧ isNumberToken b = true)) toks

/-- The operator stack lets every outermost operator of `e` stay: its top is not
popped by an operator that binds at least as tightly as `e`. -/
def StackAdmits (e : Formula) (operatorStack : List String) : Prop :=
  ∀ top ∈ operatorStack.head?, ∀ o : Op, e.level ≤ o.prec → popsBefore o.sym top = false

/-- One pass through the body of the loop over `leftIndices`: the index set, the two
lists the recursive calls answered for, and their answers. -/
structure SplitRun where
  leftIndices : List Nat
  leftNums : List Int
  resLeft : ReachabilityMap
  rightNums : List Int
  resRight : ReachabilityMap

/-- The folding of the passes into `results`. -/
def foldRuns (runs : List SplitRun) (results : ReachabilityMap) : ReachabilityMap :=
  runs.foldl (fun acc run => combineMaps run.resLeft run.resRight acc) results

/-- The maps the recursion computes, with the memo table abstracted away: `Solved
numbers m` says that `m` is what the body of `solveNumbersGameInternal` builds for
`numbers`, when each recursive call is answered with a map built in the same way for
a list holding the same numbers as its argument (the memo table may answer with the
map of a reordering). -/
inductive Solved : List Int → ReachabilityMap → Prop where
  | single (n : Int) : Solved [n] (ReachabilityMap.set [] n (jsString n))
  | split (numbers : List Int) (runs : List SplitRun)
      (hne : ∀ n, numbers ≠ [n])
      (hidx : runs.map SplitRun.leftIndices = allLeftIndices numbers.length)
      (hleft : ∀ run ∈ runs, run.leftNums.Perm (leftNumsOf numbers run.leftIndices))
      (hright : ∀ run ∈ runs, run.rightNums.Perm (rightNumsOf numbers run.leftIndices))
      (hl : ∀ run ∈ runs, Solved run.leftNums run.resLeft)
      (hr : ∀ run ∈ runs, Solved run.rightNums run.resRight) :
      Solved numbers (foldRuns runs (singletons numbers))

/-- Every entry of the memo table is a map computed for a list with that key. -/
def CacheOK (cache : SolveCache) : Prop :=
  ∀ key m, cache.get key = some m → ∃ ns, numbersTuple ns = key ∧ Solved ns m

/-- What a call of the solver guarantees, given a memo table with computed entries. -/
def CallOK (recur : List Int → SolveCache → SolveResult) : Prop :=
  ∀ ns cache m cache', CacheOK cache → recur ns cache = some (m, cache') →
    (∃ ns', ns'.Perm ns ∧ Solved ns' m) ∧
    (cache.get (numbersTuple ns) = none → Solved ns m) ∧ CacheOK cache'

/-- Every entry of the map is witnessed by a tree over the pool: the entry's text is
the text of the tree, its key is the (positive) value of the tree, and the tree uses
no number more often than the pool holds it. -/
def Sound (pool : List Int) (m : ReachabilityMap) : Prop :=
  ∀ p ∈ m, ∃ t : Tree, t.render = p.2 ∧ t.eval = some p.1 ∧ 0 < p.1 ∧
    ∀ n, t.leaves.count n ≤ pool.count n

/-- The parentheses of a text are unbalanced: some prefix holds more `)` than `(`, or
the whole text holds more `(` than `)`. -/
def Unbalanced (cs : List Char) : Prop :=
  (∃ n, (cs.take n).count '(' < (cs.take n).count ')') ∨ cs.count ')' < cs.count '('

/-- Nesting depth after reading a text from a given depth; `none` when a `)` comes
at depth zero. -/
def parenScan : List Char → Nat → Option Nat
  | [], depth => some depth
  | c :: cs, depth =>
      if c = '(' then parenScan cs (depth + 1)
      else if c = ')' then (if depth = 0 then none else parenScan cs (depth - 1))
      else parenScan cs depth

/-- Nesting depth after reading a token sequence from a given depth. -/
def tokenScan : List String → Nat → Option Nat
  | [], depth => some depth
  | tok :: toks, depth =>
      if tok = "(" then tokenScan toks (depth + 1)
      else if tok = ")" then (if depth = 0 then none else tokenScan toks (depth - 1))
      else tokenScan toks depth

/-- The value of a tree all of whose leaves and intermediate results are strictly
positive; `none` otherwise. -/
def Tree.evalPos : Tree → Option Int
  | .leaf n => if 0 < n then some n else none
  | .node op l r =>
      match l.evalPos, r.evalPos with
      | some a, some b =>
          match op.apply a b with
          | some v => if 0 < v then some v else none
          | none => none
      | _, _ => none

/-- The map has a key for every tree over the pool whose leaves and intermediate
results are all positive. -/
def Complete (pool : List Int) (m : ReachabilityMap) : Prop :=
  ∀ (t : Tree) (v : Int), t.evalPos = some v → (∀ n, t.leaves.count n ≤ pool.count n) →
    v ∈ m.keys

/-! ## `getSolutionMessage` and the scoring of `handleFormulaSubmit` -/

/-- `Math.abs` on an integer. -/
def jsAbs (x : Int) : Int := if x < 0 then -x else x

/-- One iteration of the loop `for (const valStr in allReachable)`: the state is
`closestVal` and `minDiff`, where `none` is `Infinity`. -/
def closestStep (target : Int) (st : Int × Option Int) (entry : Int × String) :
    Int × Option Int :=
  let val := entry.1
  let diff := jsAbs (val - target)
  match st.2 with
  | none => (val, some diff)
  | some minDiff =>
      if diff < minDiff then (val, some diff)
      else if diff = minDiff then
        if jsAbs (val - target) < jsAbs (st.1 - target) then (val, st.2) else st
      else st

/-- The text a template literal gives for a property read: `undefined` when absent. -/
def propertyText : Option String → String
  | some expr => expr
  | none => "undefined"

/-- The text a template literal gives for `minDiff`. -/
def minDiffText : Option Int → String
  | some d => jsString d
  | none => "Infinity"

/-- The `else` branch of `getSolutionMessage`. -/
def closestMessage (allReachable : ReachabilityMap) (target : Int) : String :=
  if allReachable.keys.length = 0 then "No solution possible with these numbers."
  else
    let st := allReachable.foldl (closestStep target) (-1, none)
    if st.1 = -1 then "No positive solution found by computer."
    else
      "Exact target not found by computer. Closest possible: " ++ jsString st.1 ++ " = " ++
        propertyText (allReachable.get st.1) ++ " (Difference: " ++ minDiffText st.2 ++ ")"

/-- `getSolutionMessage(allReachable, target)`; the test `allReachable[target]` holds
of a property that is present and not the empty string. -/
def getSolutionMessage (allReachable : ReachabilityMap) (target : Int) : String :=
  match allReachable.get target with
  | some expr =>
      if expr = "" then closestMessage allReachable target
      else "Optimal solution: " ++ jsString target ++ " = " ++ expr
  | none => closestMessage allReachable target

/-- The points of lines 391-395 of `handleFormulaSubmit`, from `diff`. -/
def pointsOfDiff (diff : Int) : Int :=
  if diff = 0 then 10
  else if diff ≤ 5 then 7
  else if diff ≤ 10 then 5
  else 0

/-- The points `handleFormulaSubmit` awards for a formula that evaluates to `result`. -/
def pointsAwarded (result target : Int) : Int :=
  pointsOfDiff (jsAbs (result - target))

/-- The list is a JavaScript object in enumeration order: property names are
distinct, and an array-index name is preceded only by smaller array-index names. -/
def ReachabilityMap.Ordered (m : ReachabilityMap) : Prop :=
  List.Pairwise
    (fun a b : Int => a ≠ b ∧ (isArrayIndex b = true → isArrayIndex a = true ∧ a < b)) m.keys

/-- The errors `evaluatePostfix` can raise. -/
def FormulaError.fromEvaluation : FormulaError → Bool
  | .numberNotAllowed _ => true
  | .numberOveruse _ => true
  | .notEnoughOperands => true
  | .divisionByZero => true
  | .nonIntegerDivision _ _ => true
  | .unknownOperator _ => true
  | .negativeIntermediate => true
  | .tooManyOperands => true
  | _ => false

/-- Replace a character that is neither white space, nor a digit, nor one of the six
symbols by a space. -/
def blankInvalid (c : Char) : Char :=
  if isDigit c || isSymbol c || isWhiteSpace c then c else ' '


/-! ## The split enumeration of the solver -/

/-- The indices the filter `numbers.filter((_, idx) => !leftIndices.includes(idx))`
keeps: the right side of a split, as an index set. -/
def rightIndicesOf (length : Nat) (leftIndices : List Nat) : List Nat :=
  (List.range length).filter (fun idx => !leftIndices.contains idx)

/-- The splits the two outer loops visit, in order: each `leftIndices` with the
indices of its right side. -/
def allSplits (length : Nat) : List (List Nat × List Nat) :=
  (allLeftIndices length).map
    (fun leftIndices => (leftIndices, rightIndicesOf length leftIndices))

/-- Two splits are the same unordered bipartition: the same two index sets, in the
same or in the opposite order. -/
def SameBipartition (s t : List Nat × List Nat) : Prop :=
  ((∀ idx, idx ∈ s.1 ↔ idx ∈ t.1) ∧ (∀ idx, idx ∈ s.2 ↔ idx ∈ t.2)) ∨
  ((∀ idx, idx ∈ s.1 ↔ idx ∈ t.2) ∧ (∀ idx, idx ∈ s.2 ↔ idx ∈ t.1))

/-! ## Numbers as IEEE doubles

The definitions above compute with mathematical integers. The program computes with
JavaScript Numbers: a sum, difference or product is rounded to 53 binary digits,
`parseInt` rounds what it reads, and `String(n)` is the shortest decimal text that
reads back as `n`, in exponent notation from `10^21` on. The definitions of this
part follow the program on Numbers that hold integers; the two readings agree while
every value stays below `2^53`. -/

/-- Number of binary digits of `a`; the first argument bounds the recursion and may
be any number that is at least `a`. -/
def bitLength : Nat → Nat → Nat
  | 0, _ => 0
  | fuel + 1, a => if a = 0 then 0 else bitLength fuel (a / 2) + 1

/-- The Number value of a mathematical integer: the integer itself below `2^53`,
else the nearest integer with 53 significant binary digits, the even one of two
nearest; `none` is `Infinity` or `-Infinity`, for a rounded magnitude of more than
1024 binary digits. -/
def toDouble (x : Int) : Option Int :=
  let a := x.natAbs
  if a < 9007199254740992 then some x
  else
    let e := bitLength a a - 53
    let q := a / 2 ^ e
    let r := a % 2 ^ e
    let q1 := if 2 ^ e < 2 * r ∨ (2 * r = 2 ^ e ∧ q % 2 = 1) then q + 1 else q
    let rounded := q1 * 2 ^ e
    if 1024 < bitLength rounded rounded then none
    else if x < 0 then some (-(rounded : Int)) else some (rounded : Int)

/-- The decimal with `k` significant digits that is the Number `a`, if there is one:
the nearer of the two neighbours of `a` at that precision, the one with the even
last digit of two equally near. -/
def shortestDecimalAt (a k : Nat) : Option Nat :=
  let e := (Nat.repr a).length - k
  let lo := a / 10 ^ e * 10 ^ e
  let hi := lo + 10 ^ e
  let okLo : Bool := toDouble lo = some (a : Int)
  let okHi : Bool := toDouble hi = some (a : Int)
  if okLo && okHi then
    if a - lo < hi - a then some lo
    else if hi - a < a - lo then some hi
    else if (a / 10 ^ e) % 2 = 0 then some lo else some hi
  else if okLo then some lo
  else if okHi then some hi
  else none

/-- The decimal with the fewest significant digits that is the Number `a` (step 5 of
`Number::toString`); 17 digits always suffice. -/
def shortestDecimal (a : Nat) : Nat :=
  ((List.range' 1 17).findSome? (shortestDecimalAt a)).getD a

/-- Exponent notation of `Number::toString` for the decimal `c`: its digits without
the trailing zeros, a point after the first of several, and the exponent. -/
def exponentText (c : Nat) : String :=
  let digits := (Nat.repr c).data
  let mantissa := (digits.reverse.dropWhile (fun d => d = '0')).reverse
  match mantissa with
  | [] => "0"
  | [d] => String.mk [d] ++ "e+" ++ Nat.repr (digits.length - 1)
  | d :: more => String.mk (d :: '.' :: more) ++ "e+" ++ Nat.repr (digits.length - 1)

/-- The builtin `String(n)` on a Number that holds the integer `n`: plain digits up
to 21 of them, exponent notation above. -/
def numberToString (n : Int) : String :=
  let c := shortestDecimal n.natAbs
  let text := if c < 10 ^ 21 then Nat.repr c else exponentText c
  if n < 0 then "-" ++ text else text

/-- The builtin `parseInt(string)` as a Number: the integer read, rounded once;
`none` is `NaN` or an infinity. -/
def parseIntDouble (s : String) : Option Int :=
  (parseInt s).bind toDouble

/-! ### The solver on Numbers

A property of a reachability map is kept under the Number its name is the text of:
the name of the entry `(k, e)` is `numberToString k`, and distinct Numbers have
distinct texts. -/

/-- The table `solverOps` on Numbers; `none` is `null` or an infinity, which both
fail the guard `res !== null && res >= 0 && Number.isInteger(res)`. -/
def solverOpsDouble : List (String × (Int → Int → Option Int)) :=
  [("+", fun a b => toDouble (a + b)),
   ("-", fun a b => toDouble (a - b)),
   ("*", fun a b => toDouble (a * b)),
   ("/", fun a b => if b ≠ 0 ∧ a.tmod b = 0 then toDouble (a.tdiv b) else none)]

/-- The loop `for (const opSym in solverOps)` for a pair of properties: `numL` and
`numR` are `parseInt` of the two property names; a name that does not parse gives
`NaN`, with which no operator passes the guard. -/
def combinePairDouble (entryL entryR : Int × String) (results : ReachabilityMap) :
    ReachabilityMap :=
  match parseIntDouble (numberToString entryL.1), parseIntDouble (numberToString entryR.1) with
  | some numL, some numR =>
      solverOpsDouble.foldl (applyOp numL numR entryL.2 entryR.2) results
  | _, _ => results

/-- The loops `for (const valL in resLeft)` and `for (const valR in resRight)`. -/
def combineMapsDouble (resLeft resRight results : ReachabilityMap) : ReachabilityMap :=
  resLeft.foldl
    (fun acc entryL =>
      resRight.foldl (fun acc1 entryR => combinePairDouble entryL entryR acc1) acc)
    results

/-- The `forEach` of lines 95-97, with `String(n)` on Numbers. -/
def singletonsDouble (numbers : List Int) : ReachabilityMap :=
  numbers.foldl (fun results n => results.set n (numberToString n)) []

/-- The memo key `numbers.slice().sort((a, b) => a - b).join(',')`; the sign of
`a - b` is that of the exact difference. -/
def numbersTupleDouble (numbers : List Int) : String :=
  joinWith "," ((numbers.insertionSort (· ≤ ·)).map numberToString)

/-- The body of the loop over `leftIndices`, on Numbers. -/
def solveSplitsDouble (recur : List Int → SolveCache → SolveResult) (numbers : List Int) :
    List (List Nat) → ReachabilityMap → SolveCache → SolveResult
  | [], results, solveCache => some (results, solveCache)
  | leftIndices :: more, results, solveCache =>
      match recur (leftNumsOf numbers leftIndices) solveCache with
      | none => none
      | some (resLeft, cache1) =>
          match recur (rightNumsOf numbers leftIndices) cache1 with
          | none => none
          | some (resRight, cache2) =>
              solveSplitsDouble recur numbers more
                (combineMapsDouble resLeft resRight results) cache2

/-- The body of `solveNumbersGameInternal` on Numbers. -/
def solveStepDouble (recur : List Int → SolveCache → SolveResult) (numbers : List Int)
    (solveCache : SolveCache) : SolveResult :=
  match solveCache.get (numbersTupleDouble numbers) with
  | some cached => some (cached, solveCache)
  | none =>
      match numbers with
      | [n] =>
          let result := ReachabilityMap.set [] n (numberToString n)
          some (result, solveCache.set (numbersTupleDouble numbers) result)
      | _ =>
          match solveSplitsDouble recur numbers (allLeftIndices numbers.length)
              (singletonsDouble numbers) solveCache with
          | none => none
          | some (results, cache1) =>
              some (results, cache1.set (numbersTupleDouble numbers) results)

/-- `solveNumbersGameInternal(numbers)` on Numbers, with recursion depth bounded by
the fuel. -/
def solveNumbersGameInternalDouble : Nat → List Int → SolveCache → SolveResult
  | 0 => fun _ _ => none
  | fuel + 1 => solveStepDouble (solveNumbersGameInternalDouble fuel)

/-- `solveNumbersGame(numbers)` on Numbers: the memo table is first reset. -/
def solveNumbersGameDouble (numbers : List Int) (solveCache : SolveCache) : SolveResult :=
  let _ := solveCache
  solveNumbersGameInternalDouble (numbers.length + 1) numbers []

/-! ### The formula checker on Numbers -/

/-- The `switch` on the operator with its checks, on Numbers; `none` is a result
beyond the largest Number (`Infinity`), which this embedding does not follow. -/
def applyOperatorDouble (token : String) (a b : Int) : Option (Except FormulaError Int) :=
  let checked (result : Option Int) : Option (Except FormulaError Int) :=
    match result with
    | none => none
    | some r => if r < 0 then some (.error .negativeIntermediate) else some (.ok r)
  if token = "+" then checked (toDouble (a + b))
  else if token = "-" then checked (toDouble (a - b))
  else if token = "*" then checked (toDouble (a * b))
  else if token = "/" then
    if b = 0 then some (.error .divisionByZero)
    else if a.tmod b ≠ 0 then some (.error (.nonIntegerDivision a b))
    else checked (toDouble (a.tdiv b))
  else some (.error (.unknownOperator token))

/-- One iteration of the `for` loop of `evaluatePostfix`, on Numbers; `none` as in
`applyOperatorDouble`, also for a numeral beyond the largest Number. -/
def evalTokenDouble (available : CountTable) (st : EvalState) (token : String) :
    Option (Except FormulaError EvalState) :=
  match parseInt token with
  | some exact =>
      match toDouble exact with
      | none => none
      | some num =>
          if usageExceeded available st.usedNumbers num then
            if (available num).isNone then some (.error (.numberNotAllowed num))
            else some (.error (.numberOveruse num))
          else
            some (.ok { valueStack := num :: st.valueStack
                        usedNumbers := increment st.usedNumbers num })
  | none =>
      match st.valueStack with
      | b :: a :: below =>
          match applyOperatorDouble token a b with
          | none => none
          | some (.error e) => some (.error e)
          | some (.ok result) => some (.ok { st with valueStack := result :: below })
      | _ => some (.error .notEnoughOperands)

/-- The `for` loop of `evaluatePostfix`, on Numbers. -/
def evalLoopDouble (available : CountTable) :
    List String → EvalState → Option (Except FormulaError EvalState)
  | [], st => some (.ok st)
  | token :: rest, st =>
      match evalTokenDouble available st token with
      | none => none
      | some (.error e) => some (.error e)
      | some (.ok st1) => evalLoopDouble available rest st1

/-- `evaluatePostfix(postfixTokens, availableNumbers)` on Numbers. -/
def evaluatePostfixDouble (postfixTokens : List String) (availableNumbers : List Int) :
    Option (Except FormulaError Int) :=
  match evalLoopDouble (availableNumbersCount availableNumbers) postfixTokens
      { valueStack := [], usedNumbers := fun _ => none } with
  | none => none
  | some (.error e) => some (.error e)
  | some (.ok st) =>
      match st.valueStack with
      | [value] => some (.ok value)
      | _ => some (.error .tooManyOperands)

/-- `evaluateUserFormula(formulaStr, availableNumbers)` on Numbers. -/
def evaluateUserFormulaDouble (formulaStr : String) (availableNumbers : List Int) :
    Option (Except FormulaError Int) :=
  if formulaStr.data.all isWhiteSpace then some (.error .emptyFormula)
  else
    match validateTokens (tokenize formulaStr) with
    | .error e => some (.error e)
    | .ok _ =>
        match toPostfix (tokenize formulaStr) with
        | .error e => some (.error e)
        | .ok postfixTokens => evaluatePostfixDouble postfixTokens availableNumbers

/-! ### The range in which both readings agree -/

/-- The product of `n + 1` over the numbers of a list. For positive numbers, every
expression that uses each of them at most once, with no negative intermediate
result, has a value below it. -/
def poolBound (numbers : List Int) : Int := (numbers.map (fun n => n + 1)).prod

/-- Every numeral and every intermediate result of the formula is below `2^53`. -/
def Formula.Safe : Formula → Prop
  | .num digits => (digitsValue 10 digits : Int) < 9007199254740992
  | .paren e => e.Safe
  | .bin op l r =>
      l.Safe ∧ r.Safe ∧ ∀ v, (Formula.bin op l r).eval = some v → v < 9007199254740992

/-! # Theorems

Every definition of the development stands above this line. -/

/-! ## Decimal numerals -/

theorem isDigit_digitChar (d : Nat) (h : d < 10) :
    isDigit (Nat.digitChar d) = true ∧ digitValue 10 (Nat.digitChar d) = some d := by
  interval_cases d <;> decide

theorem digitsValue_append (radix : Nat) (ds : List Char) (c : Char) :
    digitsValue radix (ds ++ [c]) = digitsValue radix ds * radix + (digitValue radix c).getD 0 := by
  simp [digitsValue, List.foldl_append]

/-- What `Nat.toDigitsCore` produces in base ten, given enough fuel. -/
theorem toDigitsCore_spec : ∀ (fuel n : Nat) (ds : List Char), n < fuel →
    ∃ pre, Nat.toDigitsCore 10 fuel n ds = pre ++ ds ∧ pre ≠ [] ∧
      (∀ c ∈ pre, isDigit c = true) ∧ digitsValue 10 pre = n := by
  intro fuel
  induction fuel with
  | zero => intro n ds h; omega
  | succ fuel ih =>
      intro n ds h
      simp only [Nat.toDigitsCore]
      have hd := isDigit_digitChar (n % 10) (Nat.mod_lt _ (by omega))
      by_cases h0 : n / 10 = 0
      · refine ⟨[Nat.digitChar (n % 10)], by simp [h0], by simp, by simpa using hd.1, ?_⟩
        simp [digitsValue, hd.2]; omega
      · obtain ⟨pre, hpre, hne, hall, hval⟩ :=
          ih (n / 10) (Nat.digitChar (n % 10) :: ds) (by omega)
        refine ⟨pre ++ [Nat.digitChar (n % 10)], by simp [h0, hpre], by simp, ?_, ?_⟩
        · intro c hc
          rcases List.mem_append.1 hc with hc | hc
          · exact hall c hc
          · rw [List.mem_singleton.1 hc]; exact hd.1
        · rw [digitsValue_append, hval, hd.2]; simp; omega

/-- The decimal numeral of a natural number: non-empty, digits only, and it reads back. -/
theorem natRepr_spec (n : Nat) :
    (Nat.repr n).data ≠ [] ∧ (∀ c ∈ (Nat.repr n).data, isDigit c = true) ∧
      digitsValue 10 (Nat.repr n).data = n := by
  obtain ⟨pre, hpre, hne, hall, hval⟩ := toDigitsCore_spec (n + 1) n [] (by omega)
  have : (Nat.repr n).data = pre := by
    simp [Nat.repr, Nat.toDigits, hpre, List.asString]
  rw [this]; exact ⟨hne, hall, hval⟩


theorem isDigit_facts {c : Char} (h : isDigit c = true) :
    isWhiteSpace c = false ∧ isSymbol c = false ∧ c ≠ '-' ∧ c ≠ '+' ∧ c ≠ 'x' ∧ c ≠ 'X' ∧
      c ≠ ',' ∧ c ≠ '(' ∧ c ≠ ')' ∧ c ≠ ' ' := by
  have hr : 48 ≤ c.toNat ∧ c.toNat ≤ 57 := by simpa [isDigit] using h
  have ne : ∀ d : Char, d.toNat < 48 ∨ 57 < d.toNat → c ≠ d := by
    intro d hd hcd; subst hcd; omega
  refine ⟨?_, ?_, ne _ (by decide), ne _ (by decide), ne _ (by decide), ne _ (by decide),
    ne _ (by decide), ne _ (by decide), ne _ (by decide), ne _ (by decide)⟩
  · simp only [isWhiteSpace, Bool.or_eq_false_iff, decide_eq_false_iff_not, Bool.and_eq_false_imp,
      decide_eq_true_eq]
    omega
  · simp only [isSymbol, Bool.or_eq_false_iff, decide_eq_false_iff_not]
    exact ⟨⟨⟨⟨⟨ne _ (by decide), ne _ (by decide)⟩, ne _ (by decide)⟩, ne _ (by decide)⟩,
      ne _ (by decide)⟩, ne _ (by decide)⟩

theorem digitValue_isSome_of_isDigit {c : Char} (h : isDigit c = true) (radix : Nat) :
    (digitValue radix c).isSome = true := by
  simp [digitValue, h]

/-- `parseInt` of a non-empty run of digits is its decimal value. -/
theorem parseInt_digits (ds : List Char) (hne : ds ≠ []) (hall : ∀ c ∈ ds, isDigit c = true) :
    parseInt (String.mk ds) = some (digitsValue 10 ds : Int) := by
  cases ds with
  | nil => exact absurd rfl hne
  | cons c cs =>
      have hc := isDigit_facts (hall c (List.mem_cons_self _ _))
      have h1 : (c :: cs).dropWhile isWhiteSpace = c :: cs := by
        simp [List.dropWhile, hc.1]
      have h2 : stripSign (c :: cs) = (false, c :: cs) := by
        simp [stripSign, hc.2.2.1, hc.2.2.2.1]
      have h3 : stripRadix (c :: cs) = (10, c :: cs) := by
        cases cs with
        | nil => rfl
        | cons d cs =>
            have hd := isDigit_facts (hall d (by simp))
            simp [stripRadix, hd.2.2.2.2.1, hd.2.2.2.2.2.1]
      have h4 : (c :: cs).takeWhile (fun c => (digitValue 10 c).isSome) = c :: cs := by
        rw [List.takeWhile_eq_self_iff]
        intro d hd
        exact digitValue_isSome_of_isDigit (hall d hd) 10
      simp only [parseInt, h1, h2, h3, h4]
      simp

theorem jsString_ofNat (n : Nat) : jsString (n : Int) = Nat.repr n := rfl

theorem jsString_negSucc (n : Nat) : jsString (Int.negSucc n) = "-" ++ Nat.repr (n + 1) := rfl

/-- The numeral of a non-negative integer: non-empty and digits only. -/
theorem jsString_digits {n : Int} (h : 0 ≤ n) :
    (jsString n).data ≠ [] ∧ (∀ c ∈ (jsString n).data, isDigit c = true) ∧
      (digitsValue 10 (jsString n).data : Int) = n := by
  obtain ⟨m, rfl⟩ := Int.eq_ofNat_of_zero_le h
  rw [jsString_ofNat]
  obtain ⟨h1, h2, h3⟩ := natRepr_spec m
  exact ⟨h1, h2, by rw [h3]⟩

/-- Reading back the numeral of a non-negative integer. -/
theorem parseInt_jsString_of_nonneg {n : Int} (h : 0 ≤ n) : parseInt (jsString n) = some n := by
  obtain ⟨h1, h2, h3⟩ := jsString_digits h
  have := parseInt_digits (jsString n).data h1 h2
  rw [h3] at this
  exact this

/-- `parseInt` of a minus sign followed by a non-empty run of digits. -/
theorem parseInt_neg_digits (ds : List Char) (hne : ds ≠ [])
    (hall : ∀ c ∈ ds, isDigit c = true) :
    parseInt (String.mk ('-' :: ds)) = some (-(digitsValue 10 ds : Int)) := by
  cases ds with
  | nil => exact absurd rfl hne
  | cons c cs =>
      have h3 : stripRadix (c :: cs) = (10, c :: cs) := by
        cases cs with
        | nil => rfl
        | cons d cs =>
            have hd := isDigit_facts (hall d (by simp))
            simp [stripRadix, hd.2.2.2.2.1, hd.2.2.2.2.2.1]
      have h4 : (c :: cs).takeWhile (fun c => (digitValue 10 c).isSome) = c :: cs := by
        rw [List.takeWhile_eq_self_iff]
        intro d hd
        exact digitValue_isSome_of_isDigit (hall d hd) 10
      have hws : isWhiteSpace '-' = false := by decide
      have h1 : ('-' :: c :: cs).dropWhile isWhiteSpace = '-' :: c :: cs := by
        simp [List.dropWhile, hws]
      have h2 : stripSign ('-' :: c :: cs) = (true, c :: cs) := by simp [stripSign]
      simp only [parseInt, h1, h2, h3, h4]
      simp

/-- Reading back the numeral of any integer: property names of a reachability map
denote the integers they were written from. -/
theorem parseInt_jsString (n : Int) : parseInt (jsString n) = some n := by
  cases n with
  | ofNat m => exact parseInt_jsString_of_nonneg (Int.ofNat_nonneg m)
  | negSucc m =>
      obtain ⟨h1, h2, h3⟩ := natRepr_spec (m + 1)
      have hs : jsString (Int.negSucc m) = String.mk ('-' :: (Nat.repr (m + 1)).data) := by
        rw [jsString_negSucc]
        apply String.ext
        simp [String.data_append]
      rw [hs, parseInt_neg_digits _ h1 h2, h3, Int.negSucc_eq]
      simp

theorem jsString_injective {a b : Int} (h : jsString a = jsString b) : a = b := by
  have ha := parseInt_jsString a
  rw [h, parseInt_jsString b] at ha
  exact (Option.some.inj ha).symm


/-! ## Tokenizing -/

theorem isNumberToken_digits {ds : List Char} (hne : ds ≠ [])
    (hall : ∀ c ∈ ds, isDigit c = true) : isNumberToken (String.mk ds) = true := by
  simp [isNumberToken, parseInt_digits ds hne hall]

theorem isSymbol_cases {c : Char} (h : isSymbol c = true) :
    c = '+' ∨ c = '-' ∨ c = '*' ∨ c = '/' ∨ c = '(' ∨ c = ')' := by
  simpa [isSymbol, or_assoc] using h

theorem isNumberToken_symbol {c : Char} (h : isSymbol c = true) :
    isNumberToken (String.singleton c) = false := by
  rcases isSymbol_cases h with rfl | rfl | rfl | rfl | rfl | rfl <;> decide

theorem isSymbol_facts {c : Char} (h : isSymbol c = true) :
    isDigit c = false ∧ isWhiteSpace c = false := by
  rcases isSymbol_cases h with rfl | rfl | rfl | rfl | rfl | rfl <;> decide

theorem scanTokens_digits (ds cs run : List Char) (hall : ∀ c ∈ ds, isDigit c = true) :
    scanTokens (ds ++ cs) run = scanTokens cs (run ++ ds) := by
  induction ds generalizing run with
  | nil => simp
  | cons d ds ih =>
      have hd : isDigit d = true := hall d (List.mem_cons_self _ _)
      rw [List.cons_append, scanTokens]
      simp only [hd, if_true]
      rw [ih _ (fun c hc => hall c (List.mem_cons_of_mem _ hc))]
      simp

theorem scanTokens_flush (cs run : List Char) (h : StartsNonDigit cs) :
    scanTokens cs run = flushRun run ++ scanTokens cs [] := by
  cases cs with
  | nil => simp [scanTokens, flushRun]
  | cons c cs =>
      have hc : isDigit c = false := h c (by simp)
      simp only [scanTokens, hc]
      by_cases hw : isWhiteSpace c = true <;> simp [hw, flushRun]

theorem scanTokens_whiteSpace (ws cs : List Char) (hws : ∀ c ∈ ws, isWhiteSpace c = true) :
    scanTokens (ws ++ cs) [] = scanTokens cs [] := by
  induction ws with
  | nil => rfl
  | cons w ws ih =>
      have hw : isWhiteSpace w = true := hws w (List.mem_cons_self _ _)
      have hd : isDigit w = false := by
        cases h : isDigit w with
        | false => rfl
        | true => rw [(isDigit_facts h).1] at hw; cases hw
      simp only [List.cons_append, scanTokens, hd, hw, if_true]
      simpa [flushRun] using ih (fun c hc => hws c (List.mem_cons_of_mem _ hc))

theorem startsNonDigit_of_whiteSpace_append (ws cs : List Char)
    (hws : ∀ c ∈ ws, isWhiteSpace c = true) (h : StartsNonDigit cs) :
    StartsNonDigit (ws ++ cs) := by
  cases ws with
  | nil => exact h
  | cons w ws =>
      intro c hc
      have : c = w := by simpa using hc.symm
      subst this
      have hw : isWhiteSpace c = true := hws c (List.mem_cons_self _ _)
      cases hd : isDigit c with
      | false => rfl
      | true => rw [(isDigit_facts hd).1] at hw; cases hw

/-- A text spelling tokens that do not begin with a number does not begin with a digit. -/
theorem Spaced.startsNonDigit {toks : List String} {cs : List Char} (h : Spaced toks cs)
    (hhead : ∀ tok ∈ toks.head?, ∃ c, isSymbol c = true ∧ tok = String.singleton c) :
    StartsNonDigit cs := by
  induction h with
  | done ws hws =>
      have := startsNonDigit_of_whiteSpace_append ws [] hws (by intro c hc; simp at hc)
      simpa using this
  | token ws tok toks cs hws rest _ =>
      apply startsNonDigit_of_whiteSpace_append ws _ hws
      obtain ⟨c, hc, rfl⟩ := hhead tok (by simp)
      intro d hd
      have : d = c := by simpa [String.singleton] using hd.symm
      subst this
      exact (isSymbol_facts hc).1

/-- Scanning a text that spells a sequence of tokens returns these tokens. -/
theorem scanTokens_spaced {toks : List String} {cs : List Char} (h : Spaced toks cs)
    (htok : ∀ tok ∈ toks, IsToken tok) (hapart : NumbersApart toks) :
    scanTokens cs [] = toks := by
  induction h with
  | done ws hws =>
      have := scanTokens_whiteSpace ws [] hws
      simpa [scanTokens, flushRun] using this
  | token ws tok toks cs hws rest ih =>
      have ih := ih (fun t ht => htok t (List.mem_cons_of_mem _ ht)) hapart.tail
      rw [scanTokens_whiteSpace ws _ hws]
      rcases htok tok (List.mem_cons_self _ _) with ⟨ds, hne, hall, rfl⟩ | ⟨c, hc, rfl⟩
      · have hnext : StartsNonDigit cs := by
          apply rest.startsNonDigit
          intro t ht
          cases toks with
          | nil => simp at ht
          | cons t' toks =>
              have : t = t' := by simpa using ht.symm
              subst this
              have hrel := (List.chain'_cons.1 hapart).1
              rcases htok t (by simp) with ⟨ds', hne', hall', rfl⟩ | hsym
              · exact absurd ⟨isNumberToken_digits hne hall, isNumberToken_digits hne' hall'⟩ hrel
              · exact hsym
        rw [scanTokens_digits ds cs [] hall, scanTokens_flush _ _ hnext, ih]
        simp [flushRun, hne]
      · have hf := isSymbol_facts hc
        simp [String.singleton, scanTokens, hf.1, hf.2, flushRun, ih]

theorem tokenTest_of_isToken {tok : String} (h : IsToken tok) : tokenTest tok = true := by
  rcases h with ⟨ds, hne, hall, rfl⟩ | ⟨c, hc, rfl⟩
  · cases ds with
    | nil => exact absurd rfl hne
    | cons d ds => simp [tokenTest, hall d (List.mem_cons_self _ _)]
  · simp [tokenTest, String.singleton, hc]

/-- `tokenize` of a text that spells a sequence of tokens returns these tokens. -/
theorem tokenize_spaced {toks : List String} {formula : String} (h : Spaced toks formula.data)
    (htok : ∀ tok ∈ toks, IsToken tok) (hapart : NumbersApart toks) :
    tokenize formula = toks := by
  rw [tokenize, scanTokens_spaced h htok hapart, List.filter_eq_self]
  intro tok htk
  exact tokenTest_of_isToken (htok tok htk)


/-! ## Conversion to postfix -/

theorem Op.sym_facts (o : Op) :
    isNumberToken o.sym = false ∧ inPrecedence o.sym = true ∧ precedence o.sym = some o.prec ∧
      o.sym ≠ "(" ∧ o.sym ≠ ")" := by
  cases o <;> decide

theorem popsBefore_sym (o x : Op) : popsBefore o.sym x.sym = decide (o.prec ≤ x.prec) := by
  cases o <;> cases x <;> decide

theorem takeWhile_dropWhile_append {α : Type} (p : α → Bool) (a b : List α)
    (ha : ∀ x ∈ a, p x = true) (hb : ∀ y ∈ b.head?, p y = false) :
    (a ++ b).takeWhile p = a ∧ (a ++ b).dropWhile p = b := by
  induction a with
  | nil =>
      cases b with
      | nil => simp
      | cons y b => simp [List.takeWhile, List.dropWhile, hb y (by simp)]
  | cons x a ih =>
      have hx := ha x (List.mem_cons_self _ _)
      have := ih (fun z hz => ha z (List.mem_cons_of_mem _ hz))
      simp [List.takeWhile, List.dropWhile, hx, this.1, this.2]

/-- Shunting a well-formed formula: its tokens move to the output in postfix order,
except for a stack `s` of its outermost operators that are still waiting. -/
theorem toPostfixLoop_formula (e : Formula) (hwf : e.WellFormed) :
    ∀ (rest outputQueue operatorStack : List String), StackAdmits e operatorStack →
      ∃ (o : List String) (s : List Op), (∀ x ∈ s, e.level ≤ x.prec) ∧
        o ++ s.map Op.sym = e.postfixOrder ∧
        toPostfixLoop (e.tokens ++ rest) outputQueue operatorStack =
          toPostfixLoop rest (outputQueue ++ o) (s.map Op.sym ++ operatorStack) := by
  induction e with
  | num digits =>
      intro rest out ops _
      refine ⟨[String.mk digits], [], by simp, by simp [Formula.postfixOrder], ?_⟩
      have hn := isNumberToken_digits hwf.1 hwf.2
      simp [Formula.tokens, toPostfixLoop, hn]
  | paren e ih =>
      intro rest out ops _
      have hadm : StackAdmits e ("(" :: ops) := by
        intro top htop o _
        have : top = "(" := by simpa using htop.symm
        subst this
        simp [popsBefore, notOpen]
      obtain ⟨o, s, hs, hpost, hrun⟩ := ih hwf ([")"] ++ rest) out ("(" :: ops) hadm
      refine ⟨e.postfixOrder, [], by simp, by simp [Formula.postfixOrder], ?_⟩
      have h1 : isNumberToken "(" = false := by decide
      have h2 : inPrecedence "(" = false := by decide
      have h3 : isNumberToken ")" = false := by decide
      have h4 : inPrecedence ")" = false := by decide
      have h5 : ")" ≠ "(" := by decide
      have hsplit := takeWhile_dropWhile_append notOpen (s.map Op.sym)
        ("(" :: ops) (by
          intro x hx
          obtain ⟨y, _, rfl⟩ := List.mem_map.1 hx
          simpa [notOpen] using (Op.sym_facts y).2.2.2.1) (by simp [notOpen])
      have htok : (Formula.paren e).tokens ++ rest = "(" :: (e.tokens ++ ([")"] ++ rest)) := by
        simp [Formula.tokens]
      rw [htok, toPostfixLoop]
      simp only [h1, h2, if_true, Bool.false_eq_true, if_false]
      rw [hrun]
      simp only [List.singleton_append, toPostfixLoop, h3, h4, h5, if_true, Bool.false_eq_true,
        if_false, hsplit.1, hsplit.2]
      simp [← hpost]
  | bin op l r ihl ihr =>
      intro rest out ops hadm
      obtain ⟨hwl, hwr, hpl, hpr⟩ := hwf
      have hadml : StackAdmits l ops := by
        intro top htop o ho
        exact hadm top htop o (le_trans hpl ho)
      obtain ⟨ol, sl, hsl, hpostl, hrunl⟩ := ihl hwl (op.sym :: (r.tokens ++ rest)) out ops hadml
      have hadmr : StackAdmits r (op.sym :: ops) := by
        intro top htop o ho
        have : top = op.sym := by simpa using htop.symm
        subst this
        rw [popsBefore_sym]
        simp only [decide_eq_false_iff_not, not_le]
        omega
      obtain ⟨or, sr, hsr, hpostr, hrunr⟩ :=
        ihr hwr rest (out ++ ol ++ sl.map Op.sym) (op.sym :: ops) hadmr
      have hsplit := takeWhile_dropWhile_append (popsBefore op.sym) (sl.map Op.sym) ops (by
          intro x hx
          obtain ⟨y, hy, rfl⟩ := List.mem_map.1 hx
          rw [popsBefore_sym]
          have := hsl y hy
          simp only [decide_eq_true_eq]
          omega) (by
          intro y hy
          exact hadm y hy op (le_refl _))
      refine ⟨ol ++ sl.map Op.sym ++ or, sr ++ [op], ?_, ?_, ?_⟩
      · intro x hx
        rcases List.mem_append.1 hx with hx | hx
        · have := hsr x hx
          simp only [Formula.level]
          omega
        · rw [List.mem_singleton.1 hx]; exact le_refl _
      · simp only [Formula.postfixOrder, ← hpostl, ← hpostr]
        simp
      · have hf := Op.sym_facts op
        have htok : (Formula.bin op l r).tokens ++ rest =
            l.tokens ++ op.sym :: (r.tokens ++ rest) := by
          simp [Formula.tokens]
        rw [htok, hrunl, toPostfixLoop]
        simp only [hf.1, hf.2.1, if_true, Bool.false_eq_true, if_false, hsplit.1, hsplit.2]
        rw [← List.append_assoc, hrunr]
        simp

theorem drainOperators_syms (s : List Op) (outputQueue : List String) :
    drainOperators (s.map Op.sym) outputQueue = .ok (outputQueue ++ s.map Op.sym) := by
  induction s generalizing outputQueue with
  | nil => simp [drainOperators]
  | cons x s ih =>
      simp [drainOperators, (Op.sym_facts x).2.2.2.1, ih]

/-- `toPostfix` turns the tokens of a well-formed formula into its postfix order. -/
theorem toPostfix_formula (e : Formula) (hwf : e.WellFormed) :
    toPostfix e.tokens = .ok e.postfixOrder := by
  obtain ⟨o, s, _, hpost, hrun⟩ := toPostfixLoop_formula e hwf [] [] []
    (by intro top htop; simp at htop)
  simp only [List.append_nil, List.nil_append] at hrun
  rw [toPostfix, hrun]
  simp only [toPostfixLoop]
  rw [drainOperators_syms, hpost]


/-! ## Evaluation of postfix sequences -/

theorem foldl_increment_getD (nums : List Int) (table : CountTable) (n : Int) :
    ((nums.foldl increment table) n).getD 0 = (table n).getD 0 + nums.count n := by
  induction nums generalizing table with
  | nil => simp
  | cons m nums ih =>
      rw [List.foldl_cons, ih, List.count_cons]
      by_cases h : m = n
      · subst h; simp [increment]; omega
      · have h' : n ≠ m := fun e => h e.symm
        simp [increment, Function.update_noteq h', h]

theorem foldl_increment_eq_none (nums : List Int) (table : CountTable) (n : Int) :
    (nums.foldl increment table) n = none ↔ table n = none ∧ n ∉ nums := by
  induction nums generalizing table with
  | nil => simp
  | cons m nums ih =>
      rw [List.foldl_cons, ih]
      by_cases h : m = n
      · subst h; simp [increment]
      · have h' : n ≠ m := fun e => h e.symm
        simp [increment, Function.update_noteq h', h']

theorem availableNumbersCount_getD (pool : List Int) (n : Int) :
    ((availableNumbersCount pool) n).getD 0 = pool.count n := by
  simp [availableNumbersCount, foldl_increment_getD]

theorem availableNumbersCount_eq_none (pool : List Int) (n : Int) :
    availableNumbersCount pool n = none ↔ n ∉ pool := by
  simp [availableNumbersCount, foldl_increment_eq_none]

theorem usageExceeded_eq_false {available used : CountTable} {num : Int}
    (h : (used num).getD 0 < (available num).getD 0) : usageExceeded available used num = false := by
  unfold usageExceeded
  cases ha : available num with
  | none => simp [ha] at h
  | some c =>
      cases hu : used num with
      | none => simp [ha, hu] at h ⊢; omega
      | some u => simp [ha, hu] at h ⊢; omega

theorem applyOperator_of_apply {op : Op} {a b v : Int} (h : op.apply a b = some v) :
    applyOperator op.sym a b = .ok v := by
  cases op
  · simp only [Op.apply] at h
    split at h
    · cases h; simp [applyOperator, Op.sym]; omega
    · cases h
  · simp only [Op.apply] at h
    split at h
    · cases h; simp [applyOperator, Op.sym]; omega
    · cases h
  · simp only [Op.apply] at h
    split at h
    · rename_i hpos
      cases h
      have h1 : ("*" : String) ≠ "+" := by decide
      have h2 : ("*" : String) ≠ "-" := by decide
      simp [applyOperator, Op.sym, h1, h2]; omega
    · cases h
  · simp only [Op.apply] at h
    split at h
    · rename_i hc
      cases h
      obtain ⟨hb, hdvd, hpos⟩ := hc
      have h1 : ("/" : String) ≠ "+" := by decide
      have h2 : ("/" : String) ≠ "-" := by decide
      have h3 : ("/" : String) ≠ "*" := by decide
      have hm : a.tmod b = 0 := Int.tmod_eq_zero_of_dvd hdvd
      have hd : a.tdiv b = a / b := Int.tdiv_eq_ediv_of_dvd hdvd
      simp [applyOperator, Op.sym, h1, h2, h3, hb, hm, hd]; omega
    · cases h

/-- Evaluating the postfix order of a well-formed formula pushes its reference value
and counts its numerals as used, as long as the pool has enough of each. -/
theorem evalLoop_formula (available : CountTable) (e : Formula) (hwf : e.WellFormed) :
    ∀ (v : Int) (rest : List String) (st : EvalState), e.eval = some v →
      (∀ n, (st.usedNumbers n).getD 0 + e.numerals.count n ≤ (available n).getD 0) →
      evalLoop available (e.postfixOrder ++ rest) st =
        evalLoop available rest
          { valueStack := v :: st.valueStack
            usedNumbers := e.numerals.foldl increment st.usedNumbers } := by
  induction e with
  | num digits =>
      intro v rest st hv huse
      simp only [Formula.eval, Option.some.injEq] at hv
      subst hv
      have hp := parseInt_digits digits hwf.1 hwf.2
      have hu : usageExceeded available st.usedNumbers (digitsValue 10 digits : Int) = false := by
        apply usageExceeded_eq_false
        have := huse (digitsValue 10 digits : Int)
        simp [Formula.numerals] at this
        omega
      simp [Formula.postfixOrder, evalLoop, evalToken, hp, hu, Formula.numerals]
  | paren e ih =>
      intro v rest st hv huse
      exact ih hwf v rest st hv huse
  | bin op l r ihl ihr =>
      intro v rest st hv huse
      obtain ⟨hwl, hwr, _, _⟩ := hwf
      simp only [Formula.eval] at hv
      cases hl : l.eval with
      | none => simp [hl] at hv
      | some a =>
          cases hr : r.eval with
          | none => simp [hl, hr] at hv
          | some b =>
              simp only [hl, hr] at hv
              have husel : ∀ n, (st.usedNumbers n).getD 0 + l.numerals.count n ≤
                  (available n).getD 0 := by
                intro n
                have := huse n
                simp only [Formula.numerals, List.count_append] at this
                omega
              have huser : ∀ n, ((l.numerals.foldl increment st.usedNumbers) n).getD 0 +
                  r.numerals.count n ≤ (available n).getD 0 := by
                intro n
                have := huse n
                simp only [Formula.numerals, List.count_append] at this
                rw [foldl_increment_getD]
                omega
              have hpost : (Formula.bin op l r).postfixOrder ++ rest =
                  l.postfixOrder ++ (r.postfixOrder ++ (op.sym :: rest)) := by
                simp [Formula.postfixOrder]
              have hn : parseInt op.sym = none := by
                have := (Op.sym_facts op).1
                simpa [isNumberToken] using this
              rw [hpost, ihl hwl a _ st hl husel, ihr hwr b _ _ hr huser]
              simp [evalLoop, evalToken, hn, applyOperator_of_apply hv, Formula.numerals,
                List.foldl_append]

/-- `evaluatePostfix` on the postfix order of a well-formed formula returns its
reference value, if the pool has enough of each numeral. -/
theorem evaluatePostfix_formula (e : Formula) (hwf : e.WellFormed) (pool : List Int) (v : Int)
    (hv : e.eval = some v) (huse : ∀ n, e.numerals.count n ≤ pool.count n) :
    evaluatePostfix e.postfixOrder pool = .ok v := by
  have h := evalLoop_formula (availableNumbersCount pool) e hwf v []
    { valueStack := [], usedNumbers := fun _ => none } hv (by
      intro n
      rw [availableNumbersCount_getD]
      simpa using huse n)
  rw [List.append_nil] at h
  simp [evaluatePostfix, h, evalLoop]


/-! ## `evaluateUserFormula` on well-formed formulas -/

theorem isToken_sym (o : Op) : IsToken o.sym := by
  refine Or.inr ?_
  cases o
  · exact ⟨'+', by decide, rfl⟩
  · exact ⟨'-', by decide, rfl⟩
  · exact ⟨'*', by decide, rfl⟩
  · exact ⟨'/', by decide, rfl⟩

theorem Formula.tokens_isToken (e : Formula) (hwf : e.WellFormed) :
    ∀ tok ∈ e.tokens, IsToken tok := by
  induction e with
  | num digits =>
      intro tok htok
      rw [Formula.tokens, List.mem_singleton] at htok
      exact Or.inl ⟨digits, hwf.1, hwf.2, htok⟩
  | paren e ih =>
      intro tok htok
      simp only [Formula.tokens, List.mem_cons, List.mem_append, List.mem_singleton,
        List.not_mem_nil, or_false] at htok
      rcases htok with (rfl | htok) | rfl
      · exact Or.inr ⟨'(', by decide, rfl⟩
      · exact ih hwf tok htok
      · exact Or.inr ⟨')', by decide, rfl⟩
  | bin op l r ihl ihr =>
      intro tok htok
      simp only [Formula.tokens, List.mem_cons, List.mem_append] at htok
      rcases htok with htok | rfl | htok
      · exact ihl hwf.1 tok htok
      · exact isToken_sym op
      · exact ihr hwf.2.1 tok htok

theorem Formula.tokens_apart (e : Formula) : NumbersApart e.tokens := by
  induction e with
  | num digits => exact List.chain'_singleton _
  | paren e ih =>
      have h1 : isNumberToken "(" = false := by decide
      have h2 : isNumberToken ")" = false := by decide
      have : NumbersApart (e.tokens ++ [")"]) := by
        apply List.Chain'.append ih (List.chain'_singleton _)
        intro x _ y hy
        have : y = ")" := by simpa using hy.symm
        subst this
        simp [h2]
      apply List.Chain'.cons' this
      intro y _
      simp [h1]
  | bin op l r ihl ihr =>
      have hs := (Op.sym_facts op).1
      have : NumbersApart (op.sym :: r.tokens) := by
        apply List.Chain'.cons' ihr
        intro y _
        simp [hs]
      apply List.Chain'.append ihl this
      intro x _ y hy
      have : y = op.sym := by simpa using hy.symm
      subst this
      simp [hs]

theorem Formula.tokens_ne_nil (e : Formula) : e.tokens ≠ [] := by
  induction e with
  | num digits => simp [Formula.tokens]
  | paren e _ => simp [Formula.tokens]
  | bin op l r _ _ => simp [Formula.tokens]

theorem validateTokens_of_isToken (toks : List String) (h : ∀ tok ∈ toks, IsToken tok) :
    validateTokens toks = .ok () := by
  induction toks with
  | nil => rfl
  | cons tok toks ih =>
      have ih := ih (fun t ht => h t (List.mem_cons_of_mem _ ht))
      rcases h tok (List.mem_cons_self _ _) with ⟨ds, hne, hall, rfl⟩ | ⟨c, hc, rfl⟩
      · simp [validateTokens, isNumberToken_digits hne hall, ih]
      · rcases isSymbol_cases hc with rfl | rfl | rfl | rfl | rfl | rfl <;>
          simp [validateTokens, ih] <;> decide

theorem isToken_not_blank {tok : String} (h : IsToken tok) :
    ∃ c ∈ tok.data, isWhiteSpace c = false := by
  rcases h with ⟨ds, hne, hall, rfl⟩ | ⟨c, hc, rfl⟩
  · cases ds with
    | nil => exact absurd rfl hne
    | cons d ds => exact ⟨d, by simp, (isDigit_facts (hall d (List.mem_cons_self _ _))).1⟩
  · exact ⟨c, by simp [String.singleton], (isSymbol_facts hc).2⟩

/-- A text that spells at least one token is not blank. -/
theorem Spaced.not_blank {toks : List String} {cs : List Char} (h : Spaced toks cs)
    (hne : toks ≠ []) (htok : ∀ tok ∈ toks, IsToken tok) : cs.all isWhiteSpace = false := by
  induction h with
  | done ws hws => exact absurd rfl hne
  | token ws tok toks cs hws rest _ =>
      obtain ⟨c, hc, hcw⟩ := isToken_not_blank (htok tok (List.mem_cons_self _ _))
      rw [List.all_eq_false]
      exact ⟨c, by simp [hc], by simp [hcw]⟩

/-- `evaluateUserFormula` on a text that spells a well-formed formula returns the
reference value of the formula, if the pool has enough of each numeral. -/
theorem evaluateUserFormula_formula (e : Formula) (hwf : e.WellFormed) (formula : String)
    (hsp : Spaced e.tokens formula.data) (pool : List Int) (v : Int)
    (hv : e.eval = some v) (huse : ∀ n, e.numerals.count n ≤ pool.count n) :
    evaluateUserFormula formula pool = .ok v := by
  have htok := e.tokens_isToken hwf
  have hblank := hsp.not_blank e.tokens_ne_nil htok
  have htz := tokenize_spaced hsp htok e.tokens_apart
  simp [evaluateUserFormula, hblank, htz, validateTokens_of_isToken _ htok,
    toPostfix_formula e hwf, evaluatePostfix_formula e hwf pool v hv huse]

theorem numeralsOf_formula (e : Formula) (hwf : e.WellFormed) (formula : String)
    (hsp : Spaced e.tokens formula.data) : numeralsOf formula = e.numerals := by
  have htok := e.tokens_isToken hwf
  rw [numeralsOf, tokenize_spaced hsp htok e.tokens_apart]
  clear hsp htok
  induction e with
  | num digits => simp [Formula.tokens, Formula.numerals, parseInt_digits digits hwf.1 hwf.2]
  | paren e ih =>
      have h1 : parseInt "(" = none := by decide
      have h2 : parseInt ")" = none := by decide
      simp [Formula.tokens, Formula.numerals, List.filterMap_append, List.filterMap_cons, h1, h2,
        ih hwf]
  | bin op l r ihl ihr =>
      have hn : parseInt op.sym = none := by
        have := (Op.sym_facts op).1
        simpa [isNumberToken] using this
      simp [Formula.tokens, Formula.numerals, List.filterMap_append, List.filterMap_cons, hn,
        ihl hwf.1, ihr hwf.2.1]


/-! ## The text of a solver tree -/

theorem Spaced.single (tok : String) : Spaced [tok] tok.data := by
  have := Spaced.token [] tok [] [] (by simp) (Spaced.done [] (by simp))
  simpa using this

theorem Spaced.whiteSpace_append {toks : List String} {cs : List Char} (ws : List Char)
    (hws : ∀ c ∈ ws, isWhiteSpace c = true) (h : Spaced toks cs) : Spaced toks (ws ++ cs) := by
  induction h with
  | done ws' hws' =>
      apply Spaced.done
      intro c hc
      rcases List.mem_append.1 hc with hc | hc
      · exact hws c hc
      · exact hws' c hc
  | token ws' tok toks cs hws' rest _ =>
      have := Spaced.token (ws ++ ws') tok toks cs (by
        intro c hc
        rcases List.mem_append.1 hc with hc | hc
        · exact hws c hc
        · exact hws' c hc) rest
      simpa using this

theorem Spaced.append {a b : List String} {ca cb : List Char} (ha : Spaced a ca)
    (hb : Spaced b cb) : Spaced (a ++ b) (ca ++ cb) := by
  induction ha with
  | done ws hws => exact hb.whiteSpace_append ws hws
  | token ws tok toks cs hws rest ih =>
      have := Spaced.token ws tok (toks ++ b) (cs ++ cb) hws ih
      simpa using this

theorem exprOf_data (exprL opSym exprR : String) :
    (exprOf exprL opSym exprR).data =
      "(".data ++ (exprL.data ++ ([' '] ++ (opSym.data ++ ([' '] ++ (exprR.data ++ ")".data))))) := by
  simp [exprOf, String.data_append]

/-- The text the solver writes for a tree spells the tokens of its formula. -/
theorem Tree.render_spaced (t : Tree) : Spaced t.toFormula.tokens t.render.data := by
  induction t with
  | leaf n => exact Spaced.single _
  | node op l r ihl ihr =>
      have hsp : Spaced [] [' '] := Spaced.done [' '] (by
        intro c hc
        rw [List.mem_singleton.1 hc]
        decide)
      have := (Spaced.single "(").append (ihl.append (hsp.append ((Spaced.single op.sym).append
        (hsp.append (ihr.append (Spaced.single ")"))))))
      rw [Tree.render, exprOf_data]
      simpa [Tree.toFormula, Formula.tokens] using this

theorem Tree.toFormula_wellFormed (t : Tree) (h : ∀ n ∈ t.leaves, 0 ≤ n) :
    t.toFormula.WellFormed := by
  induction t with
  | leaf n =>
      have := jsString_digits (h n (by simp [Tree.leaves]))
      exact ⟨this.1, this.2.1⟩
  | node op l r ihl ihr =>
      have hl := ihl (fun n hn => h n (by simp [Tree.leaves, hn]))
      have hr := ihr (fun n hn => h n (by simp [Tree.leaves, hn]))
      refine ⟨hl, hr, ?_, ?_⟩
      · cases l <;> cases op <;> simp [Tree.toFormula, Formula.level, Op.prec]
      · cases r <;> cases op <;> simp [Tree.toFormula, Formula.level, Op.prec]

theorem Tree.toFormula_eval (t : Tree) (h : ∀ n ∈ t.leaves, 0 ≤ n) :
    t.toFormula.eval = t.eval := by
  induction t with
  | leaf n =>
      have := jsString_digits (h n (by simp [Tree.leaves]))
      simp [Tree.toFormula, Formula.eval, Tree.eval, this.2.2]
  | node op l r ihl ihr =>
      have hl := ihl (fun n hn => h n (by simp [Tree.leaves, hn]))
      have hr := ihr (fun n hn => h n (by simp [Tree.leaves, hn]))
      simp [Tree.toFormula, Formula.eval, Tree.eval, hl, hr]

theorem Tree.toFormula_numerals (t : Tree) (h : ∀ n ∈ t.leaves, 0 ≤ n) :
    t.toFormula.numerals = t.leaves := by
  induction t with
  | leaf n =>
      have := jsString_digits (h n (by simp [Tree.leaves]))
      simp [Tree.toFormula, Formula.numerals, Tree.leaves, this.2.2]
  | node op l r ihl ihr =>
      have hl := ihl (fun n hn => h n (by simp [Tree.leaves, hn]))
      have hr := ihr (fun n hn => h n (by simp [Tree.leaves, hn]))
      simp [Tree.toFormula, Formula.numerals, Tree.leaves, hl, hr]

/-- `evaluateUserFormula` on the text of a solver tree with non-negative leaves taken
from the pool returns the value of the tree. -/
theorem evaluateUserFormula_render (t : Tree) (pool : List Int) (v : Int)
    (hleaves : ∀ n ∈ t.leaves, 0 ≤ n) (hv : t.eval = some v)
    (huse : ∀ n, t.leaves.count n ≤ pool.count n) :
    evaluateUserFormula t.render pool = .ok v := by
  apply evaluateUserFormula_formula t.toFormula (t.toFormula_wellFormed hleaves) t.render
    t.render_spaced pool v
  · rw [t.toFormula_eval hleaves, hv]
  · rw [t.toFormula_numerals hleaves]; exact huse


/-! ## The memo key -/

theorem jsString_chars (n : Int) :
    (jsString n).data ≠ [] ∧ ∀ c ∈ (jsString n).data, c ≠ ',' := by
  cases n with
  | ofNat m =>
      obtain ⟨h1, h2, _⟩ := natRepr_spec m
      exact ⟨h1, fun c hc => (isDigit_facts (h2 c hc)).2.2.2.2.2.2.1⟩
  | negSucc m =>
      obtain ⟨_, h2, _⟩ := natRepr_spec (m + 1)
      have hd : (jsString (Int.negSucc m)).data = '-' :: (Nat.repr (m + 1)).data := by
        rw [jsString_negSucc]; simp [String.data_append]
      rw [hd]
      refine ⟨by simp, ?_⟩
      intro c hc
      rcases List.mem_cons.1 hc with rfl | hc
      · decide
      · exact (isDigit_facts (h2 c hc)).2.2.2.2.2.2.1

theorem split_at_comma : ∀ (u u' s s' : List Char), (∀ c ∈ u, c ≠ ',') → (∀ c ∈ u', c ≠ ',') →
    u ++ ',' :: s = u' ++ ',' :: s' → u = u' ∧ s = s' := by
  intro u
  induction u with
  | nil =>
      intro u' s s' _ hu' h
      cases u' with
      | nil => simpa using h
      | cons c u' =>
          simp only [List.nil_append, List.cons_append, List.cons.injEq] at h
          exact absurd h.1.symm (hu' c (List.mem_cons_self _ _))
  | cons c u ih =>
      intro u' s s' hu hu' h
      cases u' with
      | nil =>
          simp only [List.nil_append, List.cons_append, List.cons.injEq] at h
          exact absurd h.1 (hu c (List.mem_cons_self _ _))
      | cons c' u' =>
          simp only [List.cons_append, List.cons.injEq] at h
          obtain ⟨h1, h2⟩ := ih u' s s' (fun d hd => hu d (List.mem_cons_of_mem _ hd))
            (fun d hd => hu' d (List.mem_cons_of_mem _ hd)) h.2
          exact ⟨by rw [h.1, h1], h2⟩

theorem joinWith_cons_cons_data (x y : String) (rest : List String) :
    (joinWith "," (x :: y :: rest)).data = x.data ++ ',' :: (joinWith "," (y :: rest)).data := by
  simp [joinWith, String.data_append]

theorem joinWith_jsString_injective : ∀ (as bs : List Int),
    joinWith "," (as.map jsString) = joinWith "," (bs.map jsString) → as = bs := by
  intro as
  induction as with
  | nil =>
      intro bs h
      cases bs with
      | nil => rfl
      | cons b bs =>
          exfalso
          have h := congrArg String.data h
          cases bs with
          | nil =>
              simp only [List.map, joinWith] at h
              exact (jsString_chars b).1 h.symm
          | cons b' bs =>
              simp only [List.map, joinWith_cons_cons_data] at h
              simp [joinWith] at h
  | cons a as ih =>
      intro bs h
      have hd := congrArg String.data h
      cases as with
      | nil =>
          cases bs with
          | nil =>
              simp only [List.map, joinWith] at hd
              exact absurd hd (jsString_chars a).1
          | cons b bs =>
              cases bs with
              | nil =>
                  simp only [List.map, joinWith] at h
                  rw [jsString_injective h]
              | cons b' bs =>
                  exfalso
                  simp only [List.map, joinWith_cons_cons_data] at hd
                  simp only [joinWith] at hd
                  exact (jsString_chars a).2 ',' (by rw [hd]; simp) rfl
      | cons a' as =>
          cases bs with
          | nil =>
              simp only [List.map, joinWith_cons_cons_data] at hd
              simp [joinWith] at hd
          | cons b bs =>
              cases bs with
              | nil =>
                  exfalso
                  simp only [List.map, joinWith_cons_cons_data] at hd
                  simp only [joinWith] at hd
                  exact (jsString_chars b).2 ',' (by rw [← hd]; simp) rfl
              | cons b' bs =>
                  simp only [List.map, joinWith_cons_cons_data] at hd
                  obtain ⟨h1, h2⟩ := split_at_comma _ _ _ _ (jsString_chars a).2
                    (jsString_chars b).2 hd
                  have hab : a = b := jsString_injective (String.ext h1)
                  have := ih (b' :: bs) (String.ext h2)
                  rw [hab, this]

/-- Lists with the same memo key hold the same numbers. -/
theorem perm_of_numbersTuple_eq {as bs : List Int} (h : numbersTuple as = numbersTuple bs) :
    as.Perm bs := by
  have hs := joinWith_jsString_injective _ _ h
  exact (List.perm_insertionSort (· ≤ ·) as).symm.trans
    (hs ▸ List.perm_insertionSort (· ≤ ·) bs)

/-- Lists that hold the same numbers have the same memo key. -/
theorem numbersTuple_eq_of_perm {as bs : List Int} (h : as.Perm bs) :
    numbersTuple as = numbersTuple bs := by
  have hs : as.insertionSort (· ≤ ·) = bs.insertionSort (· ≤ ·) := by
    apply List.eq_of_perm_of_sorted (r := (· ≤ ·))
    · exact (List.perm_insertionSort _ as).trans (h.trans (List.perm_insertionSort _ bs).symm)
    · exact List.sorted_insertionSort _ as
    · exact List.sorted_insertionSort _ bs
  rw [numbersTuple, hs, numbersTuple]

/-! ## Property reads and writes -/

theorem SolveCache.get_set (cache : SolveCache) (key key' : String) (m : ReachabilityMap) :
    (cache.set key m).get key' = if key' = key then some m else cache.get key' := by
  induction cache with
  | nil =>
      by_cases h : key' = key
      · simp [SolveCache.set, SolveCache.get, h]
      · have h' : key ≠ key' := fun e => h e.symm
        simp [SolveCache.set, SolveCache.get, h, h']
  | cons p cache ih =>
      obtain ⟨k, old⟩ := p
      by_cases hk : k = key
      · subst hk
        by_cases h : key' = k
        · subst h; simp [SolveCache.set, SolveCache.get]
        · have h' : k ≠ key' := fun e => h e.symm
          simp [SolveCache.set, SolveCache.get, h, h']
      · by_cases h : key' = key
        · subst h
          simp [SolveCache.set, SolveCache.get, hk, ih]
        · by_cases h2 : k = key'
          · simp [SolveCache.set, SolveCache.get, hk, h, h2]
          · simp [SolveCache.set, SolveCache.get, hk, h, h2, ih]

theorem mem_insertKey (key : Int) (expr : String) (m : ReachabilityMap) (p : Int × String) :
    p ∈ insertKey key expr m ↔ p = (key, expr) ∨ p ∈ m := by
  induction m with
  | nil => simp [insertKey]
  | cons q m ih =>
      obtain ⟨k, e⟩ := q
      simp only [insertKey]
      split
      · simp
      · simp only [List.mem_cons, ih]
        tauto

theorem mem_replaceKey (key : Int) (expr : String) (m : ReachabilityMap) (p : Int × String)
    (h : p ∈ replaceKey key expr m) : p = (key, expr) ∨ p ∈ m := by
  induction m with
  | nil => simp [replaceKey] at h
  | cons q m ih =>
      obtain ⟨k, e⟩ := q
      simp only [replaceKey] at h
      split at h
      · rename_i hk
        subst hk
        rcases List.mem_cons.1 h with h | h
        · exact Or.inl h
        · exact Or.inr (List.mem_cons_of_mem _ h)
      · rcases List.mem_cons.1 h with h | h
        · exact Or.inr (by rw [h]; exact List.mem_cons_self _ _)
        · rcases ih h with h | h
          · exact Or.inl h
          · exact Or.inr (List.mem_cons_of_mem _ h)

/-- A write adds at most the written entry. -/
theorem ReachabilityMap.mem_set (m : ReachabilityMap) (key : Int) (expr : String)
    (p : Int × String) (h : p ∈ m.set key expr) : p = (key, expr) ∨ p ∈ m := by
  unfold ReachabilityMap.set at h
  split at h
  · exact mem_replaceKey key expr m p h
  · exact (mem_insertKey key expr m p).1 h

theorem ReachabilityMap.get_isSome_iff (m : ReachabilityMap) (key : Int) :
    (m.get key).isSome = true ↔ key ∈ m.keys := by
  induction m with
  | nil => simp [ReachabilityMap.get, ReachabilityMap.keys]
  | cons q m ih =>
      obtain ⟨k, e⟩ := q
      by_cases hk : k = key
      · simp [ReachabilityMap.get, ReachabilityMap.keys, hk]
      · have hk' : key ≠ k := fun e => hk e.symm
        simp only [ReachabilityMap.get, hk, if_false, ih]
        simp [ReachabilityMap.keys, hk']

theorem ReachabilityMap.mem_of_get (m : ReachabilityMap) (key : Int) (expr : String)
    (h : m.get key = some expr) : (key, expr) ∈ m := by
  induction m with
  | nil => simp [ReachabilityMap.get] at h
  | cons q m ih =>
      obtain ⟨k, e⟩ := q
      by_cases hk : k = key
      · simp only [ReachabilityMap.get, hk, if_true, Option.some.injEq] at h
        simp [hk, h]
      · simp only [ReachabilityMap.get, hk, if_false] at h
        exact List.mem_cons_of_mem _ (ih h)

theorem keys_replaceKey (key : Int) (expr : String) (m : ReachabilityMap) :
    (replaceKey key expr m).map Prod.fst = m.map Prod.fst := by
  induction m with
  | nil => rfl
  | cons q m ih =>
      obtain ⟨k, e⟩ := q
      by_cases hk : k = key
      · simp [replaceKey, hk]
      · simp [replaceKey, hk, ih]

/-- The keys after a write: the written key and the keys before. -/
theorem ReachabilityMap.mem_keys_set (m : ReachabilityMap) (key key' : Int) (expr : String) :
    key' ∈ (m.set key expr).keys ↔ key' = key ∨ key' ∈ m.keys := by
  unfold ReachabilityMap.set
  split
  · rename_i h
    rw [ReachabilityMap.keys, keys_replaceKey]
    have := (m.get_isSome_iff key).1 h
    constructor
    · exact fun h => Or.inr h
    · rintro (rfl | h)
      · exact this
      · exact h
  · simp only [ReachabilityMap.keys, List.mem_map, mem_insertKey]
    constructor
    · rintro ⟨p, hp | hp, rfl⟩
      · left; rw [hp]
      · right; exact ⟨p, hp, rfl⟩
    · rintro (rfl | ⟨p, hp, rfl⟩)
      · exact ⟨(key', expr), Or.inl rfl, rfl⟩
      · exact ⟨p, Or.inr hp, rfl⟩


/-! ## The memoised solver computes `Solved` maps -/

theorem CacheOK.set {cache : SolveCache} (h : CacheOK cache) (ns : List Int)
    (m : ReachabilityMap) (hm : Solved ns m) : CacheOK (cache.set (numbersTuple ns) m) := by
  intro key m' hget
  rw [SolveCache.get_set] at hget
  split at hget
  · rename_i hk
    cases hget
    exact ⟨ns, hk.symm, hm⟩
  · exact h key m' hget

theorem solveSplits_runs (recur : List Int → SolveCache → SolveResult) (hrec : CallOK recur)
    (numbers : List Int) :
    ∀ (splits : List (List Nat)) (results : ReachabilityMap) (cache : SolveCache)
      (m : ReachabilityMap) (cache' : SolveCache), CacheOK cache →
      solveSplits recur numbers splits results cache = some (m, cache') →
      ∃ runs : List SplitRun, runs.map SplitRun.leftIndices = splits ∧
        (∀ run ∈ runs, run.leftNums.Perm (leftNumsOf numbers run.leftIndices)) ∧
        (∀ run ∈ runs, run.rightNums.Perm (rightNumsOf numbers run.leftIndices)) ∧
        (∀ run ∈ runs, Solved run.leftNums run.resLeft) ∧
        (∀ run ∈ runs, Solved run.rightNums run.resRight) ∧
        m = foldRuns runs results ∧ CacheOK cache' := by
  intro splits
  induction splits with
  | nil =>
      intro results cache m cache' hc h
      simp only [solveSplits, Option.some.injEq, Prod.mk.injEq] at h
      exact ⟨[], rfl, by simp, by simp, by simp, by simp, by simp [foldRuns, h.1], h.2 ▸ hc⟩
  | cons leftIndices more ih =>
      intro results cache m cache' hc h
      simp only [solveSplits] at h
      cases hL : recur (leftNumsOf numbers leftIndices) cache with
      | none => simp [hL] at h
      | some pL =>
          obtain ⟨resLeft, cache1⟩ := pL
          simp only [hL] at h
          cases hR : recur (rightNumsOf numbers leftIndices) cache1 with
          | none => simp [hR] at h
          | some pR =>
              obtain ⟨resRight, cache2⟩ := pR
              simp only [hR] at h
              obtain ⟨⟨lns, hlp, hls⟩, _, hc1⟩ := hrec _ _ _ _ hc hL
              obtain ⟨⟨rns, hrp, hrs⟩, _, hc2⟩ := hrec _ _ _ _ hc1 hR
              obtain ⟨runs, hidx, h1, h2, h3, h4, hm, hc'⟩ := ih _ _ _ _ hc2 h
              refine ⟨⟨leftIndices, lns, resLeft, rns, resRight⟩ :: runs, by simp [hidx],
                ?_, ?_, ?_, ?_, ?_, hc'⟩
              · intro run hrun
                rcases List.mem_cons.1 hrun with rfl | hrun
                · exact hlp
                · exact h1 run hrun
              · intro run hrun
                rcases List.mem_cons.1 hrun with rfl | hrun
                · exact hrp
                · exact h2 run hrun
              · intro run hrun
                rcases List.mem_cons.1 hrun with rfl | hrun
                · exact hls
                · exact h3 run hrun
              · intro run hrun
                rcases List.mem_cons.1 hrun with rfl | hrun
                · exact hrs
                · exact h4 run hrun
              · rw [hm]; simp [foldRuns]

theorem solveStep_callOK (recur : List Int → SolveCache → SolveResult) (hrec : CallOK recur) :
    CallOK (solveStep recur) := by
  intro ns cache m cache' hc h
  unfold solveStep at h
  cases hget : cache.get (numbersTuple ns) with
  | some cached =>
      simp only [hget, Option.some.injEq, Prod.mk.injEq] at h
      obtain ⟨rfl, rfl⟩ := h
      obtain ⟨ns', hkey, hs⟩ := hc _ _ hget
      exact ⟨⟨ns', perm_of_numbersTuple_eq hkey, hs⟩, by simp, hc⟩
  | none =>
      simp only [hget] at h
      have key : Solved ns m ∧ CacheOK cache' := by
        split at h
        · rename_i n
          simp only [Option.some.injEq, Prod.mk.injEq] at h
          obtain ⟨rfl, rfl⟩ := h
          exact ⟨Solved.single n, hc.set [n] _ (Solved.single n)⟩
        · rename_i hne
          cases hs : solveSplits recur ns (allLeftIndices ns.length) (singletons ns) cache with
          | none => simp [hs] at h
          | some p =>
              obtain ⟨results, cache1⟩ := p
              simp only [hs, Option.some.injEq, Prod.mk.injEq] at h
              obtain ⟨rfl, rfl⟩ := h
              obtain ⟨runs, hidx, h1, h2, h3, h4, hm, hc1⟩ :=
                solveSplits_runs recur hrec ns _ _ _ _ _ hc hs
              have hsolved : Solved ns results := by
                rw [hm]
                exact Solved.split ns runs (fun n e => hne n e) hidx h1 h2 h3 h4
              exact ⟨hsolved, hc1.set ns _ hsolved⟩
      exact ⟨⟨ns, List.Perm.refl _, key.1⟩, fun _ => key.1, key.2⟩

theorem solveNumbersGameInternal_callOK (fuel : Nat) : CallOK (solveNumbersGameInternal fuel) := by
  induction fuel with
  | zero => intro ns cache m cache' _ h; simp [solveNumbersGameInternal] at h
  | succ fuel ih => exact solveStep_callOK _ ih

theorem cacheOK_nil : CacheOK [] := by
  intro key m h
  simp [SolveCache.get] at h

/-- The map returned by `solveNumbersGame` is the one the recursion computes for
`numbers`. -/
theorem solveNumbersGame_solved (numbers : List Int) (cache : SolveCache) (m : ReachabilityMap)
    (cache' : SolveCache) (h : solveNumbersGame numbers cache = some (m, cache')) :
    Solved numbers m :=
  (solveNumbersGameInternal_callOK _ numbers [] m cache' cacheOK_nil h).2.1 rfl


/-! ## The splits -/

/-- Every combination extends `current` by a sub-list of `rest` and has `k` elements. -/
theorem combine_spec {α : Type} (k : Nat) : ∀ (rest current out : List α),
    out ∈ combine k rest current →
      out.length = k ∧ ∃ s, s.Sublist rest ∧ out = current ++ s := by
  intro rest
  induction rest with
  | nil =>
      intro current out h
      simp only [combine] at h
      split at h
      · rename_i hk
        rw [List.mem_singleton] at h
        subst h
        exact ⟨hk, [], List.Sublist.refl _, by simp⟩
      · simp at h
  | cons x rest ih =>
      intro current out h
      simp only [combine] at h
      split at h
      · rename_i hk
        rw [List.mem_singleton] at h
        subst h
        exact ⟨hk, [], List.nil_sublist _, by simp⟩
      · rcases List.mem_append.1 h with h | h
        · obtain ⟨hlen, s, hs, rfl⟩ := ih _ _ h
          exact ⟨hlen, x :: s, hs.cons₂ x, by simp⟩
        · obtain ⟨hlen, s, hs, rfl⟩ := ih _ _ h
          exact ⟨hlen, s, hs.cons x, rfl⟩

/-- Every index set the loops visit: `i` increasing indices below `length`, with
`1 ≤ i ≤ length / 2`. -/
theorem mem_allLeftIndices {length : Nat} {leftIndices : List Nat}
    (h : leftIndices ∈ allLeftIndices length) :
    leftIndices.Sublist (List.range length) ∧ 1 ≤ leftIndices.length ∧
      leftIndices.length ≤ length / 2 := by
  simp only [allLeftIndices, List.mem_flatMap, List.mem_range'_1] at h
  obtain ⟨i, hi, hmem⟩ := h
  obtain ⟨hlen, s, hs, hout⟩ := combine_spec i _ _ _ hmem
  rw [List.nil_append] at hout
  subst hout
  exact ⟨hs, by omega, by omega⟩

/-- The two sides of a split hold the numbers of the list, each position once. -/
theorem split_perm_aux : ∀ (numbers : List Int) (k : Nat) (leftIndices : List Nat),
    leftIndices.Sublist (List.range' k numbers.length) →
      (leftIndices.map (fun idx => numbers.getD (idx - k) 0) ++
        ((numbers.enumFrom k).filter (fun p => !leftIndices.contains p.1)).map Prod.snd).Perm
        numbers := by
  intro numbers
  induction numbers with
  | nil =>
      intro k L hL
      simp only [List.length_nil, List.range'_zero, List.sublist_nil] at hL
      subst hL
      simp
  | cons x xs ih =>
      intro k L hL
      have hrange : List.range' k (x :: xs).length = k :: List.range' (k + 1) xs.length := by
        simp [List.range'_succ]
      rw [hrange, List.sublist_cons_iff] at hL
      have hshift : ∀ L' : List Nat, L'.Sublist (List.range' (k + 1) xs.length) →
          L'.map (fun idx => (x :: xs).getD (idx - k) 0) =
            L'.map (fun idx => xs.getD (idx - (k + 1)) 0) := by
        intro L' hL'
        apply List.map_congr_left
        intro idx hidx
        have := List.mem_range'_1.1 (hL'.subset hidx)
        have e : idx - k = (idx - (k + 1)) + 1 := by omega
        rw [e, List.getD_cons_succ]
      have hnotmem : ∀ L' : List Nat, L'.Sublist (List.range' (k + 1) xs.length) → k ∉ L' := by
        intro L' hL' hk
        have := List.mem_range'_1.1 (hL'.subset hk)
        omega
      rcases hL with hL | ⟨L', rfl, hL'⟩
      · have hk : L.contains k = false := by
          simpa using hnotmem L hL
        rw [hshift L hL, List.enumFrom_cons, List.filter_cons]
        simp only [hk, Bool.not_false, if_true, List.map_cons]
        exact List.perm_middle.trans ((ih (k + 1) L hL).cons x)
      · have hfilter : (List.enumFrom (k + 1) xs).filter (fun p => !(k :: L').contains p.1) =
            (List.enumFrom (k + 1) xs).filter (fun p => !L'.contains p.1) := by
          apply List.filter_congr
          intro p hp
          obtain ⟨i, y⟩ := p
          have := List.mem_enumFrom hp
          have hne : i ≠ k := by omega
          simp [List.contains_cons, hne]
        rw [List.map_cons, hshift L' hL', List.enumFrom_cons, List.filter_cons]
        simp only [List.contains_cons, beq_self_eq_true, Bool.true_or, Bool.not_true,
          Bool.false_eq_true, if_false, Nat.sub_self, List.getD_cons_zero, List.cons_append]
        have := ih (k + 1) L' hL'
        rw [← hfilter] at this
        simpa [List.contains_cons] using this.cons x

theorem split_perm (numbers : List Int) (leftIndices : List Nat)
    (h : leftIndices.Sublist (List.range numbers.length)) :
    (leftNumsOf numbers leftIndices ++ rightNumsOf numbers leftIndices).Perm numbers := by
  rw [List.range_eq_range'] at h
  simpa [leftNumsOf, rightNumsOf, List.enum] using split_perm_aux numbers 0 leftIndices h

/-- Both sides of every split the loops visit are non-empty and shorter than the list. -/
theorem split_lengths (numbers : List Int) (leftIndices : List Nat)
    (h : leftIndices ∈ allLeftIndices numbers.length) :
    0 < (leftNumsOf numbers leftIndices).length ∧
      (leftNumsOf numbers leftIndices).length < numbers.length ∧
      0 < (rightNumsOf numbers leftIndices).length ∧
      (rightNumsOf numbers leftIndices).length < numbers.length := by
  obtain ⟨hsub, h1, h2⟩ := mem_allLeftIndices h
  have hp := (split_perm numbers leftIndices hsub).length_eq
  rw [List.length_append] at hp
  have hl : (leftNumsOf numbers leftIndices).length = leftIndices.length := by
    simp [leftNumsOf]
  omega


/-! ## Totality of the solver -/

theorem solveSplits_isSome (recur : List Int → SolveCache → SolveResult) (numbers : List Int)
    (hrec : ∀ ns cache, ns.length < numbers.length → (recur ns cache).isSome = true) :
    ∀ (splits : List (List Nat)), (∀ L ∈ splits, L ∈ allLeftIndices numbers.length) →
      ∀ (results : ReachabilityMap) (cache : SolveCache),
        (solveSplits recur numbers splits results cache).isSome = true := by
  intro splits
  induction splits with
  | nil => intro _ results cache; rfl
  | cons L more ih =>
      intro hs results cache
      have hlen := split_lengths numbers L (hs L (List.mem_cons_self _ _))
      simp only [solveSplits]
      obtain ⟨pL, hL⟩ := Option.isSome_iff_exists.1 (hrec (leftNumsOf numbers L) cache hlen.2.1)
      obtain ⟨resLeft, cache1⟩ := pL
      obtain ⟨pR, hR⟩ :=
        Option.isSome_iff_exists.1 (hrec (rightNumsOf numbers L) cache1 hlen.2.2.2)
      obtain ⟨resRight, cache2⟩ := pR
      simp only [hL, hR]
      exact ih (fun L' hL' => hs L' (List.mem_cons_of_mem _ hL')) _ _

/-- With more fuel than numbers, the solver returns. -/
theorem solveNumbersGameInternal_isSome : ∀ (fuel : Nat) (ns : List Int) (cache : SolveCache),
    ns.length < fuel → (solveNumbersGameInternal fuel ns cache).isSome = true := by
  intro fuel
  induction fuel with
  | zero => intro ns cache h; omega
  | succ fuel ih =>
      intro ns cache h
      simp only [solveNumbersGameInternal, solveStep]
      cases cache.get (numbersTuple ns) with
      | some cached => rfl
      | none =>
          simp only
          split
          · rfl
          · have := solveSplits_isSome (solveNumbersGameInternal fuel) ns
              (fun ns' cache' hlt => ih ns' cache' (by omega))
              (allLeftIndices ns.length) (fun L hL => hL) (singletons ns) cache
            obtain ⟨p, hp⟩ := Option.isSome_iff_exists.1 this
            simp [hp]

theorem solveNumbersGame_isSome (numbers : List Int) (cache : SolveCache) :
    ∃ m cache', solveNumbersGame numbers cache = some (m, cache') := by
  have := solveNumbersGameInternal_isSome (numbers.length + 1) numbers [] (by omega)
  obtain ⟨p, hp⟩ := Option.isSome_iff_exists.1 this
  exact ⟨p.1, p.2, hp⟩

/-- The map `solve numbers` is the one `solveNumbersGame` returns. -/
theorem solve_spec (numbers : List Int) :
    ∃ cache', solveNumbersGame numbers [] = some (solve numbers, cache') := by
  obtain ⟨m, cache', h⟩ := solveNumbersGame_isSome numbers []
  exact ⟨cache', by simp [solve, h]⟩

theorem solve_solved (numbers : List Int) : Solved numbers (solve numbers) := by
  obtain ⟨cache', h⟩ := solve_spec numbers
  exact solveNumbersGame_solved numbers [] _ cache' h

/-! ## Soundness of the recorded expressions -/

theorem foldl_invariant {α β : Type} (P : β → Prop) (f : β → α → β) (l : List α) (init : β)
    (h0 : P init) (hstep : ∀ acc x, x ∈ l → P acc → P (f acc x)) : P (l.foldl f init) := by
  induction l generalizing init with
  | nil => exact h0
  | cons x l ih =>
      exact ih _ (hstep init x (List.mem_cons_self _ _) h0)
        (fun acc y hy hacc => hstep acc y (List.mem_cons_of_mem _ hy) hacc)

/-- Each entry of `solverOps` is one of the four operators, and a positive result it
returns is the reference value. -/
theorem solverOps_spec (entry : String × (Int → Int → Option Int)) (h : entry ∈ solverOps) :
    ∃ op : Op, entry.1 = op.sym ∧
      ∀ a b r, entry.2 a b = some r → 0 ≤ r → op.apply a b = some r := by
  simp only [solverOps, List.mem_cons, List.mem_singleton, List.not_mem_nil, or_false] at h
  rcases h with rfl | rfl | rfl | rfl
  · refine ⟨.add, rfl, ?_⟩
    intro a b r hr hpos
    simp only [Option.some.injEq] at hr
    subst hr
    simp [Op.apply, hpos]
  · refine ⟨.sub, rfl, ?_⟩
    intro a b r hr hpos
    simp only [Option.some.injEq] at hr
    subst hr
    simp [Op.apply, hpos]
  · refine ⟨.mul, rfl, ?_⟩
    intro a b r hr hpos
    simp only [Option.some.injEq] at hr
    subst hr
    simp [Op.apply, hpos]
  · refine ⟨.div, rfl, ?_⟩
    intro a b r hr hpos
    simp only at hr
    split at hr
    · rename_i hc
      simp only [Option.some.injEq] at hr
      subst hr
      have hdvd : b ∣ a := Int.dvd_of_tmod_eq_zero hc.2
      have hd : a.tdiv b = a / b := Int.tdiv_eq_ediv_of_dvd hdvd
      rw [hd] at hpos ⊢
      simp [Op.apply, hc.1, hdvd, hpos]
    · cases hr

theorem Sound.recordResult {pool : List Int} {results : ReachabilityMap} (h : Sound pool results)
    (res : Option Int) (expr : String)
    (hnew : ∀ r, res = some r → 0 < r → ∃ t : Tree, t.render = expr ∧ t.eval = some r ∧
      ∀ n, t.leaves.count n ≤ pool.count n) :
    Sound pool (recordResult results res expr) := by
  unfold Countdown.recordResult
  cases res with
  | none => exact h
  | some r =>
      simp only
      split
      · split
        · rename_i hc
          intro p hp
          rcases ReachabilityMap.mem_set _ _ _ _ hp with rfl | hp
          · obtain ⟨t, h1, h2, h3⟩ := hnew r rfl hc.1
            exact ⟨t, h1, h2, hc.1, h3⟩
          · exact h p hp
        · exact h
      · exact h

theorem Sound.applyOp {pool : List Int} {results : ReachabilityMap} (h : Sound pool results)
    (tL tR : Tree) (numL numR : Int) (hL : tL.eval = some numL) (hR : tR.eval = some numR)
    (hcount : ∀ n, tL.leaves.count n + tR.leaves.count n ≤ pool.count n)
    (entry : String × (Int → Int → Option Int)) (hentry : entry ∈ solverOps) :
    Sound pool (Countdown.applyOp numL numR tL.render tR.render results entry) := by
  obtain ⟨op, hsym, hop⟩ := solverOps_spec entry hentry
  have h1 : Sound pool
      (Countdown.recordResult results (entry.2 numL numR) (exprOf tL.render entry.1 tR.render)) := by
    apply h.recordResult
    intro r hr hpos
    refine ⟨.node op tL tR, by simp [Tree.render, hsym], ?_, ?_⟩
    · simp [Tree.eval, hL, hR, hop _ _ _ hr (le_of_lt hpos)]
    · intro n; simpa [Tree.leaves] using hcount n
  unfold Countdown.applyOp
  simp only
  split
  · apply h1.recordResult
    intro r hr hpos
    refine ⟨.node op tR tL, by simp [Tree.render, hsym], ?_, ?_⟩
    · simp [Tree.eval, hL, hR, hop _ _ _ hr (le_of_lt hpos)]
    · intro n
      have := hcount n
      simp only [Tree.leaves, List.count_append]
      omega
  · exact h1

theorem Sound.combineMaps {pool lns rns : List Int} {results resLeft resRight : ReachabilityMap}
    (h : Sound pool results) (hl : Sound lns resLeft) (hr : Sound rns resRight)
    (hcount : ∀ n, lns.count n + rns.count n ≤ pool.count n) :
    Sound pool (Countdown.combineMaps resLeft resRight results) := by
  unfold Countdown.combineMaps
  apply foldl_invariant (Sound pool) _ _ _ h
  intro acc entryL hentryL hacc
  apply foldl_invariant (Sound pool) _ _ _ hacc
  intro acc1 entryR hentryR hacc1
  obtain ⟨tL, hLr, hLe, _, hLc⟩ := hl entryL hentryL
  obtain ⟨tR, hRr, hRe, _, hRc⟩ := hr entryR hentryR
  unfold Countdown.combinePair
  apply foldl_invariant (Sound pool) _ _ _ hacc1
  intro acc2 entry hentry hacc2
  rw [← hLr, ← hRr]
  apply hacc2.applyOp tL tR _ _ hLe hRe _ entry hentry
  intro n
  have := hcount n
  have := hLc n
  have := hRc n
  omega

theorem sound_singletons (numbers : List Int) (hpos : ∀ n ∈ numbers, 0 < n) :
    Sound numbers (singletons numbers) := by
  unfold singletons
  have : ∀ (l : List Int), (∀ n ∈ l, n ∈ numbers) → ∀ init, Sound numbers init →
      Sound numbers (l.foldl (fun results n => results.set n (jsString n)) init) := by
    intro l hl init hinit
    apply foldl_invariant (Sound numbers) _ _ _ hinit
    intro acc n hn hacc p hp
    rcases ReachabilityMap.mem_set _ _ _ _ hp with rfl | hp
    · refine ⟨.leaf n, rfl, rfl, hpos n (hl n hn), ?_⟩
      intro k
      simp only [Tree.leaves, List.count_cons, List.count_nil]
      split
      · rename_i hk
        have hk : n = k := by simpa using hk
        subst hk
        have := List.count_pos_iff.2 (hl n hn)
        omega
      · omega
    · exact hacc p hp
  exact this numbers (fun n hn => hn) [] (by intro p hp; simp at hp)

/-- Every map the recursion computes for positive numbers is sound for them. -/
theorem Solved.sound {numbers : List Int} {m : ReachabilityMap} (h : Solved numbers m) :
    (∀ n ∈ numbers, 0 < n) → Sound numbers m := by
  induction h with
  | single n =>
      intro hpos
      have := sound_singletons [n] hpos
      simpa [singletons] using this
  | split numbers runs hne hidx hleft hright hl hr ihl ihr =>
      intro hpos
      unfold foldRuns
      apply foldl_invariant (Sound numbers) _ _ _ (sound_singletons numbers hpos)
      intro acc run hrun hacc
      have hmem : run.leftIndices ∈ allLeftIndices numbers.length := by
        rw [← hidx]; exact List.mem_map_of_mem _ hrun
      have hperm := split_perm numbers run.leftIndices (mem_allLeftIndices hmem).1
      have hperm2 : (run.leftNums ++ run.rightNums).Perm numbers :=
        ((hleft run hrun).append (hright run hrun)).trans hperm
      have hposL : ∀ n ∈ run.leftNums, 0 < n := fun n hn =>
        hpos n (hperm2.subset (List.mem_append_left _ hn))
      have hposR : ∀ n ∈ run.rightNums, 0 < n := fun n hn =>
        hpos n (hperm2.subset (List.mem_append_right _ hn))
      apply hacc.combineMaps (ihl run hrun hposL) (ihr run hrun hposR)
      intro n
      have := hperm2.count_eq n
      rw [List.count_append] at this
      omega

theorem solve_sound (numbers : List Int) (hpos : ∀ n ∈ numbers, 0 < n) :
    Sound numbers (solve numbers) :=
  (solve_solved numbers).sound hpos


/-! ## The fuel does not matter -/

theorem solveSplits_mono (recur recur' : List Int → SolveCache → SolveResult)
    (hle : ∀ ns cache r, recur ns cache = some r → recur' ns cache = some r)
    (numbers : List Int) : ∀ (splits : List (List Nat)) (results : ReachabilityMap)
      (cache : SolveCache) (r : ReachabilityMap × SolveCache),
      solveSplits recur numbers splits results cache = some r →
      solveSplits recur' numbers splits results cache = some r := by
  intro splits
  induction splits with
  | nil => intro results cache r h; exact h
  | cons L more ih =>
      intro results cache r h
      simp only [solveSplits] at h ⊢
      cases hL : recur (leftNumsOf numbers L) cache with
      | none => simp [hL] at h
      | some pL =>
          obtain ⟨resLeft, cache1⟩ := pL
          simp only [hL] at h
          cases hR : recur (rightNumsOf numbers L) cache1 with
          | none => simp [hR] at h
          | some pR =>
              obtain ⟨resRight, cache2⟩ := pR
              simp only [hR] at h
              simp only [hle _ _ _ hL, hle _ _ _ hR]
              exact ih _ _ _ h

theorem solveStep_mono (recur recur' : List Int → SolveCache → SolveResult)
    (hle : ∀ ns cache r, recur ns cache = some r → recur' ns cache = some r)
    (numbers : List Int) (cache : SolveCache) (r : ReachabilityMap × SolveCache)
    (h : solveStep recur numbers cache = some r) : solveStep recur' numbers cache = some r := by
  unfold solveStep at h ⊢
  cases hget : cache.get (numbersTuple numbers) with
  | some cached => simpa [hget] using h
  | none =>
      simp only [hget] at h ⊢
      split
      · simpa using h
      · rename_i hne
        have h' : (match solveSplits recur numbers (allLeftIndices numbers.length)
            (singletons numbers) cache with
          | none => none
          | some (results, cache1) =>
              some (results, cache1.set (numbersTuple numbers) results)) = some r := by
          split at h
          · exact absurd rfl (hne _)
          · exact h
        cases hs : solveSplits recur numbers (allLeftIndices numbers.length)
            (singletons numbers) cache with
        | none => simp [hs] at h'
        | some p =>
            rw [solveSplits_mono recur recur' hle numbers _ _ _ p hs]
            simpa [hs] using h'

/-- More fuel does not change a result. -/
theorem solveNumbersGameInternal_mono : ∀ (fuel fuel' : Nat), fuel ≤ fuel' →
    ∀ (ns : List Int) (cache : SolveCache) (r : ReachabilityMap × SolveCache),
      solveNumbersGameInternal fuel ns cache = some r →
      solveNumbersGameInternal fuel' ns cache = some r := by
  intro fuel
  induction fuel with
  | zero => intro fuel' _ ns cache r h; simp [solveNumbersGameInternal] at h
  | succ fuel ih =>
      intro fuel' hle ns cache r h
      cases fuel' with
      | zero => omega
      | succ fuel' =>
          simp only [solveNumbersGameInternal] at h ⊢
          exact solveStep_mono _ _ (ih fuel' (by omega)) ns cache r h

/-- Any fuel above the length of the list gives the result of `solveNumbersGame`. -/
theorem solveNumbersGameInternal_eq (numbers : List Int) (solveCache : SolveCache) (fuel : Nat)
    (h : numbers.length < fuel) :
    solveNumbersGameInternal fuel numbers [] = solveNumbersGame numbers solveCache := by
  obtain ⟨m, cache', hrun⟩ := solveNumbersGame_isSome numbers solveCache
  rw [hrun]
  exact solveNumbersGameInternal_mono (numbers.length + 1) fuel (by omega) numbers [] _ hrun


/-! ## Number usage in `evaluatePostfix` -/

theorem evalLoop_append (available : CountTable) (a b : List String) (st : EvalState) :
    evalLoop available (a ++ b) st =
      match evalLoop available a st with
      | .error e => .error e
      | .ok st1 => evalLoop available b st1 := by
  induction a generalizing st with
  | nil => rfl
  | cons token a ih =>
      simp only [List.cons_append, evalLoop]
      cases evalToken available st token with
      | error e => rfl
      | ok st1 => exact ih st1

theorem usageExceeded_eq_false_iff (available used : CountTable) (num : Int) :
    usageExceeded available used num = false ↔ (used num).getD 0 < (available num).getD 0 := by
  constructor
  · intro h
    unfold usageExceeded at h
    cases ha : available num with
    | none => simp [ha] at h
    | some c =>
        cases hu : used num with
        | none => simp [ha, hu] at h ⊢; omega
        | some u => simp [ha, hu] at h ⊢; omega
  · exact usageExceeded_eq_false

/-- What one iteration does with a numeral token. -/
theorem evalToken_number (available : CountTable) (st : EvalState) (token : String) (v : Int)
    (hv : parseInt token = some v) :
    evalToken available st token =
      if (st.usedNumbers v).getD 0 < (available v).getD 0 then
        .ok { valueStack := v :: st.valueStack, usedNumbers := increment st.usedNumbers v }
      else if available v = none then .error (.numberNotAllowed v)
      else .error (.numberOveruse v) := by
  simp only [evalToken, hv]
  by_cases h : (st.usedNumbers v).getD 0 < (available v).getD 0
  · simp [h, (usageExceeded_eq_false_iff available st.usedNumbers v).2 h]
  · have hx : usageExceeded available st.usedNumbers v = true := by
      cases hx : usageExceeded available st.usedNumbers v with
      | true => rfl
      | false => exact absurd ((usageExceeded_eq_false_iff _ _ _).1 hx) h
    simp only [hx, if_true, h, if_false]
    cases available v <;> simp

theorem usedNumbers_of_evalToken (available : CountTable) (st st1 : EvalState) (token : String)
    (h : evalToken available st token = .ok st1)
    (hinv : ∀ v, (st.usedNumbers v).getD 0 ≤ (available v).getD 0) (v : Int) :
    (st1.usedNumbers v).getD 0 = (st.usedNumbers v).getD 0 + ([token].filterMap parseInt).count v ∧
      (st1.usedNumbers v).getD 0 ≤ (available v).getD 0 := by
  cases hp : parseInt token with
  | some num =>
      rw [evalToken_number available st token num hp] at h
      split at h
      · rename_i hlt
        simp only [Except.ok.injEq] at h
        subst h
        by_cases hv : num = v
        · subst hv
          simp [increment, List.filterMap_cons, hp]
          omega
        · have hv' : v ≠ num := fun e => hv e.symm
          simp [increment, List.filterMap_cons, hp, Function.update_noteq hv', hv]
          exact ⟨by simp [List.count_cons, hv], hinv v⟩
      · split at h <;> cases h
  | none =>
      simp only [evalToken, hp] at h
      have : st1.usedNumbers = st.usedNumbers := by
        split at h
        · split at h
          · cases h
          · simp only [Except.ok.injEq] at h
            subst h; rfl
        · cases h
      simp [this, List.filterMap_cons, hp, hinv v]

/-- After a successful run the usage table counts the numerals read, within the pool. -/
theorem usedNumbers_of_evalLoop (available : CountTable) :
    ∀ (tokens : List String) (st st1 : EvalState), evalLoop available tokens st = .ok st1 →
      (∀ v, (st.usedNumbers v).getD 0 ≤ (available v).getD 0) → ∀ v,
      (st1.usedNumbers v).getD 0 = (st.usedNumbers v).getD 0 + (tokens.filterMap parseInt).count v ∧
        (st1.usedNumbers v).getD 0 ≤ (available v).getD 0 := by
  intro tokens
  induction tokens with
  | nil =>
      intro st st1 h hinv v
      simp only [evalLoop, Except.ok.injEq] at h
      subst h
      simp [hinv v]
  | cons token tokens ih =>
      intro st st1 h hinv v
      simp only [evalLoop] at h
      cases ht : evalToken available st token with
      | error e => simp [ht] at h
      | ok st2 =>
          simp only [ht] at h
          have h1 := usedNumbers_of_evalToken available st st2 token ht hinv
          have h2 := ih st2 st1 h (fun w => (h1 w).2) v
          have h3 := (h1 v).1
          have hsplit : ((token :: tokens).filterMap parseInt).count v =
              ([token].filterMap parseInt).count v + (tokens.filterMap parseInt).count v := by
            rw [← List.count_append, ← List.filterMap_append]; rfl
          exact ⟨by rw [h2.1, h3, hsplit]; omega, h2.2⟩

/-- The start state of `evaluatePostfix`. -/
theorem usedNumbers_of_evalLoop_init (pool : List Int) (tokens : List String) (st : EvalState)
    (h : evalLoop (availableNumbersCount pool) tokens
      { valueStack := [], usedNumbers := fun _ => none } = .ok st) (v : Int) :
    (st.usedNumbers v).getD 0 = (tokens.filterMap parseInt).count v ∧
      (tokens.filterMap parseInt).count v ≤ pool.count v := by
  have := usedNumbers_of_evalLoop _ tokens _ st h (by intro w; simp) v
  rw [availableNumbersCount_getD] at this
  simp only [Option.getD_none, Nat.zero_add] at this
  exact ⟨this.1, by rw [← this.1]; exact this.2⟩


/-! ## `toPostfix` keeps the numerals -/

theorem count_numerals_append (v : Int) (a b : List String) :
    ((a ++ b).filterMap parseInt).count v =
      (a.filterMap parseInt).count v + (b.filterMap parseInt).count v := by
  rw [List.filterMap_append, List.count_append]

theorem count_numerals_cons (v : Int) (a : String) (b : List String) :
    ((a :: b).filterMap parseInt).count v =
      ([a].filterMap parseInt).count v + (b.filterMap parseInt).count v := by
  rw [← count_numerals_append]; rfl

theorem count_numerals_takeWhile (v : Int) (p : String → Bool) (l : List String) :
    ((l.takeWhile p).filterMap parseInt).count v + ((l.dropWhile p).filterMap parseInt).count v =
      (l.filterMap parseInt).count v := by
  rw [← count_numerals_append, List.takeWhile_append_dropWhile]

theorem toPostfixLoop_numerals (v : Int) : ∀ (tokens out ops out' ops' : List String),
    toPostfixLoop tokens out ops = .ok (out', ops') →
      (out'.filterMap parseInt).count v + (ops'.filterMap parseInt).count v =
        (out.filterMap parseInt).count v + (ops.filterMap parseInt).count v +
          (tokens.filterMap parseInt).count v := by
  intro tokens
  induction tokens with
  | nil =>
      intro out ops out' ops' h
      simp only [toPostfixLoop, Except.ok.injEq, Prod.mk.injEq] at h
      obtain ⟨rfl, rfl⟩ := h
      simp
  | cons token rest ih =>
      intro out ops out' ops' h
      rw [toPostfixLoop] at h
      rw [count_numerals_cons v token rest]
      split at h
      · have := ih _ _ _ _ h
        rw [count_numerals_append] at this
        omega
      · split at h
        · have := ih _ _ _ _ h
          rw [count_numerals_append, count_numerals_cons v token] at this
          have := count_numerals_takeWhile v (popsBefore token) ops
          omega
        · split at h
          · have := ih _ _ _ _ h
            rw [count_numerals_cons v token] at this
            omega
          · split at h
            · rename_i hclose
              have hc : ([token].filterMap parseInt).count v = 0 := by
                have hp : parseInt ")" = none := by decide
                rw [hclose]; simp [hp]
              split at h
              · cases h
              · rename_i top below hdrop
                split at h
                · cases h
                · rename_i htop
                  have htop : top = "(" := by simpa using htop
                  have := ih _ _ _ _ h
                  rw [count_numerals_append] at this
                  have h2 := count_numerals_takeWhile v notOpen ops
                  rw [hdrop, count_numerals_cons v top below, htop] at h2
                  have hp : parseInt "(" = none := by decide
                  have h3 : ((["("] : List String).filterMap parseInt).count v = 0 := by
                    simp [hp]
                  omega
            · cases h

theorem drainOperators_numerals (v : Int) : ∀ (ops out out' : List String),
    drainOperators ops out = .ok out' →
      (out'.filterMap parseInt).count v =
        (out.filterMap parseInt).count v + (ops.filterMap parseInt).count v := by
  intro ops
  induction ops with
  | nil =>
      intro out out' h
      simp only [drainOperators, Except.ok.injEq] at h
      subst h; simp
  | cons top below ih =>
      intro out out' h
      simp only [drainOperators] at h
      split at h
      · cases h
      · have := ih _ _ h
        rw [count_numerals_append] at this
        rw [count_numerals_cons v top below]
        omega

/-- The postfix sequence holds the numerals of the token sequence. -/
theorem toPostfix_numerals (v : Int) (tokens out : List String) (h : toPostfix tokens = .ok out) :
    (out.filterMap parseInt).count v = (tokens.filterMap parseInt).count v := by
  unfold toPostfix at h
  cases hl : toPostfixLoop tokens [] [] with
  | error e => simp [hl] at h
  | ok p =>
      obtain ⟨out1, ops1⟩ := p
      simp only [hl] at h
      have h1 := toPostfixLoop_numerals v _ _ _ _ _ hl
      have h2 := drainOperators_numerals v _ _ _ h
      simp only [List.filterMap_nil, List.count_nil, Nat.zero_add] at h1
      omega

/-- A successful `evaluateUserFormula` used every number within its multiplicity. -/
theorem numerals_within_pool (formula : String) (numbers : List Int) (value : Int)
    (h : evaluateUserFormula formula numbers = .ok value) (v : Int) :
    (numeralsOf formula).count v ≤ numbers.count v := by
  unfold evaluateUserFormula at h
  split at h
  · cases h
  · split at h
    · cases h
    · split at h
      · cases h
      · rename_i out hout
        unfold evaluatePostfix at h
        split at h
        · cases h
        · rename_i st hst
          have := (usedNumbers_of_evalLoop_init numbers out st hst v).2
          rw [toPostfix_numerals v _ _ hout] at this
          exact this


/-! ## Parentheses -/

theorem parenScan_some : ∀ (cs : List Char) (d d' : Nat), parenScan cs d = some d' →
    d' + cs.count ')' = d + cs.count '(' := by
  intro cs
  induction cs with
  | nil => intro d d' h; simp [parenScan] at h; simp [h]
  | cons c cs ih =>
      intro d d' h
      simp only [parenScan] at h
      by_cases h1 : c = '('
      · subst h1
        simp only [if_true] at h
        have := ih _ _ h
        simp [List.count_cons] at this ⊢
        omega
      · by_cases h2 : c = ')'
        · subst h2
          simp only [h1, if_false, if_true] at h
          split at h
          · cases h
          · have := ih _ _ h
            simp [List.count_cons] at this ⊢
            omega
        · simp only [h1, h2, if_false] at h
          have := ih _ _ h
          have e1 : ¬ (c == '(') = true := by simpa using h1
          have e2 : ¬ (c == ')') = true := by simpa using h2
          simp only [List.count_cons, e1, e2, if_false]
          omega

theorem parenScan_none_iff : ∀ (cs : List Char) (d : Nat), parenScan cs d = none ↔
    ∃ n, d + (cs.take n).count '(' < (cs.take n).count ')' := by
  intro cs
  induction cs with
  | nil => intro d; simp [parenScan]
  | cons c cs ih =>
      intro d
      have hsplit : (∃ n, d + ((c :: cs).take n).count '(' < ((c :: cs).take n).count ')') ↔
          ∃ m, d + ((c :: cs).take (m + 1)).count '(' < ((c :: cs).take (m + 1)).count ')' := by
        constructor
        · rintro ⟨n, hn⟩
          cases n with
          | zero => simp at hn
          | succ m => exact ⟨m, hn⟩
        · rintro ⟨m, hm⟩
          exact ⟨m + 1, hm⟩
      rw [hsplit]
      simp only [parenScan, List.take_succ_cons]
      by_cases h1 : c = '('
      · subst h1
        simp only [if_true, ih]
        apply exists_congr
        intro m
        simp [List.count_cons]
        omega
      · by_cases h2 : c = ')'
        · subst h2
          simp only [h1, if_false, if_true]
          by_cases hd : d = 0
          · subst hd
            simp only [if_true, true_iff]
            exact ⟨0, by simp⟩
          · simp only [hd, if_false, ih]
            apply exists_congr
            intro m
            simp [List.count_cons]
            omega
        · have e1 : ¬ (c == '(') = true := by simpa using h1
          have e2 : ¬ (c == ')') = true := by simpa using h2
          simp [h1, h2, ih, List.count_cons]

theorem unbalanced_iff_parenScan (cs : List Char) :
    Unbalanced cs ↔ parenScan cs 0 = none ∨ ∃ d, parenScan cs 0 = some d ∧ 0 < d := by
  unfold Unbalanced
  constructor
  · rintro (⟨n, hn⟩ | h)
    · exact Or.inl ((parenScan_none_iff cs 0).2 ⟨n, by omega⟩)
    · cases hs : parenScan cs 0 with
      | none => exact Or.inl rfl
      | some d =>
          have := parenScan_some cs 0 d hs
          exact Or.inr ⟨d, rfl, by omega⟩
  · rintro (h | ⟨d, hd, hpos⟩)
    · obtain ⟨n, hn⟩ := (parenScan_none_iff cs 0).1 h
      exact Or.inl ⟨n, by omega⟩
    · have := parenScan_some cs 0 d hd
      exact Or.inr (by omega)

theorem isToken_flushRun (run : List Char) (hrun : ∀ c ∈ run, isDigit c = true) :
    ∀ tok ∈ flushRun run, IsToken tok := by
  intro tok htok
  unfold flushRun at htok
  split at htok
  · simp at htok
  · rename_i hne
    rw [List.mem_singleton] at htok
    exact Or.inl ⟨run, hne, hrun, htok⟩

theorem tokenScan_append_of_not_paren (a b : List String) (d : Nat)
    (ha : ∀ tok ∈ a, tok ≠ "(" ∧ tok ≠ ")") : tokenScan (a ++ b) d = tokenScan b d := by
  induction a with
  | nil => rfl
  | cons tok a ih =>
      have h := ha tok (List.mem_cons_self _ _)
      simp only [List.cons_append, tokenScan, h.1, h.2, if_false]
      exact ih (fun t ht => ha t (List.mem_cons_of_mem _ ht))

theorem digits_token_ne_paren {ds : List Char} (hall : ∀ c ∈ ds, isDigit c = true) :
    String.mk ds ≠ "(" ∧ String.mk ds ≠ ")" := by
  constructor
  · intro h
    have hd : ds = ['('] := congrArg String.data h
    have := hall '(' (by rw [hd]; simp)
    exact absurd this (by decide)
  · intro h
    have hd : ds = [')'] := congrArg String.data h
    have := hall ')' (by rw [hd]; simp)
    exact absurd this (by decide)

theorem singleton_eq_iff (c d : Char) : String.singleton c = String.singleton d ↔ c = d := by
  constructor
  · intro h
    have := congrArg String.data h
    simpa [String.singleton] using this
  · rintro rfl; rfl

/-- The scanner returns tokens only, and their parentheses are those of the text. -/
theorem scanTokens_spec : ∀ (cs run : List Char), (∀ c ∈ run, isDigit c = true) →
    (∀ tok ∈ (scanTokens cs run).filter tokenTest, IsToken tok) ∧
    ∀ d, tokenScan ((scanTokens cs run).filter tokenTest) d = parenScan cs d := by
  intro cs
  induction cs with
  | nil =>
      intro run hrun
      have hf := isToken_flushRun run hrun
      refine ⟨fun tok htok => hf tok (List.mem_of_mem_filter htok), ?_⟩
      intro d
      have := tokenScan_append_of_not_paren ((flushRun run).filter tokenTest) [] d (by
        intro tok htok
        rcases hf tok (List.mem_of_mem_filter htok) with ⟨ds, _, hall, rfl⟩ | ⟨c, hc, rfl⟩
        · exact digits_token_ne_paren hall
        · exfalso
          unfold flushRun at htok
          split at htok
          · simp at htok
          · have := (List.mem_singleton.1 (List.mem_of_mem_filter htok))
            have hd : [c] = run := congrArg String.data this
            have := hrun c (by rw [← hd]; simp)
            rw [(isSymbol_facts hc).1] at this
            cases this)
      simpa [scanTokens, parenScan, tokenScan] using this
  | cons c cs ih =>
      intro run hrun
      have hf := isToken_flushRun run hrun
      have hflush : ∀ (rest : List String) (d : Nat),
          tokenScan ((flushRun run ++ rest).filter tokenTest) d =
            tokenScan (rest.filter tokenTest) d := by
        intro rest d
        rw [List.filter_append]
        apply tokenScan_append_of_not_paren
        intro tok htok
        have hmem := List.mem_of_mem_filter htok
        unfold flushRun at hmem
        split at hmem
        · simp at hmem
        · rw [List.mem_singleton.1 hmem]
          exact digits_token_ne_paren hrun
      by_cases hd : isDigit c = true
      · have hc := isDigit_facts hd
        have := ih (run ++ [c]) (by
          intro x hx
          rcases List.mem_append.1 hx with hx | hx
          · exact hrun x hx
          · rw [List.mem_singleton.1 hx]; exact hd)
        simp only [scanTokens, hd, if_true]
        refine ⟨this.1, ?_⟩
        intro d
        simp only [parenScan, hc.2.2.2.2.2.2.2.1, hc.2.2.2.2.2.2.2.2.1, if_false]
        exact this.2 d
      · have hd : isDigit c = false := by simpa using hd
        have ih := ih [] (by simp)
        by_cases hw : isWhiteSpace c = true
        · have h1 : c ≠ '(' := by rintro rfl; exact absurd hw (by decide)
          have h2 : c ≠ ')' := by rintro rfl; exact absurd hw (by decide)
          simp only [scanTokens, hd, hw, if_true, Bool.false_eq_true, if_false]
          constructor
          · intro tok htok
            rw [List.filter_append, List.mem_append] at htok
            rcases htok with htok | htok
            · exact hf tok (List.mem_of_mem_filter htok)
            · exact ih.1 tok htok
          · intro d
            rw [hflush]
            simp only [parenScan, h1, h2, if_false]
            exact ih.2 d
        · simp only [scanTokens, hd, hw, Bool.false_eq_true, if_false]
          have htest : tokenTest (String.singleton c) = isSymbol c := by
            simp [tokenTest, String.singleton, hd]
          constructor
          · intro tok htok
            rw [List.filter_append, List.mem_append] at htok
            rcases htok with htok | htok
            · exact hf tok (List.mem_of_mem_filter htok)
            · rw [List.filter_cons] at htok
              split at htok
              · rename_i hkeep
                rcases List.mem_cons.1 htok with rfl | htok
                · exact Or.inr ⟨c, by rw [← htest]; exact hkeep, rfl⟩
                · exact ih.1 tok htok
              · exact ih.1 tok htok
          · intro d
            rw [hflush, List.filter_cons, htest]
            by_cases h1 : c = '('
            · subst h1
              have hs : isSymbol '(' = true := by decide
              have e : String.singleton '(' = "(" := rfl
              simp only [hs, if_true, tokenScan, parenScan, e]
              exact ih.2 _
            · by_cases h2 : c = ')'
              · subst h2
                have hs : isSymbol ')' = true := by decide
                have e : String.singleton ')' = ")" := rfl
                have ne : (")" : String) ≠ "(" := by decide
                simp only [hs, if_true, tokenScan, parenScan, e, ne, h1, if_false]
                split
                · rfl
                · exact ih.2 _
              · have n1 : String.singleton c ≠ "(" := fun h =>
                  h1 ((singleton_eq_iff c '(').1 h)
                have n2 : String.singleton c ≠ ")" := fun h =>
                  h2 ((singleton_eq_iff c ')').1 h)
                simp only [parenScan, h1, h2, if_false]
                split
                · simp only [tokenScan, n1, n2, if_false]
                  exact ih.2 d
                · exact ih.2 d

theorem tokenize_isToken (formula : String) : ∀ tok ∈ tokenize formula, IsToken tok :=
  (scanTokens_spec formula.data [] (by simp)).1

theorem tokenScan_tokenize (formula : String) (d : Nat) :
    tokenScan (tokenize formula) d = parenScan formula.data d :=
  (scanTokens_spec formula.data [] (by simp)).2 d


theorem count_open_dropWhile (p : String → Bool) (hp : ∀ x, p x = true → x ≠ "(")
    (l : List String) : (l.dropWhile p).count "(" = l.count "(" := by
  induction l with
  | nil => rfl
  | cons x l ih =>
      by_cases hx : p x = true
      · have hne : ¬ (x == "(") = true := by simpa using hp x hx
        rw [List.dropWhile_cons_of_pos hx, ih, List.count_cons]
        simp [hne]
      · rw [List.dropWhile_cons_of_neg hx]

theorem dropWhile_not_open (l : List String) :
    (l.count "(" = 0 ∧ l.dropWhile notOpen = []) ∨
    ∃ below, l.dropWhile notOpen = "(" :: below ∧
      below.count "(" + 1 = l.count "(" := by
  induction l with
  | nil => exact Or.inl ⟨rfl, rfl⟩
  | cons x l ih =>
      by_cases hx : x = "("
      · subst hx
        refine Or.inr ⟨l, ?_, by simp⟩
        rw [List.dropWhile_cons_of_neg (by simp [notOpen])]
      · have hne : ¬ (x == "(") = true := by simpa using hx
        have hpx : notOpen x = true := by simpa [notOpen] using hx
        have hcount : (x :: l).count "(" = l.count "(" := by
          rw [List.count_cons]; simp [hne]
        rw [List.dropWhile_cons_of_pos hpx, hcount]
        exact ih

theorem toPostfixLoop_cons_open (rest out ops : List String) :
    toPostfixLoop ("(" :: rest) out ops = toPostfixLoop rest out ("(" :: ops) := by
  have hn : isNumberToken "(" = false := by decide
  have hi : inPrecedence "(" = false := by decide
  rw [toPostfixLoop]
  simp [hn, hi]

theorem toPostfixLoop_cons_close (rest out ops : List String) :
    toPostfixLoop (")" :: rest) out ops =
      match ops.dropWhile notOpen with
      | [] => .error .mismatchedParens
      | top :: below =>
          if top ≠ "(" then .error .mismatchedParens
          else toPostfixLoop rest (out ++ ops.takeWhile notOpen) below := by
  have hn : isNumberToken ")" = false := by decide
  have hi : inPrecedence ")" = false := by decide
  have hne : (")" : String) ≠ "(" := by decide
  rw [toPostfixLoop]
  simp only [hn, hi, hne, Bool.false_eq_true, if_false, if_true]

theorem toPostfixLoop_cons_op (o : Op) (rest out ops : List String) :
    toPostfixLoop (o.sym :: rest) out ops =
      toPostfixLoop rest (out ++ ops.takeWhile (popsBefore o.sym))
        (o.sym :: ops.dropWhile (popsBefore o.sym)) := by
  have hf := Op.sym_facts o
  rw [toPostfixLoop]
  simp only [hf.1, hf.2.1, Bool.false_eq_true, if_false, if_true]

theorem symbol_token_cases {c : Char} (hc : isSymbol c = true) :
    String.singleton c = "(" ∨ String.singleton c = ")" ∨ ∃ o : Op, String.singleton c = o.sym := by
  rcases isSymbol_cases hc with rfl | rfl | rfl | rfl | rfl | rfl
  · exact Or.inr (Or.inr ⟨.add, rfl⟩)
  · exact Or.inr (Or.inr ⟨.sub, rfl⟩)
  · exact Or.inr (Or.inr ⟨.mul, rfl⟩)
  · exact Or.inr (Or.inr ⟨.div, rfl⟩)
  · exact Or.inl rfl
  · exact Or.inr (Or.inl rfl)

/-- On tokens, the loop of `toPostfix` fails exactly when a `)` has no `(` to close,
and then with the parenthesis error; otherwise the `(` left on the operator stack are
the ones still open. -/
theorem toPostfixLoop_parens : ∀ (tokens : List String), (∀ tok ∈ tokens, IsToken tok) →
    ∀ (out ops : List String),
      (tokenScan tokens (ops.count "(") = none →
        toPostfixLoop tokens out ops = .error .mismatchedParens) ∧
      ∀ d, tokenScan tokens (ops.count "(") = some d →
        ∃ out' ops', toPostfixLoop tokens out ops = .ok (out', ops') ∧ ops'.count "(" = d := by
  intro tokens
  induction tokens with
  | nil =>
      intro _ out ops
      refine ⟨by simp [tokenScan], ?_⟩
      intro d hd
      simp only [tokenScan, Option.some.injEq] at hd
      exact ⟨out, ops, rfl, hd⟩
  | cons token rest ih =>
      intro htok out ops
      have ih := ih (fun t ht => htok t (List.mem_cons_of_mem _ ht))
      rcases htok token (List.mem_cons_self _ _) with ⟨ds, hne, hall, rfl⟩ | ⟨c, hc, hc'⟩
      · have hn := isNumberToken_digits hne hall
        have hp := digits_token_ne_paren hall
        simp only [tokenScan, hp.1, hp.2, if_false, toPostfixLoop, hn, if_true]
        exact ih _ _
      · subst hc'
        rcases symbol_token_cases hc with he | he | ⟨o, he⟩
        · rw [he, toPostfixLoop_cons_open]
          have := ih out ("(" :: ops)
          simpa [tokenScan] using this
        · have hne : (")" : String) ≠ "(" := by decide
          rw [he, toPostfixLoop_cons_close]
          simp only [tokenScan, hne, if_false, if_true]
          rcases dropWhile_not_open ops with ⟨h0, hnil⟩ | ⟨below, hb, hcount⟩
          · simp [h0, hnil]
          · have hd : ops.count "(" ≠ 0 := by omega
            have hd' : ops.count "(" - 1 = below.count "(" := by omega
            simp only [hd, if_false, hb, hd', ne_eq, not_true_eq_false]
            exact ih _ below
        · have hf := Op.sym_facts o
          rw [he, toPostfixLoop_cons_op]
          have hcount : (o.sym :: ops.dropWhile (popsBefore o.sym)).count "(" = ops.count "(" := by
            have hne : ¬ (o.sym == "(") = true := by simpa using hf.2.2.2.1
            rw [List.count_cons]
            simp only [hne, if_false, Nat.add_zero]
            apply count_open_dropWhile
            intro x hx
            simp only [popsBefore, notOpen, Bool.and_eq_true, decide_eq_true_eq] at hx
            exact hx.1
          have := ih (out ++ ops.takeWhile (popsBefore o.sym))
            (o.sym :: ops.dropWhile (popsBefore o.sym))
          rw [hcount] at this
          simpa [tokenScan, hf.2.2.2.1, hf.2.2.2.2] using this

theorem drainOperators_parens : ∀ (ops out : List String),
    (0 < ops.count "(" → drainOperators ops out = .error .mismatchedParens) ∧
    (ops.count "(" = 0 → ∃ out', drainOperators ops out = .ok out') := by
  intro ops
  induction ops with
  | nil => intro out; simp [drainOperators]
  | cons top below ih =>
      intro out
      by_cases h : top = "("
      · simp [drainOperators, h]
      · have hne : ¬ (top == "(") = true := by simpa using h
        simp only [drainOperators, h, if_false, List.count_cons, hne, Nat.add_zero]
        exact ih _

/-- On tokens, `toPostfix` fails exactly when the parentheses do not match, and then
with the parenthesis error. -/
theorem toPostfix_parens (tokens : List String) (htok : ∀ tok ∈ tokens, IsToken tok) :
    ((tokenScan tokens 0 = none ∨ ∃ d, tokenScan tokens 0 = some d ∧ 0 < d) →
      toPostfix tokens = .error .mismatchedParens) ∧
    (tokenScan tokens 0 = some 0 → ∃ out, toPostfix tokens = .ok out) := by
  have h := toPostfixLoop_parens tokens htok [] []
  simp only [List.count_nil] at h
  constructor
  · rintro (hn | ⟨d, hd, hpos⟩)
    · simp [toPostfix, h.1 hn]
    · obtain ⟨out', ops', hrun, hc⟩ := h.2 d hd
      simp only [toPostfix, hrun]
      exact (drainOperators_parens ops' out').1 (by omega)
  · intro h0
    obtain ⟨out', ops', hrun, hc⟩ := h.2 0 h0
    simp only [toPostfix, hrun]
    exact (drainOperators_parens ops' out').2 hc

theorem applyOperator_ne_mismatched (token : String) (a b : Int) :
    applyOperator token a b ≠ .error .mismatchedParens := by
  unfold applyOperator
  simp only
  repeat' split
  all_goals simp

theorem evalLoop_ne_mismatched (available : CountTable) : ∀ (tokens : List String)
    (st : EvalState), evalLoop available tokens st ≠ .error .mismatchedParens := by
  intro tokens
  induction tokens with
  | nil => intro st; simp [evalLoop]
  | cons token tokens ih =>
      intro st h
      simp only [evalLoop] at h
      cases ht : evalToken available st token with
      | ok st1 =>
          simp only [ht] at h
          exact ih st1 h
      | error e =>
          simp only [ht, Except.error.injEq] at h
          subst h
          unfold evalToken at ht
          split at ht
          · split at ht
            · split at ht <;> cases ht
            · cases ht
          · split at ht
            · split at ht
              · rename_i e' he
                simp only [Except.error.injEq] at ht
                subst ht
                exact applyOperator_ne_mismatched _ _ _ he
              · cases ht
            · cases ht

theorem evaluatePostfix_ne_mismatched (tokens : List String) (pool : List Int) :
    evaluatePostfix tokens pool ≠ .error .mismatchedParens := by
  unfold evaluatePostfix
  split
  · rename_i e he
    intro h
    simp only [Except.error.injEq] at h
    subst h
    exact evalLoop_ne_mismatched _ _ _ he
  · split <;> simp


/-! ## Completeness of the solver -/

theorem Op.apply_nonneg {op : Op} {a b v : Int} (h : op.apply a b = some v) : 0 ≤ v := by
  cases op
  · simp only [Op.apply] at h
    split at h
    · simp only [Option.some.injEq] at h; omega
    · cases h
  · simp only [Op.apply] at h
    split at h
    · simp only [Option.some.injEq] at h; omega
    · cases h
  · simp only [Op.apply] at h
    split at h
    · rename_i hc
      simp only [Option.some.injEq] at h
      rw [← h]; exact hc
    · cases h
  · simp only [Op.apply] at h
    split at h
    · rename_i hc
      simp only [Option.some.injEq] at h
      rw [← h]; exact hc.2.2
    · cases h

theorem Op.apply_zero_left {op : Op} {b v : Int} (h : op.apply 0 b = some v) (hb : 0 ≤ b)
    (hv : 0 < v) : v = b := by
  cases op
  · simp only [Op.apply] at h
    split at h
    · simp only [Option.some.injEq] at h; omega
    · cases h
  · simp only [Op.apply] at h
    split at h
    · simp only [Option.some.injEq] at h; omega
    · cases h
  · simp only [Op.apply] at h
    split at h
    · simp only [Option.some.injEq, Int.zero_mul] at h; omega
    · cases h
  · simp only [Op.apply] at h
    split at h
    · simp only [Option.some.injEq, Int.zero_ediv] at h; omega
    · cases h

theorem Op.apply_zero_right {op : Op} {a v : Int} (h : op.apply a 0 = some v) (hv : 0 < v) :
    v = a := by
  cases op
  · simp only [Op.apply] at h
    split at h
    · simp only [Option.some.injEq] at h; omega
    · cases h
  · simp only [Op.apply] at h
    split at h
    · simp only [Option.some.injEq] at h; omega
    · cases h
  · simp only [Op.apply] at h
    split at h
    · simp only [Option.some.injEq, Int.mul_zero] at h; omega
    · cases h
  · simp only [Op.apply] at h
    split at h
    · rename_i hc
      exact absurd rfl hc.1
    · cases h

theorem Tree.eval_nonneg (t : Tree) (hleaves : ∀ n ∈ t.leaves, 0 ≤ n) (v : Int)
    (h : t.eval = some v) : 0 ≤ v := by
  cases t with
  | leaf n =>
      simp only [Tree.eval, Option.some.injEq] at h
      subst h
      exact hleaves _ (by simp [Tree.leaves])
  | node op l r =>
      simp only [Tree.eval] at h
      split at h
      · exact Op.apply_nonneg h
      · cases h

/-- A zero intermediate result is never needed: a tree with a positive value can be
pruned to one with the same value whose intermediate results are all positive. -/
theorem Tree.prune (t : Tree) : ∀ (v : Int), (∀ n ∈ t.leaves, 0 < n) → t.eval = some v → 0 < v →
    ∃ t' : Tree, t'.evalPos = some v ∧ ∀ n, t'.leaves.count n ≤ t.leaves.count n := by
  induction t with
  | leaf n =>
      intro v _ h hv
      simp only [Tree.eval, Option.some.injEq] at h
      subst h
      exact ⟨.leaf n, by simp [Tree.evalPos, hv], fun _ => le_refl _⟩
  | node op l r ihl ihr =>
      intro v hleaves h hv
      have hll : ∀ n ∈ l.leaves, 0 < n := fun n hn => hleaves n (by simp [Tree.leaves, hn])
      have hlr : ∀ n ∈ r.leaves, 0 < n := fun n hn => hleaves n (by simp [Tree.leaves, hn])
      simp only [Tree.eval] at h
      cases hl : l.eval with
      | none => simp [hl] at h
      | some a =>
          cases hr : r.eval with
          | none => simp [hl, hr] at h
          | some b =>
              simp only [hl, hr] at h
              have ha := l.eval_nonneg (fun n hn => le_of_lt (hll n hn)) a hl
              have hb := r.eval_nonneg (fun n hn => le_of_lt (hlr n hn)) b hr
              by_cases ha0 : a = 0
              · -- the left operand is zero: only `0 + b` is positive
                subst ha0
                have hvb : v = b := Op.apply_zero_left h hb hv
                subst hvb
                obtain ⟨t', ht', hc⟩ := ihr v hlr hr hv
                exact ⟨t', ht', fun n => by
                  have := hc n
                  simp only [Tree.leaves, List.count_append]
                  omega⟩
              · by_cases hb0 : b = 0
                · subst hb0
                  have hva : v = a := Op.apply_zero_right h hv
                  subst hva
                  obtain ⟨t', ht', hc⟩ := ihl v hll hl hv
                  exact ⟨t', ht', fun n => by
                    have := hc n
                    simp only [Tree.leaves, List.count_append]
                    omega⟩
                · obtain ⟨l', hl', hcl⟩ := ihl a hll hl (by omega)
                  obtain ⟨r', hr', hcr⟩ := ihr b hlr hr (by omega)
                  refine ⟨.node op l' r', by simp [Tree.evalPos, hl', hr', h, hv], ?_⟩
                  intro n
                  have := hcl n
                  have := hcr n
                  simp only [Tree.leaves, List.count_append]
                  omega


theorem foldl_establish {α β : Type} (P : β → Prop) (f : β → α → β) (l : List α) (init : β)
    (x : α) (hx : x ∈ l) (hest : ∀ acc, P (f acc x)) (hmono : ∀ acc y, P acc → P (f acc y)) :
    P (l.foldl f init) := by
  induction l generalizing init with
  | nil => simp at hx
  | cons y l ih =>
      rcases List.mem_cons.1 hx with rfl | hx
      · exact foldl_invariant P f l _ (hest init) (fun acc z _ hacc => hmono acc z hacc)
      · exact ih _ hx

theorem recordResult_mono (results : ReachabilityMap) (res : Option Int) (expr : String)
    (k : Int) (h : k ∈ results.keys) : k ∈ (recordResult results res expr).keys := by
  unfold recordResult
  cases res with
  | none => exact h
  | some r =>
      simp only
      split
      · split
        · exact (results.mem_keys_set r k expr).2 (Or.inr h)
        · exact h
      · exact h

theorem recordResult_key (results : ReachabilityMap) (r : Int) (expr : String) (hr : 0 < r) :
    r ∈ (recordResult results (some r) expr).keys := by
  unfold recordResult
  simp only [le_of_lt hr, if_true, hr, true_and]
  split
  · exact (results.mem_keys_set r r expr).2 (Or.inl rfl)
  · rename_i hset
    apply (results.get_isSome_iff r).1
    unfold isUnset at hset
    cases hg : results.get r with
    | none => simp [hg] at hset
    | some e => rfl

theorem applyOp_mono (numL numR : Int) (exprL exprR : String) (results : ReachabilityMap)
    (entry : String × (Int → Int → Option Int)) (k : Int) (h : k ∈ results.keys) :
    k ∈ (applyOp numL numR exprL exprR results entry).keys := by
  unfold applyOp
  simp only
  split
  · exact recordResult_mono _ _ _ k (recordResult_mono _ _ _ k h)
  · exact recordResult_mono _ _ _ k h

theorem applyOp_key (numL numR : Int) (exprL exprR : String) (results : ReachabilityMap)
    (entry : String × (Int → Int → Option Int)) (r : Int) (hr : 0 < r)
    (h : entry.2 numL numR = some r ∨
      ((entry.1 = "-" ∨ entry.1 = "/") ∧ entry.2 numR numL = some r)) :
    r ∈ (applyOp numL numR exprL exprR results entry).keys := by
  unfold applyOp
  simp only
  rcases h with h | ⟨hsym, h⟩
  · have h1 : r ∈ (recordResult results (entry.2 numL numR)
        (exprOf exprL entry.1 exprR)).keys := by
      rw [h]; exact recordResult_key _ r _ hr
    split
    · exact recordResult_mono _ _ _ r h1
    · exact h1
  · rw [if_pos hsym, h]
    exact recordResult_key _ r _ hr

theorem combinePair_mono (entryL entryR : Int × String) (results : ReachabilityMap) (k : Int)
    (h : k ∈ results.keys) : k ∈ (combinePair entryL entryR results).keys := by
  unfold combinePair
  exact foldl_invariant (fun m : ReachabilityMap => k ∈ m.keys) _ _ _ h
    (fun acc entry _ hacc => applyOp_mono _ _ _ _ acc entry k hacc)

theorem combinePair_key (entryL entryR : Int × String) (results : ReachabilityMap) (r : Int)
    (hr : 0 < r) (entry : String × (Int → Int → Option Int)) (hentry : entry ∈ solverOps)
    (h : entry.2 entryL.1 entryR.1 = some r ∨
      ((entry.1 = "-" ∨ entry.1 = "/") ∧ entry.2 entryR.1 entryL.1 = some r)) :
    r ∈ (combinePair entryL entryR results).keys := by
  unfold combinePair
  exact foldl_establish (fun m : ReachabilityMap => r ∈ m.keys) _ _ _ entry hentry
    (fun acc => applyOp_key _ _ _ _ acc entry r hr h)
    (fun acc y hacc => applyOp_mono _ _ _ _ acc y r hacc)

theorem combineMaps_mono (resLeft resRight results : ReachabilityMap) (k : Int)
    (h : k ∈ results.keys) : k ∈ (combineMaps resLeft resRight results).keys := by
  unfold combineMaps
  apply foldl_invariant (fun m : ReachabilityMap => k ∈ m.keys) _ _ _ h
  intro acc entryL _ hacc
  exact foldl_invariant (fun m : ReachabilityMap => k ∈ m.keys) _ _ _ hacc
    (fun acc1 entryR _ hacc1 => combinePair_mono entryL entryR acc1 k hacc1)

theorem combineMaps_key (resLeft resRight results : ReachabilityMap) (r : Int) (hr : 0 < r)
    (entryL entryR : Int × String) (hL : entryL ∈ resLeft) (hR : entryR ∈ resRight)
    (entry : String × (Int → Int → Option Int)) (hentry : entry ∈ solverOps)
    (h : entry.2 entryL.1 entryR.1 = some r ∨
      ((entry.1 = "-" ∨ entry.1 = "/") ∧ entry.2 entryR.1 entryL.1 = some r)) :
    r ∈ (combineMaps resLeft resRight results).keys := by
  unfold combineMaps
  apply foldl_establish (fun m : ReachabilityMap => r ∈ m.keys) _ _ _ entryL hL
  · intro acc
    exact foldl_establish (fun m : ReachabilityMap => r ∈ m.keys) _ _ _ entryR hR
      (fun acc1 => combinePair_key entryL entryR acc1 r hr entry hentry h)
      (fun acc1 y hacc1 => combinePair_mono entryL y acc1 r hacc1)
  · intro acc y hacc
    exact foldl_invariant (fun m : ReachabilityMap => r ∈ m.keys) _ _ _ hacc
      (fun acc1 entryR _ hacc1 => combinePair_mono y entryR acc1 r hacc1)

theorem foldRuns_mono (runs : List SplitRun) (results : ReachabilityMap) (k : Int)
    (h : k ∈ results.keys) : k ∈ (foldRuns runs results).keys := by
  unfold foldRuns
  exact foldl_invariant (fun m : ReachabilityMap => k ∈ m.keys) _ _ _ h
    (fun acc run _ hacc => combineMaps_mono _ _ acc k hacc)

theorem mem_keys_singletons (numbers : List Int) (n : Int) (h : n ∈ numbers) :
    n ∈ (singletons numbers).keys := by
  unfold singletons
  exact foldl_establish (fun m : ReachabilityMap => n ∈ m.keys) _ _ _ n h
    (fun acc => (acc.mem_keys_set n n _).2 (Or.inl rfl))
    (fun acc y hacc => (acc.mem_keys_set y n _).2 (Or.inr hacc))

/-- The reference operation is among `solverOps`, in one of the two orders tried. -/
theorem solverOps_complete (op : Op) (a b v : Int) (h : op.apply a b = some v) :
    ∃ entry ∈ solverOps, entry.2 a b = some v ∧
      (entry.2 b a = some v ∨ entry.1 = "-" ∨ entry.1 = "/") := by
  cases op
  · refine ⟨("+", fun a b => some (a + b)), by simp [solverOps], ?_⟩
    simp only [Op.apply] at h
    split at h
    · simp only [Option.some.injEq] at h
      subst h
      exact ⟨rfl, Or.inl (by simp [Int.add_comm])⟩
    · cases h
  · refine ⟨("-", fun a b => some (a - b)), by simp [solverOps], ?_⟩
    simp only [Op.apply] at h
    split at h
    · simp only [Option.some.injEq] at h
      subst h
      exact ⟨rfl, Or.inr (Or.inl rfl)⟩
    · cases h
  · refine ⟨("*", fun a b => some (a * b)), by simp [solverOps], ?_⟩
    simp only [Op.apply] at h
    split at h
    · simp only [Option.some.injEq] at h
      subst h
      exact ⟨rfl, Or.inl (by simp [Int.mul_comm])⟩
    · cases h
  · refine ⟨("/", fun a b => if b ≠ 0 ∧ a.tmod b = 0 then some (a.tdiv b) else none),
      by simp [solverOps], ?_⟩
    simp only [Op.apply] at h
    split at h
    · rename_i hc
      simp only [Option.some.injEq] at h
      subst h
      have hm : a.tmod b = 0 := Int.tmod_eq_zero_of_dvd hc.2.1
      have hd : a.tdiv b = a / b := Int.tdiv_eq_ediv_of_dvd hc.2.1
      exact ⟨by simp [hc.1, hm, hd], Or.inr (Or.inr rfl)⟩
    · cases h


/-- Every way of extending `current` by a sub-list of `rest` to `k` elements is among
the combinations. -/
theorem combine_complete {α : Type} (k : Nat) : ∀ (rest current s : List α),
    s.Sublist rest → current.length + s.length = k → current ++ s ∈ combine k rest current := by
  intro rest
  induction rest with
  | nil =>
      intro current s hs hlen
      rw [List.sublist_nil] at hs
      subst hs
      simp only [List.length_nil, Nat.add_zero] at hlen
      simp [combine, hlen]
  | cons x rest ih =>
      intro current s hs hlen
      simp only [combine]
      by_cases hk : current.length = k
      · have : s = [] := List.length_eq_zero.1 (by omega)
        subst this
        simp [hk]
      · simp only [hk, if_false, List.mem_append]
        rcases List.sublist_cons_iff.1 hs with hs | ⟨s', rfl, hs'⟩
        · exact Or.inr (ih current s hs hlen)
        · left
          have := ih (current ++ [x]) s' hs' (by simp at hlen ⊢; omega)
          simpa using this

/-- A sub-list of the numbers is the list of the numbers at increasing positions. -/
theorem sublist_indices : ∀ (numbers l : List Int), l.Sublist numbers → ∀ k : Nat,
    ∃ L : List Nat, L.Sublist (List.range' k numbers.length) ∧
      l = L.map (fun idx => numbers.getD (idx - k) 0) := by
  intro numbers
  induction numbers with
  | nil =>
      intro l hl k
      rw [List.sublist_nil] at hl
      subst hl
      exact ⟨[], by simp, rfl⟩
  | cons x xs ih =>
      intro l hl k
      have hrange : List.range' k (x :: xs).length = k :: List.range' (k + 1) xs.length := by
        simp [List.range'_succ]
      have hshift : ∀ L' : List Nat, L'.Sublist (List.range' (k + 1) xs.length) →
          L'.map (fun idx => xs.getD (idx - (k + 1)) 0) =
            L'.map (fun idx => (x :: xs).getD (idx - k) 0) := by
        intro L' hL'
        apply List.map_congr_left
        intro idx hidx
        have := List.mem_range'_1.1 (hL'.subset hidx)
        have e : idx - k = (idx - (k + 1)) + 1 := by omega
        rw [e, List.getD_cons_succ]
      rw [hrange]
      rcases List.sublist_cons_iff.1 hl with hl | ⟨l', rfl, hl'⟩
      · obtain ⟨L, hL, rfl⟩ := ih l hl (k + 1)
        exact ⟨L, hL.cons k, hshift L hL⟩
      · obtain ⟨L, hL, rfl⟩ := ih l' hl' (k + 1)
        refine ⟨k :: L, hL.cons₂ k, ?_⟩
        rw [List.map_cons, ← hshift L hL]
        simp

/-- Every sub-multiset of the numbers with between 1 and `length / 2` elements is the
left side of a split the loops visit. -/
theorem exists_leftIndices (numbers side : List Int)
    (hcount : ∀ n, side.count n ≤ numbers.count n) (h1 : 1 ≤ side.length)
    (h2 : side.length ≤ numbers.length / 2) :
    ∃ L ∈ allLeftIndices numbers.length, (leftNumsOf numbers L).Perm side := by
  have hsub : side.Subperm numbers := List.subperm_ext_iff.2 (fun n _ => hcount n)
  obtain ⟨l, hperm, hl⟩ := hsub
  obtain ⟨L, hL, hmap⟩ := sublist_indices numbers l hl 0
  have hlen : L.length = side.length := by
    rw [← hperm.length_eq, hmap, List.length_map]
  refine ⟨L, ?_, ?_⟩
  · simp only [allLeftIndices, List.mem_flatMap, List.mem_range'_1]
    refine ⟨L.length, by omega, ?_⟩
    have := combine_complete L.length (List.range numbers.length) [] L
      (by rw [List.range_eq_range']; exact hL) (by simp)
    simpa [getCombinations] using this
  · have : leftNumsOf numbers L = l := by
      rw [hmap]; simp [leftNumsOf]
    rw [this]
    exact hperm

theorem Tree.leaves_length_pos (t : Tree) : 0 < t.leaves.length := by
  induction t with
  | leaf n => simp [Tree.leaves]
  | node op l r ihl _ => simp [Tree.leaves]; omega

theorem Tree.evalPos_pos (t : Tree) (v : Int) (h : t.evalPos = some v) : 0 < v := by
  cases t with
  | leaf n =>
      simp only [Tree.evalPos] at h
      split at h
      · simp only [Option.some.injEq] at h; omega
      · cases h
  | node op l r =>
      simp only [Tree.evalPos] at h
      split at h
      · split at h
        · split at h
          · simp only [Option.some.injEq] at h; omega
          · cases h
        · cases h
      · cases h

theorem length_le_of_count_le {a b : List Int} (h : ∀ n, a.count n ≤ b.count n) :
    a.length ≤ b.length :=
  (List.subperm_ext_iff.2 (fun n _ => h n)).length_le

/-- Every map the recursion computes has a key for every tree over its numbers whose
leaves and intermediate results are positive. -/
theorem Solved.complete {numbers : List Int} {m : ReachabilityMap} (h : Solved numbers m) :
    Complete numbers m := by
  induction h with
  | single n =>
      intro t v hv hcount
      cases t with
      | leaf k =>
          have hk := hcount k
          simp only [Tree.leaves, List.count_cons_self, List.count_nil] at hk
          have hkn : k = n := by
            by_contra hne
            have : ([n] : List Int).count k = 0 := by
              rw [List.count_eq_zero]
              simpa using hne
            omega
          subst hkn
          simp only [Tree.evalPos] at hv
          split at hv
          · simp only [Option.some.injEq] at hv
            subst hv
            exact (ReachabilityMap.mem_keys_set [] k k _).2 (Or.inl rfl)
          · cases hv
      | node op l r =>
          exfalso
          have := length_le_of_count_le hcount
          have := l.leaves_length_pos
          have := r.leaves_length_pos
          simp [Tree.leaves] at *
          omega
  | split numbers runs hne hidx hleft hright hl hr ihl ihr =>
      intro t v hv hcount
      cases t with
      | leaf k =>
          simp only [Tree.evalPos] at hv
          split at hv
          · simp only [Option.some.injEq] at hv
            subst hv
            have hk := hcount k
            simp only [Tree.leaves, List.count_cons_self, List.count_nil] at hk
            exact foldRuns_mono runs _ k
              (mem_keys_singletons numbers k (List.count_pos_iff.1 (by omega)))
          · cases hv
      | node op l r =>
          have hvpos := Tree.evalPos_pos _ v hv
          simp only [Tree.evalPos] at hv
          cases hla : l.evalPos with
          | none => simp [hla] at hv
          | some a =>
              cases hrb : r.evalPos with
              | none => simp [hla, hrb] at hv
              | some b =>
                  simp only [hla, hrb] at hv
                  cases hop : op.apply a b with
                  | none => simp [hop] at hv
                  | some w =>
                      simp only [hop] at hv
                      have hwv : w = v := by
                        split at hv
                        · simpa using hv
                        · cases hv
                      subst hwv
                      have hcount' : ∀ n, l.leaves.count n + r.leaves.count n ≤
                          numbers.count n := by
                        intro n
                        have := hcount n
                        simpa [Tree.leaves, List.count_append] using this
                      have hlen := length_le_of_count_le hcount
                      simp only [Tree.leaves, List.length_append] at hlen
                      have hlpos := l.leaves_length_pos
                      have hrpos := r.leaves_length_pos
                      obtain ⟨entry, hentry, hdirect, hswap⟩ := solverOps_complete op a b w hop
                      -- the side with at most half of the numbers is the left side
                      have key : ∀ (sideL sideR : List Int) (x y : Int) (tL tR : Tree),
                          tL.leaves = sideL → tR.leaves = sideR →
                          tL.evalPos = some x → tR.evalPos = some y →
                          (∀ n, sideL.count n + sideR.count n ≤ numbers.count n) →
                          1 ≤ sideL.length → sideL.length ≤ numbers.length / 2 →
                          (entry.2 x y = some w ∨
                            ((entry.1 = "-" ∨ entry.1 = "/") ∧ entry.2 y x = some w)) →
                          w ∈ (foldRuns runs (singletons numbers)).keys := by
                        intro sideL sideR x y tL tR htL htR hx hy hc h1 h2 hent
                        obtain ⟨L, hLmem, hLperm⟩ := exists_leftIndices numbers sideL
                          (fun n => by have := hc n; omega) h1 h2
                        have hsplit := split_perm numbers L (mem_allLeftIndices hLmem).1
                        rw [← hidx] at hLmem
                        obtain ⟨run, hrun, hrunL⟩ := List.mem_map.1 hLmem
                        have hpl := hleft run hrun
                        have hpr := hright run hrun
                        rw [hrunL] at hpl hpr
                        have hcl : ∀ n, run.leftNums.count n = sideL.count n := fun n =>
                          (hpl.trans hLperm).count_eq n
                        have hcr : ∀ n, sideR.count n ≤ run.rightNums.count n := by
                          intro n
                          have e1 := hsplit.count_eq n
                          have e2 := hLperm.count_eq n
                          have e3 := hpr.count_eq n
                          have e4 := hc n
                          rw [List.count_append] at e1
                          omega
                        have hxkey : x ∈ run.resLeft.keys :=
                          ihl run hrun tL x hx (fun n => by rw [htL, hcl n])
                        have hykey : y ∈ run.resRight.keys :=
                          ihr run hrun tR y hy (fun n => by rw [htR]; exact hcr n)
                        obtain ⟨pL, hpL, hpLx⟩ := List.mem_map.1 hxkey
                        obtain ⟨pR, hpR, hpRy⟩ := List.mem_map.1 hykey
                        unfold foldRuns
                        apply foldl_establish (fun m : ReachabilityMap => w ∈ m.keys) _ _ _ run hrun
                        · intro acc
                          exact combineMaps_key _ _ acc w hvpos pL pR hpL hpR entry hentry
                            (by rw [hpLx, hpRy]; exact hent)
                        · intro acc y' hacc
                          exact combineMaps_mono _ _ acc w hacc
                      by_cases hhalf : l.leaves.length ≤ numbers.length / 2
                      · exact key l.leaves r.leaves a b l r rfl rfl hla hrb hcount' hlpos hhalf
                          (Or.inl hdirect)
                      · refine key r.leaves l.leaves b a r l rfl rfl hrb hla
                          (fun n => by have := hcount' n; omega) hrpos (by omega) ?_
                        rcases hswap with hswap | hsym
                        · exact Or.inl hswap
                        · exact Or.inr ⟨hsym, hdirect⟩

/-! ## Claims about the solver -/

theorem numeralsOf_render (t : Tree) (hleaves : ∀ n ∈ t.leaves, 0 ≤ n) :
    numeralsOf t.render = t.leaves := by
  rw [numeralsOf_formula t.toFormula (t.toFormula_wellFormed hleaves) t.render t.render_spaced,
    t.toFormula_numerals hleaves]

/-- C3: for every list `numbers` of positive integers, `solveNumbersGame(numbers)`
returns a map all of whose keys are strictly positive. -/
theorem solver_keys_positive (numbers : List Int) (solveCache : SolveCache)
    (hpos : ∀ n ∈ numbers, 0 < n) :
    ∃ m cache', solveNumbersGame numbers solveCache = some (m, cache') ∧
      ∀ key ∈ m.keys, 0 < key := by
  obtain ⟨cache', hrun⟩ := solve_spec numbers
  refine ⟨solve numbers, cache', hrun, ?_⟩
  intro key hkey
  obtain ⟨p, hp, rfl⟩ := List.mem_map.1 hkey
  obtain ⟨_, _, _, h, _⟩ := solve_sound numbers hpos p hp
  exact h

theorem solver_keys_positive_witness :
    (∀ n ∈ ([4, 6] : List Int), 0 < n) ∧
    ∃ m cache', solveNumbersGame [4, 6] [] = some (m, cache') ∧ ∀ key ∈ m.keys, 0 < key :=
  ⟨by decide, solver_keys_positive [4, 6] [] (by decide)⟩

/-- C5 (totality): for every finite list of integers, in particular of non-negative
ones, `solveNumbersGame` returns a map, the same for every recursion bound above the
length of the list; every recursive call is on a non-empty list strictly shorter than
the list of the calling invocation; and for the empty list the returned map is empty. -/
theorem solver_total (numbers : List Int) (solveCache : SolveCache) :
    (∃ m cache', solveNumbersGame numbers solveCache = some (m, cache')) ∧
    (∀ fuel, numbers.length < fuel →
      solveNumbersGameInternal fuel numbers [] = solveNumbersGame numbers solveCache) ∧
    (∀ ns : List Int, ∀ leftIndices ∈ allLeftIndices ns.length,
      0 < (leftNumsOf ns leftIndices).length ∧
      (leftNumsOf ns leftIndices).length < ns.length ∧
      0 < (rightNumsOf ns leftIndices).length ∧
      (rightNumsOf ns leftIndices).length < ns.length) ∧
    (∃ cache', solveNumbersGame [] solveCache = some ([], cache')) :=
  ⟨solveNumbersGame_isSome numbers solveCache,
    fun fuel h => solveNumbersGameInternal_eq numbers solveCache fuel h,
    fun ns leftIndices h => split_lengths ns leftIndices h,
    ⟨[(numbersTuple [], [])], rfl⟩⟩

/-- C6 (memo isolation): whatever the memo table holds when `solveNumbersGame(numbers)`
is called, the call returns, and it returns what it returns from an empty table. -/
theorem solver_memo_isolation (numbers : List Int) (solveCache : SolveCache) :
    ∃ m cache', solveNumbersGame numbers solveCache = some (m, cache') ∧
      solveNumbersGame numbers [] = some (m, cache') := by
  obtain ⟨m, cache', h⟩ := solveNumbersGame_isSome numbers solveCache
  exact ⟨m, cache', h, h⟩


theorem count_positions_le (numbers : List Int) (positions : List Nat)
    (hdistinct : positions.Nodup) (hrange : ∀ i ∈ positions, i < numbers.length) (n : Int) :
    (positions.map (fun i => numbers.getD i 0)).count n ≤ numbers.count n := by
  have hsub : positions.Subperm (List.range numbers.length) :=
    List.subperm_of_subset hdistinct (fun i hi => List.mem_range.2 (hrange i hi))
  obtain ⟨l, hperm, hl⟩ := hsub
  have h1 : (positions.map (fun i => numbers.getD i 0)).Subperm
      (leftNumsOf numbers (List.range numbers.length)) :=
    ⟨l.map (fun i => numbers.getD i 0), hperm.map _, hl.map _⟩
  have h2 := (split_perm numbers (List.range numbers.length) (List.Sublist.refl _)).count_eq n
  have h3 := h1.count_le n
  rw [List.count_append] at h2
  omega

/-! ## Claims about the formula checker -/

/-- C8 (number-usage errors): suppose `evaluatePostfix` has read the tokens `pre`
without a failure and the next token is a numeral with value `v`. If `v` does not
occur in `availableNumbers` the call fails with "Number not allowed"; if `v` occurs
and has already been pushed as many times as it occurs there, it fails with "Number
used too many times"; otherwise (it has been pushed fewer times) `v` is pushed and
its usage count goes up by one. -/
theorem number_usage_errors (availableNumbers : List Int) (pre rest : List String)
    (token : String) (v : Int) (st : EvalState)
    (hpre : evalLoop (availableNumbersCount availableNumbers) pre
      { valueStack := [], usedNumbers := fun _ => none } = .ok st)
    (hv : parseInt token = some v) :
    (v ∉ availableNumbers →
      evaluatePostfix (pre ++ token :: rest) availableNumbers = .error (.numberNotAllowed v)) ∧
    (v ∈ availableNumbers →
      (pre.filterMap parseInt).count v = availableNumbers.count v →
      evaluatePostfix (pre ++ token :: rest) availableNumbers = .error (.numberOveruse v)) ∧
    (v ∈ availableNumbers →
      (pre.filterMap parseInt).count v ≠ availableNumbers.count v →
      (pre.filterMap parseInt).count v < availableNumbers.count v ∧
      evalLoop (availableNumbersCount availableNumbers) (pre ++ [token])
        { valueStack := [], usedNumbers := fun _ => none } =
        .ok { valueStack := v :: st.valueStack, usedNumbers := increment st.usedNumbers v }) ∧
    (FormulaError.numberNotAllowed v).message = "Number not allowed: " ++ jsString v ∧
    (FormulaError.numberOveruse v).message = "Number used too many times: " ++ jsString v := by
  have hused := usedNumbers_of_evalLoop_init availableNumbers pre st hpre v
  have havail := availableNumbersCount_getD availableNumbers v
  have hstep := evalToken_number (availableNumbersCount availableNumbers) st token v hv
  rw [hused.1, havail] at hstep
  refine ⟨?_, ?_, ?_, rfl, rfl⟩
  · intro hnot
    have hc : availableNumbers.count v = 0 := List.count_eq_zero.2 hnot
    have hn := (availableNumbersCount_eq_none availableNumbers v).2 hnot
    have hlt : ¬ (pre.filterMap parseInt).count v < availableNumbers.count v := by omega
    rw [if_neg hlt, if_pos hn] at hstep
    simp [evaluatePostfix, evalLoop_append, hpre, evalLoop, hstep]
  · intro hmem heq
    have hn : availableNumbersCount availableNumbers v ≠ none := fun e =>
      (availableNumbersCount_eq_none availableNumbers v).1 e hmem
    have hlt : ¬ (pre.filterMap parseInt).count v < availableNumbers.count v := by omega
    rw [if_neg hlt, if_neg hn] at hstep
    simp [evaluatePostfix, evalLoop_append, hpre, evalLoop, hstep]
  · intro _ hne
    have hlt : (pre.filterMap parseInt).count v < availableNumbers.count v := by
      have := hused.2
      omega
    rw [if_pos hlt] at hstep
    exact ⟨hlt, by simp [evalLoop_append, hpre, evalLoop, hstep]⟩

theorem number_usage_errors_witness :
    evaluatePostfix ["3", "5", "+"] [3, 4] = .error (.numberNotAllowed 5) ∧
    evaluatePostfix ["3", "3", "+"] [3, 4] = .error (.numberOveruse 3) :=
  ⟨(number_usage_errors [3, 4] ["3"] ["+"] "5" 5
      { valueStack := [3], usedNumbers := increment (fun _ => none) 3 } rfl (by decide)).1
      (by decide),
    (number_usage_errors [3, 4] ["3"] ["+"] "3" 3
      { valueStack := [3], usedNumbers := increment (fun _ => none) 3 } rfl (by decide)).2.1
      (by decide) (by decide)⟩

/-- C9 (usage limit on success): if `evaluateUserFormula(formula, numbers)` returns a
value, then for every integer `v` the number of numeral tokens of the formula with
value `v` is at most the number of occurrences of `v` in `numbers`. -/
theorem usage_limit_on_success (formula : String) (numbers : List Int) (value : Int)
    (h : evaluateUserFormula formula numbers = .ok value) :
    ∀ v, (numeralsOf formula).count v ≤ numbers.count v :=
  fun v => numerals_within_pool formula numbers value h v

theorem usage_limit_on_success_witness :
    evaluateUserFormula "(10+5)*2" [10, 5, 2] = .ok 30 ∧
    (numeralsOf "(10+5)*2").count 10 ≤ ([10, 5, 2] : List Int).count 10 :=
  ⟨by decide, usage_limit_on_success "(10+5)*2" [10, 5, 2] 30 (by decide) 10⟩


/-- C10 (parenthesis checking): for every formula that is not blank and every pool,
`evaluateUserFormula` fails with "Mismatched parentheses in formula." if and only if
the parentheses of the formula are unbalanced (some prefix holds more `)` than `(`,
or the whole formula more `(` than `)`); the pool plays no part in it. -/
theorem parenthesis_checking (formula : String) (numbers : List Int)
    (hnb : formula.data.all isWhiteSpace = false) :
    (evaluateUserFormula formula numbers = .error .mismatchedParens ↔
      Unbalanced formula.data) ∧
    FormulaError.mismatchedParens.message = "Mismatched parentheses in formula." := by
  refine ⟨?_, rfl⟩
  have htok := tokenize_isToken formula
  have hval := validateTokens_of_isToken _ htok
  have hpar := toPostfix_parens _ htok
  rw [unbalanced_iff_parenScan, ← tokenScan_tokenize]
  have hrun : evaluateUserFormula formula numbers =
      match toPostfix (tokenize formula) with
      | .error e => .error e
      | .ok out => evaluatePostfix out numbers := by
    simp [evaluateUserFormula, hnb, hval]
  constructor
  · intro h
    cases hs : tokenScan (tokenize formula) 0 with
    | none => exact Or.inl rfl
    | some d =>
        cases d with
        | zero =>
            exfalso
            obtain ⟨out, hout⟩ := hpar.2 hs
            rw [hrun, hout] at h
            exact evaluatePostfix_ne_mismatched out numbers h
        | succ d => exact Or.inr ⟨d + 1, rfl, by omega⟩
  · intro h
    rw [hrun, hpar.1 h]

theorem parenthesis_checking_witness :
    evaluateUserFormula "(3+4" [3, 4] = .error .mismatchedParens :=
  (parenthesis_checking "(3+4" [3, 4] (by decide)).1.2 (Or.inr (by decide))


/-! ## Which errors `evaluateUserFormula` can raise -/

theorem applyOperator_error (token : String) (a b : Int) (e : FormulaError)
    (h : applyOperator token a b = .error e) : e.fromEvaluation = true := by
  unfold applyOperator at h
  simp only at h
  repeat' split at h
  all_goals first | (cases h; done) | (cases h; rfl)

theorem evalToken_error (available : CountTable) (st : EvalState) (token : String)
    (e : FormulaError) (h : evalToken available st token = .error e) :
    e.fromEvaluation = true := by
  unfold evalToken at h
  split at h
  · split at h
    · split at h <;> (simp only [Except.error.injEq] at h; subst h; rfl)
    · cases h
  · split at h
    · split at h
      · rename_i e' he
        simp only [Except.error.injEq] at h
        subst h
        exact applyOperator_error _ _ _ _ he
      · cases h
    · simp only [Except.error.injEq] at h
      subst h
      rfl

theorem evalLoop_error (available : CountTable) : ∀ (tokens : List String) (st : EvalState)
    (e : FormulaError), evalLoop available tokens st = .error e → e.fromEvaluation = true := by
  intro tokens
  induction tokens with
  | nil => intro st e h; simp [evalLoop] at h
  | cons token tokens ih =>
      intro st e h
      simp only [evalLoop] at h
      cases ht : evalToken available st token with
      | ok st1 =>
          simp only [ht] at h
          exact ih st1 e h
      | error e' =>
          simp only [ht, Except.error.injEq] at h
          subst h
          exact evalToken_error _ _ _ _ ht

theorem evaluatePostfix_error (tokens : List String) (pool : List Int) (e : FormulaError)
    (h : evaluatePostfix tokens pool = .error e) : e.fromEvaluation = true := by
  unfold evaluatePostfix at h
  split at h
  · rename_i e' he
    simp only [Except.error.injEq] at h
    subst h
    exact evalLoop_error _ _ _ _ he
  · split at h
    · cases h
    · simp only [Except.error.injEq] at h
      subst h
      rfl

/-- On tokens, `toPostfix` either succeeds or raises the parenthesis error. -/
theorem toPostfix_ok_or_mismatched (tokens : List String) (htok : ∀ tok ∈ tokens, IsToken tok) :
    toPostfix tokens = .error .mismatchedParens ∨ ∃ out, toPostfix tokens = .ok out := by
  have hpar := toPostfix_parens tokens htok
  cases hs : tokenScan tokens 0 with
  | none => exact Or.inl (hpar.1 (Or.inl hs))
  | some d =>
      cases d with
      | zero => exact Or.inr (hpar.2 hs)
      | succ d => exact Or.inl (hpar.1 (Or.inr ⟨d + 1, hs, by omega⟩))

/-- The only errors of `evaluateUserFormula`: the empty formula, mismatched
parentheses, and the errors of the evaluation. -/
theorem evaluateUserFormula_error (formula : String) (numbers : List Int) (e : FormulaError)
    (h : evaluateUserFormula formula numbers = .error e) :
    e = .emptyFormula ∨ e = .mismatchedParens ∨ e.fromEvaluation = true := by
  have htok := tokenize_isToken formula
  have hval := validateTokens_of_isToken _ htok
  unfold evaluateUserFormula at h
  split at h
  · simp only [Except.error.injEq] at h
    exact Or.inl h.symm
  · simp only [hval] at h
    rcases toPostfix_ok_or_mismatched _ htok with hp | ⟨out, hp⟩
    · simp only [hp, Except.error.injEq] at h
      exact Or.inr (Or.inl h.symm)
    · simp only [hp] at h
      exact Or.inr (Or.inr (evaluatePostfix_error out numbers e h))

/-- A character that is neither white space, nor a digit, nor a symbol leaves no
token: the scanner treats it like a space. -/
theorem scanTokens_blankInvalid : ∀ (cs run : List Char),
    (scanTokens (cs.map blankInvalid) run).filter tokenTest =
      (scanTokens cs run).filter tokenTest := by
  intro cs
  induction cs with
  | nil => intro run; rfl
  | cons c cs ih =>
      intro run
      by_cases hd : isDigit c = true
      · have hb : blankInvalid c = c := by simp [blankInvalid, hd]
        simp only [List.map_cons, hb, scanTokens, hd, if_true]
        exact ih _
      · have hd : isDigit c = false := by simpa using hd
        by_cases hw : isWhiteSpace c = true
        · have hb : blankInvalid c = c := by simp [blankInvalid, hw]
          simp only [List.map_cons, hb, scanTokens, hd, hw, if_true, Bool.false_eq_true,
            if_false, List.filter_append, ih]
        · have hw : isWhiteSpace c = false := by simpa using hw
          by_cases hs : isSymbol c = true
          · have hb : blankInvalid c = c := by simp [blankInvalid, hs]
            simp only [List.map_cons, hb, scanTokens, hd, hw, Bool.false_eq_true, if_false,
              List.filter_append, List.filter_cons, ih]
          · have hs : isSymbol c = false := by simpa using hs
            have hb : blankInvalid c = ' ' := by simp [blankInvalid, hd, hw, hs]
            have h1 : isDigit ' ' = false := by decide
            have h2 : isWhiteSpace ' ' = true := by decide
            have ht : tokenTest (String.singleton c) = false := by
              simp [tokenTest, String.singleton, hd, hs]
            simp only [List.map_cons, hb, scanTokens, h1, h2, hd, hw, if_true,
              Bool.false_eq_true, if_false, List.filter_append, List.filter_cons, ht, ih]

theorem tokenize_blankInvalid (formula : String) :
    tokenize (String.mk (formula.data.map blankInvalid)) = tokenize formula :=
  scanTokens_blankInvalid formula.data []

/-- C11 (a defect of the code): a formula with a character that is neither a digit
nor one of `+ - * / ( )` does not fail with `InvalidToken`. The filter at the end of
`tokenize` removes such a character before either validation can see it, so that
`"3 a + 4"` over the pool `[3, 4]` evaluates to 7; no formula at all makes
`evaluateUserFormula` raise one of the two invalid-token errors, and a formula is
read as if every such character were a space. -/
theorem invalid_characters_dropped :
    evaluateUserFormula "3 a + 4" [3, 4] = .ok 7 ∧
    (∀ (formula : String) (numbers : List Int) (token : String),
      evaluateUserFormula formula numbers ≠ .error (.invalidCharacter token) ∧
      evaluateUserFormula formula numbers ≠ .error (.invalidToken token)) ∧
    (∀ (formula : String) (numbers : List Int),
      (formula.data.map blankInvalid).all isWhiteSpace = false →
      evaluateUserFormula formula numbers =
        evaluateUserFormula (String.mk (formula.data.map blankInvalid)) numbers) := by
  refine ⟨by decide, ?_, ?_⟩
  · intro formula numbers token
    constructor
    · intro h
      rcases evaluateUserFormula_error formula numbers _ h with h | h | h <;> cases h
    · intro h
      rcases evaluateUserFormula_error formula numbers _ h with h | h | h <;> cases h
  · intro formula numbers hnb
    have hnb' : formula.data.all isWhiteSpace = false := by
      rw [List.all_eq_false] at hnb ⊢
      obtain ⟨c, hc, hcw⟩ := hnb
      obtain ⟨d, hd, rfl⟩ := List.mem_map.1 hc
      refine ⟨d, hd, ?_⟩
      intro hdw
      apply hcw
      simp [blankInvalid, hdw]
    simp only [evaluateUserFormula, hnb, hnb', tokenize_blankInvalid]


/-! ## Operators in `evaluatePostfix` -/

theorem evalToken_operator (available : CountTable) (st : EvalState) (token : String)
    (a b : Int) (below : List Int) (hp : parseInt token = none)
    (hstack : st.valueStack = b :: a :: below) :
    evalToken available st token =
      match applyOperator token a b with
      | .error e => .error e
      | .ok result => .ok { st with valueStack := result :: below } := by
  simp only [evalToken, hp, hstack]

theorem evalToken_short_stack (available : CountTable) (st : EvalState) (token : String)
    (hp : parseInt token = none) (hstack : st.valueStack.length < 2) :
    evalToken available st token = .error .notEnoughOperands := by
  simp only [evalToken, hp]
  split
  · rename_i b a below hs
    rw [hs] at hstack
    simp only [List.length_cons] at hstack
    omega
  · rfl

/-- `evaluatePostfix` stops with the error of the first failing iteration. -/
theorem evaluatePostfix_error_at (pool : List Int) (pre rest : List String) (token : String)
    (st : EvalState) (e : FormulaError)
    (hpre : evalLoop (availableNumbersCount pool) pre
      { valueStack := [], usedNumbers := fun _ => none } = .ok st)
    (htok : evalToken (availableNumbersCount pool) st token = .error e) :
    evaluatePostfix (pre ++ token :: rest) pool = .error e := by
  simp [evaluatePostfix, evalLoop_append, hpre, evalLoop, htok]

theorem applyOperator_ok_nonneg (token : String) (a b r : Int)
    (h : applyOperator token a b = .ok r) : 0 ≤ r := by
  unfold applyOperator at h
  simp only at h
  repeat' split at h
  all_goals first | (cases h; done) | (cases h; omega)

theorem applyOperator_negative (token : String) (a b : Int)
    (h : (token = "+" ∧ a + b < 0) ∨ (token = "-" ∧ a - b < 0) ∨ (token = "*" ∧ a * b < 0) ∨
      (token = "/" ∧ b ≠ 0 ∧ a.tmod b = 0 ∧ a.tdiv b < 0)) :
    applyOperator token a b = .error .negativeIntermediate := by
  rcases h with ⟨rfl, h⟩ | ⟨rfl, h⟩ | ⟨rfl, h⟩ | ⟨rfl, hb, hm, h⟩
  · simp [applyOperator, h]
  · have h1 : ("-" : String) ≠ "+" := by decide
    simp [applyOperator, h1, h]
  · have h1 : ("*" : String) ≠ "+" := by decide
    have h2 : ("*" : String) ≠ "-" := by decide
    simp [applyOperator, h1, h2, h]
  · have h1 : ("/" : String) ≠ "+" := by decide
    have h2 : ("/" : String) ≠ "-" := by decide
    have h3 : ("/" : String) ≠ "*" := by decide
    simp [applyOperator, h1, h2, h3, hb, hm, h]

theorem evalToken_nonneg (pool : List Int) (hpool : ∀ n ∈ pool, 0 ≤ n) (st st1 : EvalState)
    (token : String) (h : evalToken (availableNumbersCount pool) st token = .ok st1)
    (hst : ∀ x ∈ st.valueStack, 0 ≤ x) : ∀ x ∈ st1.valueStack, 0 ≤ x := by
  cases hp : parseInt token with
  | some num =>
      rw [evalToken_number _ st token num hp] at h
      split at h
      · rename_i hlt
        simp only [Except.ok.injEq] at h
        subst h
        have hmem : num ∈ pool := by
          rw [availableNumbersCount_getD] at hlt
          exact List.count_pos_iff.1 (by omega)
        intro x hx
        rcases List.mem_cons.1 hx with rfl | hx
        · exact hpool _ hmem
        · exact hst x hx
      · split at h <;> cases h
  | none =>
      simp only [evalToken, hp] at h
      split at h
      · rename_i b a below hs
        split at h
        · cases h
        · rename_i result hres
          simp only [Except.ok.injEq] at h
          subst h
          intro x hx
          rcases List.mem_cons.1 hx with rfl | hx
          · exact applyOperator_ok_nonneg _ _ _ _ hres
          · exact hst x (by rw [hs]; simp [hx])
      · cases h

theorem evalLoop_nonneg (pool : List Int) (hpool : ∀ n ∈ pool, 0 ≤ n) :
    ∀ (tokens : List String) (st st1 : EvalState),
      evalLoop (availableNumbersCount pool) tokens st = .ok st1 →
      (∀ x ∈ st.valueStack, 0 ≤ x) → ∀ x ∈ st1.valueStack, 0 ≤ x := by
  intro tokens
  induction tokens with
  | nil =>
      intro st st1 h hst
      simp only [evalLoop, Except.ok.injEq] at h
      subst h
      exact hst
  | cons token tokens ih =>
      intro st st1 h hst
      simp only [evalLoop] at h
      cases ht : evalToken (availableNumbersCount pool) st token with
      | error e => simp [ht] at h
      | ok st2 =>
          simp only [ht] at h
          exact ih st2 st1 h (evalToken_nonneg pool hpool st st2 token ht hst)

/-- What `evaluatePostfix` returns: the single value left on the stack. -/
theorem evaluatePostfix_ok_iff (tokens : List String) (pool : List Int) (v : Int) :
    evaluatePostfix tokens pool = .ok v ↔
      ∃ st, evalLoop (availableNumbersCount pool) tokens
        { valueStack := [], usedNumbers := fun _ => none } = .ok st ∧ st.valueStack = [v] := by
  unfold evaluatePostfix
  constructor
  · intro h
    split at h
    · cases h
    · rename_i st hst
      split at h
      · rename_i value hv
        simp only [Except.ok.injEq] at h
        subst h
        exact ⟨st, hst, hv⟩
      · cases h
  · rintro ⟨st, hst, hv⟩
    simp [hst, hv]

theorem evaluatePostfix_nonneg (pool : List Int) (hpool : ∀ n ∈ pool, 0 ≤ n)
    (tokens : List String) (v : Int) (h : evaluatePostfix tokens pool = .ok v) : 0 ≤ v := by
  obtain ⟨st, hst, hv⟩ := (evaluatePostfix_ok_iff tokens pool v).1 h
  exact evalLoop_nonneg pool hpool tokens _ st hst (by simp) v (by simp [hv])

theorem evaluateUserFormula_ok (formula : String) (numbers : List Int) (v : Int)
    (h : evaluateUserFormula formula numbers = .ok v) :
    ∃ out, toPostfix (tokenize formula) = .ok out ∧ evaluatePostfix out numbers = .ok v := by
  unfold evaluateUserFormula at h
  split at h
  · cases h
  · split at h
    · cases h
    · split at h
      · cases h
      · rename_i out hout
        exact ⟨out, hout, h⟩


/-- `evaluateUserFormula` on a text that spells `l op r`, where both operands have a
reference value: the outcome is that of the operator on the two values. -/
theorem evaluateUserFormula_bin (op : Op) (l r : Formula) (hwf : (Formula.bin op l r).WellFormed)
    (formula : String) (hsp : Spaced (Formula.bin op l r).tokens formula.data)
    (pool : List Int) (x y : Int) (hx : l.eval = some x) (hy : r.eval = some y)
    (huse : ∀ n, (Formula.bin op l r).numerals.count n ≤ pool.count n) :
    evaluateUserFormula formula pool = applyOperator op.sym x y := by
  have htok := (Formula.bin op l r).tokens_isToken hwf
  have hblank := hsp.not_blank (Formula.bin op l r).tokens_ne_nil htok
  have htz := tokenize_spaced hsp htok (Formula.bin op l r).tokens_apart
  have hn : parseInt op.sym = none := by
    have := (Op.sym_facts op).1
    simpa [isNumberToken] using this
  have husel : ∀ n, (((fun _ => none) : CountTable) n).getD 0 + l.numerals.count n ≤
      ((availableNumbersCount pool) n).getD 0 := by
    intro n
    have := huse n
    rw [availableNumbersCount_getD]
    simp only [Formula.numerals, List.count_append] at this
    simp only [Option.getD_none]
    omega
  have huser : ∀ n, ((l.numerals.foldl increment (fun _ => none)) n).getD 0 +
      r.numerals.count n ≤ ((availableNumbersCount pool) n).getD 0 := by
    intro n
    have := huse n
    rw [availableNumbersCount_getD, foldl_increment_getD]
    simp only [Formula.numerals, List.count_append] at this
    simp only [Option.getD_none]
    omega
  have hpost : (Formula.bin op l r).postfixOrder = l.postfixOrder ++ (r.postfixOrder ++ [op.sym]) := by
    simp [Formula.postfixOrder]
  have hrun : evalLoop (availableNumbersCount pool) (Formula.bin op l r).postfixOrder
      { valueStack := [], usedNumbers := fun _ => none } =
      evalLoop (availableNumbersCount pool) [op.sym]
        { valueStack := [y, x],
          usedNumbers := r.numerals.foldl increment (l.numerals.foldl increment fun _ => none) } := by
    rw [hpost, evalLoop_formula _ l hwf.1 x _ _ hx husel,
      evalLoop_formula _ r hwf.2.1 y _ _ hy huser]
  simp only [evaluateUserFormula, hblank, htz, validateTokens_of_isToken _ htok,
    toPostfix_formula _ hwf, evaluatePostfix, hrun, evalLoop, evalToken, hn]
  cases applyOperator op.sym x y <;> simp

/-- The numerals of `a/b`, for numbers at two distinct positions of the pool, are
within the multiplicities of the pool. -/
theorem count_pair_le (numbers : List Int) (a b : Int) (i j : Nat) (hij : i ≠ j)
    (hi : numbers[i]? = some a) (hj : numbers[j]? = some b) (n : Int) :
    ([a, b] : List Int).count n ≤ numbers.count n := by
  have hilt : i < numbers.length := by
    by_contra h
    rw [List.getElem?_eq_none (by omega)] at hi
    cases hi
  have hjlt : j < numbers.length := by
    by_contra h
    rw [List.getElem?_eq_none (by omega)] at hj
    cases hj
  have := count_positions_le numbers [i, j] (by simp [hij])
    (by
      intro k hk
      simp only [List.mem_cons, List.mem_singleton, List.not_mem_nil, or_false] at hk
      rcases hk with rfl | rfl
      · exact hilt
      · exact hjlt) n
  simpa [List.getD, hi, hj] using this

/-- C12 (division rule): for non-negative integers `a` and `b` at distinct positions
of the pool, `evaluateUserFormula` on the text `a/b` fails with "Division by zero."
when `b = 0` (before exactness is looked at), fails with the non-integer-division
error when `b ≠ 0` does not divide `a`, and returns the exact quotient otherwise. -/
theorem division_rule (numbers : List Int) (a b : Int) (i j : Nat) (ha : 0 ≤ a) (hb : 0 ≤ b)
    (hij : i ≠ j) (hi : numbers[i]? = some a) (hj : numbers[j]? = some b) :
    (b = 0 →
      evaluateUserFormula (jsString a ++ "/" ++ jsString b) numbers = .error .divisionByZero) ∧
    (b ≠ 0 → ¬ b ∣ a →
      evaluateUserFormula (jsString a ++ "/" ++ jsString b) numbers =
        .error (.nonIntegerDivision a b)) ∧
    (b ≠ 0 → b ∣ a →
      evaluateUserFormula (jsString a ++ "/" ++ jsString b) numbers = .ok (a / b)) ∧
    FormulaError.divisionByZero.message = "Division by zero." := by
  have hda := jsString_digits ha
  have hdb := jsString_digits hb
  have hwf : (Formula.bin .div (.num (jsString a).data) (.num (jsString b).data)).WellFormed :=
    ⟨⟨hda.1, hda.2.1⟩, ⟨hdb.1, hdb.2.1⟩, by simp [Formula.level, Op.prec],
      by simp [Formula.level, Op.prec]⟩
  have hsp : Spaced (Formula.bin .div (.num (jsString a).data) (.num (jsString b).data)).tokens
      (jsString a ++ "/" ++ jsString b).data := by
    have := (Spaced.single (jsString a)).append ((Spaced.single "/").append
      (Spaced.single (jsString b)))
    simpa [Formula.tokens, Op.sym, String.data_append] using this
  have hrun := evaluateUserFormula_bin .div _ _ hwf _ hsp numbers a b
    (by simp [Formula.eval, hda.2.2]) (by simp [Formula.eval, hdb.2.2])
    (by
      intro n
      simp only [Formula.numerals, hda.2.2, hdb.2.2]
      exact count_pair_le numbers a b i j hij hi hj n)
  rw [hrun]
  have h1 : ("/" : String) ≠ "+" := by decide
  have h2 : ("/" : String) ≠ "-" := by decide
  have h3 : ("/" : String) ≠ "*" := by decide
  refine ⟨?_, ?_, ?_, rfl⟩
  · intro hb0
    simp [applyOperator, Op.sym, h1, h2, h3, hb0]
  · intro hb0 hndvd
    have hm : a.tmod b ≠ 0 := fun h => hndvd (Int.dvd_of_tmod_eq_zero h)
    simp [applyOperator, Op.sym, h1, h2, h3, hb0, hm]
  · intro hb0 hdvd
    have hm : a.tmod b = 0 := Int.tmod_eq_zero_of_dvd hdvd
    have hd : a.tdiv b = a / b := Int.tdiv_eq_ediv_of_dvd hdvd
    have hq : ¬ a / b < 0 := by
      have := Int.ediv_nonneg ha hb
      omega
    simp [applyOperator, Op.sym, h1, h2, h3, hb0, hm, hd, hq]

theorem division_rule_witness :
    evaluateUserFormula "5/0" [5, 0, 1] = .error .divisionByZero ∧
    evaluateUserFormula "7/2" [7, 2, 1] = .error (.nonIntegerDivision 7 2) ∧
    evaluateUserFormula "8/2" [8, 2, 1] = .ok 4 :=
  ⟨(division_rule [5, 0, 1] 5 0 0 1 (by decide) (by decide) (by decide) rfl rfl).1 rfl,
    (division_rule [7, 2, 1] 7 2 0 1 (by decide) (by decide) (by decide) rfl rfl).2.1
      (by decide) (by decide),
    (division_rule [8, 2, 1] 8 2 0 1 (by decide) (by decide) (by decide) rfl rfl).2.2.1
      (by decide) (by decide)⟩

/-- C13 (non-negativity): over a pool of non-negative integers, every value on the
stack of `evaluatePostfix` is `≥ 0`; an operator whose computed result is `< 0` makes
the call fail at that token with "Intermediate calculations cannot result in negative
numbers."; every value returned by `evaluatePostfix` and by `evaluateUserFormula` is
`≥ 0`; and a result of exactly 0 is accepted. -/
theorem non_negativity (numbers : List Int) (hpool : ∀ n ∈ numbers, 0 ≤ n) :
    (∀ (tokens : List String) (st : EvalState),
      evalLoop (availableNumbersCount numbers) tokens
        { valueStack := [], usedNumbers := fun _ => none } = .ok st →
      ∀ x ∈ st.valueStack, 0 ≤ x) ∧
    (∀ (pre rest : List String) (token : String) (st : EvalState) (a b : Int)
      (below : List Int),
      evalLoop (availableNumbersCount numbers) pre
        { valueStack := [], usedNumbers := fun _ => none } = .ok st →
      st.valueStack = b :: a :: below →
      ((token = "+" ∧ a + b < 0) ∨ (token = "-" ∧ a - b < 0) ∨ (token = "*" ∧ a * b < 0) ∨
        (token = "/" ∧ b ≠ 0 ∧ a.tmod b = 0 ∧ a.tdiv b < 0)) →
      evaluatePostfix (pre ++ token :: rest) numbers = .error .negativeIntermediate) ∧
    (∀ (tokens : List String) (v : Int), evaluatePostfix tokens numbers = .ok v → 0 ≤ v) ∧
    (∀ (formula : String) (v : Int), evaluateUserFormula formula numbers = .ok v → 0 ≤ v) ∧
    (∀ a : Int, applyOperator "-" a a = .ok 0) ∧
    FormulaError.negativeIntermediate.message =
      "Intermediate calculations cannot result in negative numbers." := by
  refine ⟨?_, ?_, ?_, ?_, ?_, rfl⟩
  · intro tokens st h
    exact evalLoop_nonneg numbers hpool tokens _ st h (by simp)
  · intro pre rest token st a b below hpre hstack hneg
    apply evaluatePostfix_error_at numbers pre rest token st _ hpre
    have hp : parseInt token = none := by
      rcases hneg with ⟨rfl, _⟩ | ⟨rfl, _⟩ | ⟨rfl, _⟩ | ⟨rfl, _⟩ <;> decide
    rw [evalToken_operator _ st token a b below hp hstack, applyOperator_negative token a b hneg]
  · intro tokens v h
    exact evaluatePostfix_nonneg numbers hpool tokens v h
  · intro formula v h
    obtain ⟨out, _, hout⟩ := evaluateUserFormula_ok formula numbers v h
    exact evaluatePostfix_nonneg numbers hpool out v hout
  · intro a
    have h1 : ("-" : String) ≠ "+" := by decide
    simp [applyOperator, h1]

theorem non_negativity_witness :
    evaluatePostfix ["3", "4", "-"] [3, 4] = .error .negativeIntermediate ∧
    (0 : Int) ≤ 0 ∧ evaluateUserFormula "3-3" [3, 3] = .ok 0 :=
  ⟨(non_negativity [3, 4] (by decide)).2.1 ["3", "4"] [] "-"
      { valueStack := [4, 3], usedNumbers := increment (increment (fun _ => none) 3) 4 } 3 4 []
      rfl rfl (Or.inr (Or.inl ⟨rfl, by decide⟩)),
    (non_negativity [3, 3] (by decide)).2.2.2.1 "3-3" 0 (by decide), by decide⟩

/-- C14 (structure checking): `evaluatePostfix` fails with "Invalid formula structure
(not enough operands)." when a token that is not a numeral is met with fewer than two
values on the stack, and with "Invalid formula structure (too many operands or
operators)." when all tokens are consumed without an error and the stack does not
hold exactly one value. It returns `v` exactly when the loop ends with the stack
`[v]`, and then every token that is not a numeral found two operands. -/
theorem structure_checking (numbers : List Int) :
    (∀ (pre rest : List String) (token : String) (st : EvalState),
      evalLoop (availableNumbersCount numbers) pre
        { valueStack := [], usedNumbers := fun _ => none } = .ok st →
      parseInt token = none → st.valueStack.length < 2 →
      evaluatePostfix (pre ++ token :: rest) numbers = .error .notEnoughOperands) ∧
    (∀ (tokens : List String) (st : EvalState),
      evalLoop (availableNumbersCount numbers) tokens
        { valueStack := [], usedNumbers := fun _ => none } = .ok st →
      st.valueStack.length ≠ 1 →
      evaluatePostfix tokens numbers = .error .tooManyOperands) ∧
    (∀ (tokens : List String) (v : Int),
      evaluatePostfix tokens numbers = .ok v ↔
        ∃ st, evalLoop (availableNumbersCount numbers) tokens
          { valueStack := [], usedNumbers := fun _ => none } = .ok st ∧ st.valueStack = [v]) ∧
    (∀ (pre rest : List String) (token : String) (v : Int),
      evaluatePostfix (pre ++ token :: rest) numbers = .ok v → parseInt token = none →
      ∃ st, evalLoop (availableNumbersCount numbers) pre
          { valueStack := [], usedNumbers := fun _ => none } = .ok st ∧
        2 ≤ st.valueStack.length) ∧
    FormulaError.notEnoughOperands.message =
      "Invalid formula structure (not enough operands)." ∧
    FormulaError.tooManyOperands.message =
      "Invalid formula structure (too many operands or operators)." := by
  refine ⟨?_, ?_, fun tokens v => evaluatePostfix_ok_iff tokens numbers v, ?_, rfl, rfl⟩
  · intro pre rest token st hpre hp hlen
    exact evaluatePostfix_error_at numbers pre rest token st _ hpre
      (evalToken_short_stack _ st token hp hlen)
  · intro tokens st hrun hlen
    unfold evaluatePostfix
    simp only [hrun]
    split
    · rename_i value hv
      rw [hv] at hlen
      simp at hlen
    · rfl
  · intro pre rest token v hok hp
    obtain ⟨st1, hst1, _⟩ := (evaluatePostfix_ok_iff _ numbers v).1 hok
    rw [evalLoop_append] at hst1
    cases hpre : evalLoop (availableNumbersCount numbers) pre
        { valueStack := [], usedNumbers := fun _ => none } with
    | error e => simp [hpre] at hst1
    | ok st =>
        refine ⟨st, rfl, ?_⟩
        by_contra hlen
        simp only [hpre, evalLoop, evalToken_short_stack _ st token hp (by omega)] at hst1
        cases hst1

/-- C15: for every formula that is empty or consists of white space only, and every
pool, `evaluateUserFormula` fails with "Formula cannot be empty."; neither the tokens
nor the pool play a part. -/
theorem empty_formula (formula : String) (numbers : List Int)
    (hblank : formula.data.all isWhiteSpace = true) :
    evaluateUserFormula formula numbers = .error .emptyFormula ∧
    FormulaError.emptyFormula.message = "Formula cannot be empty." := by
  simp [evaluateUserFormula, hblank, FormulaError.message]

theorem empty_formula_witness :
    evaluateUserFormula "" [1, 2] = .error .emptyFormula ∧
    evaluateUserFormula " \t\n " [1, 2] = .error .emptyFormula :=
  ⟨(empty_formula "" [1, 2] (by decide)).1, (empty_formula " \t\n " [1, 2] (by decide)).1⟩


/-! ## Reachability maps as objects -/

theorem mem_keys_insertKey (key : Int) (expr : String) (m : ReachabilityMap) (b : Int) :
    b ∈ (insertKey key expr m).map Prod.fst ↔ b = key ∨ b ∈ m.map Prod.fst := by
  simp only [List.mem_map, mem_insertKey]
  constructor
  · rintro ⟨p, hp | hp, rfl⟩
    · left; rw [hp]
    · right; exact ⟨p, hp, rfl⟩
  · rintro (rfl | ⟨p, hp, rfl⟩)
    · exact ⟨(b, expr), Or.inl rfl, rfl⟩
    · exact ⟨p, Or.inr hp, rfl⟩

theorem ordered_insertKey (key : Int) (expr : String) : ∀ (m : ReachabilityMap),
    m.Ordered → key ∉ m.keys → ReachabilityMap.Ordered (insertKey key expr m) := by
  intro m
  induction m with
  | nil =>
      intro _ _
      simp [insertKey, ReachabilityMap.Ordered, ReachabilityMap.keys]
  | cons q rest ih =>
      obtain ⟨k, e⟩ := q
      intro hord habs
      simp only [ReachabilityMap.Ordered, ReachabilityMap.keys, List.map_cons,
        List.pairwise_cons] at hord
      simp only [ReachabilityMap.keys, List.map_cons, List.mem_cons, not_or] at habs
      simp only [insertKey]
      split
      · rename_i hcond
        simp only [Bool.and_eq_true, Bool.or_eq_true, Bool.not_eq_true', decide_eq_true_eq]
          at hcond
        simp only [ReachabilityMap.Ordered, ReachabilityMap.keys, List.map_cons,
          List.pairwise_cons]
        refine ⟨?_, hord⟩
        intro b hb
        rcases List.mem_cons.1 hb with rfl | hb
        · refine ⟨habs.1, fun hbi => ⟨hcond.1, ?_⟩⟩
          rcases hcond.2 with h | h
          · rw [h] at hbi; cases hbi
          · exact h
        · refine ⟨fun h => habs.2 (h ▸ hb), fun hbi => ⟨hcond.1, ?_⟩⟩
          have hkb := (hord.1 b hb).2 hbi
          rcases hcond.2 with h | h
          · rw [h] at hkb; cases hkb.1
          · omega
      · rename_i hcond
        simp only [Bool.and_eq_true, Bool.or_eq_true, Bool.not_eq_true', decide_eq_true_eq,
          not_and, not_or] at hcond
        simp only [ReachabilityMap.Ordered, ReachabilityMap.keys, List.map_cons,
          List.pairwise_cons]
        refine ⟨?_, ih hord.2 habs.2⟩
        intro b hb
        rcases (mem_keys_insertKey key expr rest b).1 hb with rfl | hb
        · refine ⟨fun h => habs.1 h.symm, fun hbi => ?_⟩
          have := hcond hbi
          have hk : isArrayIndex k = true := by
            cases hk : isArrayIndex k with
            | true => rfl
            | false => exact absurd hk this.1
          have hne : b ≠ k := habs.1
          exact ⟨hk, by omega⟩
        · exact hord.1 b hb

/-- A property write keeps the enumeration order of an object. -/
theorem ordered_set {m : ReachabilityMap} (h : m.Ordered) (key : Int)
    (expr : String) : (m.set key expr).Ordered := by
  unfold ReachabilityMap.set
  split
  · simpa only [ReachabilityMap.Ordered, ReachabilityMap.keys, keys_replaceKey] using h
  · rename_i hget
    apply ordered_insertKey key expr m h
    intro hk
    exact hget ((m.get_isSome_iff key).2 hk)

/-- The property read of a key of an object is the text stored with it. -/
theorem ReachabilityMap.get_of_mem_keys (m : ReachabilityMap) (key : Int) (h : key ∈ m.keys) :
    ∃ expr, m.get key = some expr ∧ (key, expr) ∈ m := by
  have := (m.get_isSome_iff key).2 h
  obtain ⟨expr, hexpr⟩ := Option.isSome_iff_exists.1 this
  exact ⟨expr, hexpr, m.mem_of_get key expr hexpr⟩

theorem ReachabilityMap.get_eq_none (m : ReachabilityMap) (key : Int) (h : key ∉ m.keys) :
    m.get key = none := by
  cases hg : m.get key with
  | none => rfl
  | some e => exact absurd ((m.get_isSome_iff key).1 (by simp [hg])) h

/-! ## The closest reachable value -/

theorem jsAbs_nonneg (x : Int) : 0 ≤ jsAbs x := by
  unfold jsAbs
  split <;> omega

/-- The scan over keys in ascending order keeps the smallest key among those nearest
to the target. -/
theorem closest_fold (target : Int) : ∀ (l : ReachabilityMap) (seen : List Int) (v : Int),
    v ∈ seen → (∀ k ∈ seen, jsAbs (v - target) ≤ jsAbs (k - target)) →
    (∀ k ∈ seen, jsAbs (k - target) = jsAbs (v - target) → v ≤ k) →
    (∀ s ∈ seen, ∀ k ∈ l.keys, s < k) → List.Pairwise (· < ·) l.keys →
    ∃ w, l.foldl (closestStep target) (v, some (jsAbs (v - target))) =
        (w, some (jsAbs (w - target))) ∧
      w ∈ seen ++ l.keys ∧ (∀ k ∈ seen ++ l.keys, jsAbs (w - target) ≤ jsAbs (k - target)) ∧
      (∀ k ∈ seen ++ l.keys, jsAbs (k - target) = jsAbs (w - target) → w ≤ k) := by
  intro l
  induction l with
  | nil =>
      intro seen v hv hmin htie _ _
      exact ⟨v, rfl, by simpa [ReachabilityMap.keys] using hv,
        by simpa [ReachabilityMap.keys] using hmin, by simpa [ReachabilityMap.keys] using htie⟩
  | cons q rest ih =>
      obtain ⟨k', e⟩ := q
      intro seen v hv hmin htie hlt hpair
      simp only [ReachabilityMap.keys, List.map_cons, List.pairwise_cons] at hpair
      have hseen' : ∀ s ∈ seen ++ [k'], ∀ k ∈ ReachabilityMap.keys rest, s < k := by
        intro s hs k hk
        rcases List.mem_append.1 hs with hs | hs
        · exact hlt s hs k (by simp [ReachabilityMap.keys] at hk ⊢; exact Or.inr hk)
        · rw [List.mem_singleton.1 hs]; exact hpair.1 k hk
      have hvk : v < k' := hlt v hv k' (by simp [ReachabilityMap.keys])
      have happ : seen ++ ReachabilityMap.keys ((k', e) :: rest) =
          (seen ++ [k']) ++ ReachabilityMap.keys rest := by
        simp [ReachabilityMap.keys]
      rw [happ, List.foldl_cons]
      by_cases h1 : jsAbs (k' - target) < jsAbs (v - target)
      · have hstep : closestStep target (v, some (jsAbs (v - target))) (k', e) =
            (k', some (jsAbs (k' - target))) := by
          simp [closestStep, h1]
        rw [hstep]
        apply ih (seen ++ [k']) k' (by simp) ?_ ?_ hseen' hpair.2
        · intro k hk
          rcases List.mem_append.1 hk with hk | hk
          · have := hmin k hk; omega
          · rw [List.mem_singleton.1 hk]
        · intro k hk heq
          rcases List.mem_append.1 hk with hk | hk
          · have := hmin k hk; omega
          · rw [List.mem_singleton.1 hk]
      · have hstep : closestStep target (v, some (jsAbs (v - target))) (k', e) =
            (v, some (jsAbs (v - target))) := by
          simp only [closestStep, h1, if_false]
          split
          · rename_i heq
            simp [heq]
          · rfl
        rw [hstep]
        apply ih (seen ++ [k']) v (by simp [hv]) ?_ ?_ hseen' hpair.2
        · intro k hk
          rcases List.mem_append.1 hk with hk | hk
          · exact hmin k hk
          · rw [List.mem_singleton.1 hk]; omega
        · intro k hk heq
          rcases List.mem_append.1 hk with hk | hk
          · exact htie k hk heq
          · rw [List.mem_singleton.1 hk]; omega


/-! ## Claims about `getSolutionMessage` and the scoring -/

/-- A text that `evaluateUserFormula` accepts is not empty, so no witness expression
of a reachability map is the empty text. -/
theorem ne_empty_of_evaluates (expr : String) (pool : List Int) (v : Int)
    (h : evaluateUserFormula expr pool = .ok v) : expr ≠ "" := by
  rintro rfl
  simp [evaluateUserFormula] at h

/-- C16 (exact hit): if `target` is a key of the map and the expression stored with it
is `expr`, a witness expression and so not the empty text, then
`getSolutionMessage(map, target)` is exactly `Optimal solution: `, the target, ` = `
and `expr`. -/
theorem exact_hit (allReachable : ReachabilityMap) (target : Int) (expr : String)
    (hkey : allReachable.get target = some expr) (hexpr : expr ≠ "") :
    getSolutionMessage allReachable target =
      "Optimal solution: " ++ jsString target ++ " = " ++ expr := by
  simp [getSolutionMessage, hkey, hexpr]

theorem exact_hit_witness :
    getSolutionMessage [(100, "100")] 100 = "Optimal solution: 100 = 100" :=
  exact_hit [(100, "100")] 100 "100" (by decide) (by decide)

theorem ordered_keys_lt (m : ReachabilityMap) (hobj : m.Ordered)
    (hkeys : ∀ k ∈ m.keys, isArrayIndex k = true) : List.Pairwise (· < ·) m.keys := by
  unfold ReachabilityMap.Ordered at hobj
  exact hobj.imp_of_mem (fun _ hb hab => (hab.2 (hkeys _ hb)).2)

/-- C18: for the empty reachability map and every target, `getSolutionMessage` returns
"No solution possible with these numbers.". -/
theorem no_solution_message (target : Int) :
    getSolutionMessage [] target = "No solution possible with these numbers." := rfl

/-! ## The keys depend on the numbers only -/

theorem ordered_nil : ReachabilityMap.Ordered [] := by
  simp [ReachabilityMap.Ordered, ReachabilityMap.keys]

theorem ordered_recordResult (results : ReachabilityMap) (h : results.Ordered)
    (res : Option Int) (expr : String) : (recordResult results res expr).Ordered := by
  unfold recordResult
  cases res with
  | none => exact h
  | some r =>
      simp only
      split
      · split
        · exact ordered_set h r expr
        · exact h
      · exact h

theorem ordered_combineMaps (resLeft resRight results : ReachabilityMap) (h : results.Ordered) :
    (combineMaps resLeft resRight results).Ordered := by
  unfold combineMaps
  apply foldl_invariant ReachabilityMap.Ordered _ _ _ h
  intro acc entryL _ hacc
  apply foldl_invariant ReachabilityMap.Ordered _ _ _ hacc
  intro acc1 entryR _ hacc1
  unfold combinePair
  apply foldl_invariant ReachabilityMap.Ordered _ _ _ hacc1
  intro acc2 entry _ hacc2
  unfold applyOp
  simp only
  split
  · exact ordered_recordResult _ (ordered_recordResult _ hacc2 _ _) _ _
  · exact ordered_recordResult _ hacc2 _ _

/-- Every map the recursion computes is an object in enumeration order. -/
theorem Solved.ordered {numbers : List Int} {m : ReachabilityMap} (h : Solved numbers m) :
    m.Ordered := by
  cases h with
  | single n => exact ordered_set ordered_nil n _
  | split numbers runs hne hidx hleft hright hl hr =>
      unfold foldRuns
      apply foldl_invariant ReachabilityMap.Ordered
      · unfold singletons
        exact foldl_invariant ReachabilityMap.Ordered _ _ _ ordered_nil
          (fun acc n _ hacc => ordered_set hacc n _)
      · intro acc run _ hacc
        exact ordered_combineMaps _ _ acc hacc

/-- The keys of a map computed for positive numbers: the values of the trees over the
numbers whose leaves and intermediate results are all positive. -/
theorem Solved.mem_keys_iff {numbers : List Int} {m : ReachabilityMap} (h : Solved numbers m)
    (hpos : ∀ n ∈ numbers, 0 < n) (k : Int) :
    k ∈ m.keys ↔
      ∃ t : Tree, t.evalPos = some k ∧ ∀ n, t.leaves.count n ≤ numbers.count n := by
  constructor
  · intro hk
    obtain ⟨p, hp, rfl⟩ := List.mem_map.1 hk
    obtain ⟨t, _, heval, hkpos, hcount⟩ := h.sound hpos p hp
    have hlpos : ∀ n ∈ t.leaves, 0 < n := by
      intro n hn
      have h1 := List.count_pos_iff.2 hn
      have h2 := hcount n
      exact hpos n (List.count_pos_iff.1 (by omega))
    obtain ⟨t', ht', hc'⟩ := t.prune p.1 hlpos heval hkpos
    exact ⟨t', ht', fun n => le_trans (hc' n) (hcount n)⟩
  · rintro ⟨t, ht, hcount⟩
    exact h.complete t k ht hcount

/-- C20 (order irrelevance): for every list `numbers` of positive integers and every
permutation `p` of it, `solveNumbersGame(p)` and `solveNumbersGame(numbers)` return
maps with the same keys; the expressions recorded for a key may differ, as they do
for the key 5 of `[2, 3]` and `[3, 2]`. -/
theorem order_irrelevance (numbers p : List Int) (solveCache : SolveCache)
    (hperm : p.Perm numbers) (hpos : ∀ n ∈ numbers, 0 < n) :
    (∃ m cache' m' cache'', solveNumbersGame numbers solveCache = some (m, cache') ∧
      solveNumbersGame p solveCache = some (m', cache'') ∧ ∀ k, k ∈ m'.keys ↔ k ∈ m.keys) ∧
    (∃ m cache' m' cache'', solveNumbersGame [2, 3] solveCache = some (m, cache') ∧
      solveNumbersGame [3, 2] solveCache = some (m', cache'') ∧
      m.get 5 = some "(2 + 3)" ∧ m'.get 5 = some "(3 + 2)") := by
  constructor
  · obtain ⟨c1, h1⟩ := solve_spec numbers
    obtain ⟨c2, h2⟩ := solve_spec p
    refine ⟨solve numbers, c1, solve p, c2, h1, h2, ?_⟩
    intro k
    have hposp : ∀ n ∈ p, 0 < n := fun n hn => hpos n (hperm.subset hn)
    rw [(solve_solved p).mem_keys_iff hposp k, (solve_solved numbers).mem_keys_iff hpos k]
    constructor
    · rintro ⟨t, ht, hc⟩
      exact ⟨t, ht, fun n => by rw [← hperm.count_eq n]; exact hc n⟩
    · rintro ⟨t, ht, hc⟩
      exact ⟨t, ht, fun n => by rw [hperm.count_eq n]; exact hc n⟩
  · obtain ⟨c1, h1⟩ := solve_spec [2, 3]
    obtain ⟨c2, h2⟩ := solve_spec [3, 2]
    exact ⟨solve [2, 3], c1, solve [3, 2], c2, h1, h2, by decide, by decide⟩

theorem order_irrelevance_witness :
    ∃ m cache' m' cache'', solveNumbersGame [4, 6, 25] [] = some (m, cache') ∧
      solveNumbersGame [25, 4, 6] [] = some (m', cache'') ∧ ∀ k, k ∈ m'.keys ↔ k ∈ m.keys :=
  (order_irrelevance [4, 6, 25] [25, 4, 6] [] (by decide) (by decide)).1


/-! ## Precedence and associativity in `toPostfix` -/

theorem toPostfixLoop_cons_number (token : String) (rest out ops : List String)
    (h : isNumberToken token = true) :
    toPostfixLoop (token :: rest) out ops = toPostfixLoop rest (out ++ [token]) ops := by
  rw [toPostfixLoop]
  simp only [h, if_true]

theorem toPostfix_three (a b c : String) (o1 o2 : Op) (ha : isNumberToken a = true)
    (hb : isNumberToken b = true) (hc : isNumberToken c = true) :
    toPostfix [a, o1.sym, b, o2.sym, c] =
      .ok (if o2.prec ≤ o1.prec then [a, b, o1.sym, c, o2.sym] else [a, b, c, o2.sym, o1.sym]) := by
  unfold toPostfix
  rw [toPostfixLoop_cons_number a _ _ _ ha, toPostfixLoop_cons_op,
    toPostfixLoop_cons_number b _ _ _ hb, toPostfixLoop_cons_op,
    toPostfixLoop_cons_number c _ _ _ hc, toPostfixLoop]
  by_cases hle : o2.prec ≤ o1.prec
  · have hp : popsBefore o2.sym o1.sym = true := by rw [popsBefore_sym]; exact decide_eq_true hle
    simp only [List.takeWhile_nil, List.dropWhile_nil, List.takeWhile_cons, List.dropWhile_cons, hp,
      if_true, if_pos hle]
    have := drainOperators_syms [o2] ([] ++ [a] ++ [] ++ [b] ++ [o1.sym] ++ [c])
    simpa using this
  · have hp : popsBefore o2.sym o1.sym = false := by rw [popsBefore_sym]; exact decide_eq_false hle
    simp only [List.takeWhile_nil, List.dropWhile_nil, List.takeWhile_cons, List.dropWhile_cons, hp,
      Bool.false_eq_true, if_false, if_neg hle]
    have := drainOperators_syms [o2, o1] ([] ++ [a] ++ [] ++ [b] ++ [] ++ [c])
    simpa using this

theorem operator_token_cases (op : String) (h : op ∈ ["+", "-", "*", "/"]) :
    ∃ o : Op, op = o.sym := by
  simp only [List.mem_cons, List.mem_singleton, List.mem_nil_iff, or_false] at h
  rcases h with rfl | rfl | rfl | rfl
  · exact ⟨.add, rfl⟩
  · exact ⟨.sub, rfl⟩
  · exact ⟨.mul, rfl⟩
  · exact ⟨.div, rfl⟩

/-- C22 (precedence and left associativity in `toPostfix`): the table `precedence`
gives 1 to `+` and `-` and 2 to `*` and `/`; for all numeral tokens `a`, `b`, `c`
and operators `op1`, `op2` among `+ - * /`, `toPostfix([a, op1, b, op2, c])` is
`[a, b, op1, c, op2]` when `precedence(op1) >= precedence(op2)` and
`[a, b, c, op2, op1]` when `precedence(op1) < precedence(op2)`. -/
theorem toPostfix_precedence (a b c op1 op2 : String) (ha : isNumberToken a = true)
    (hb : isNumberToken b = true) (hc : isNumberToken c = true)
    (h1 : op1 ∈ ["+", "-", "*", "/"]) (h2 : op2 ∈ ["+", "-", "*", "/"]) :
    precedence "+" = some 1 ∧ precedence "-" = some 1 ∧
    precedence "*" = some 2 ∧ precedence "/" = some 2 ∧
    ∃ p1 p2, precedence op1 = some p1 ∧ precedence op2 = some p2 ∧
      (p2 ≤ p1 → toPostfix [a, op1, b, op2, c] = .ok [a, b, op1, c, op2]) ∧
      (p1 < p2 → toPostfix [a, op1, b, op2, c] = .ok [a, b, c, op2, op1]) := by
  obtain ⟨o1, rfl⟩ := operator_token_cases op1 h1
  obtain ⟨o2, rfl⟩ := operator_token_cases op2 h2
  refine ⟨by decide, by decide, by decide, by decide, o1.prec, o2.prec,
    (Op.sym_facts o1).2.2.1, (Op.sym_facts o2).2.2.1, ?_, ?_⟩
  · intro hle
    rw [toPostfix_three a b c o1 o2 ha hb hc, if_pos hle]
  · intro hlt
    rw [toPostfix_three a b c o1 o2 ha hb hc, if_neg (by omega)]

theorem toPostfix_precedence_witness :
    isNumberToken "1" = true ∧ isNumberToken "2" = true ∧ isNumberToken "3" = true ∧
    "+" ∈ ["+", "-", "*", "/"] ∧ "*" ∈ ["+", "-", "*", "/"] ∧
    (precedence "+" = some 1 ∧ precedence "-" = some 1 ∧
    precedence "*" = some 2 ∧ precedence "/" = some 2 ∧
    ∃ p1 p2, precedence "+" = some p1 ∧ precedence "*" = some p2 ∧
      (p2 ≤ p1 → toPostfix ["1", "+", "2", "*", "3"] = .ok ["1", "2", "+", "3", "*"]) ∧
      (p1 < p2 → toPostfix ["1", "+", "2", "*", "3"] = .ok ["1", "2", "3", "*", "+"])) :=
  ⟨by decide, by decide, by decide, by decide, by decide,
    toPostfix_precedence "1" "2" "3" "+" "*" (by decide) (by decide) (by decide)
      (by decide) (by decide)⟩

/-! ## What the solver records for its inputs -/

theorem get_insertKey (key : Int) (expr : String) (key' : Int) : ∀ (m : ReachabilityMap),
    m.get key = none →
    ReachabilityMap.get (insertKey key expr m) key' =
      if key = key' then some expr else m.get key' := by
  intro m
  induction m with
  | nil => intro _; simp [insertKey, ReachabilityMap.get]
  | cons p rest ih =>
      obtain ⟨k, e⟩ := p
      intro h
      simp only [ReachabilityMap.get] at h
      by_cases hk : k = key
      · simp [hk] at h
      · rw [if_neg hk] at h
        simp only [insertKey]
        split
        · simp only [ReachabilityMap.get]
        · simp only [ReachabilityMap.get, ih h]
          by_cases hk' : k = key'
          · have hne : key ≠ key' := fun heq => hk (hk'.trans heq.symm)
            simp [hk', hne]
          · simp [hk']

theorem get_replaceKey (key : Int) (expr : String) (key' : Int) : ∀ (m : ReachabilityMap),
    (m.get key).isSome = true →
    ReachabilityMap.get (replaceKey key expr m) key' =
      if key = key' then some expr else m.get key' := by
  intro m
  induction m with
  | nil => intro h; simp [ReachabilityMap.get] at h
  | cons p rest ih =>
      obtain ⟨k, e⟩ := p
      intro h
      simp only [ReachabilityMap.get] at h
      simp only [replaceKey]
      by_cases hk : k = key
      · subst hk
        simp only [if_true, ReachabilityMap.get]
        by_cases hk' : k = key'
        · simp [hk']
        · simp [hk']
      · rw [if_neg hk] at h
        simp only [if_neg hk, ReachabilityMap.get, ih h]
        by_cases hk' : k = key'
        · have hne : key ≠ key' := fun heq => hk (hk'.trans heq.symm)
          simp [hk', hne]
        · simp [hk']

/-- Reading a property after a write. -/
theorem get_of_set (m : ReachabilityMap) (key key' : Int) (expr : String) :
    (m.set key expr).get key' = if key = key' then some expr else m.get key' := by
  unfold ReachabilityMap.set
  split
  · rename_i h
    exact get_replaceKey key expr key' m h
  · rename_i h
    apply get_insertKey key expr key' m
    cases hg : m.get key with
    | none => rfl
    | some e => simp [hg] at h

/-- A property of maps that every guarded store keeps is kept by the whole loop nest. -/
theorem foldRuns_invariant (P : ReachabilityMap → Prop)
    (hrec : ∀ results res expr, P results → P (recordResult results res expr))
    (runs : List SplitRun) (results : ReachabilityMap) (h : P results) :
    P (foldRuns runs results) := by
  unfold foldRuns
  apply foldl_invariant P _ _ _ h
  intro acc run _ hacc
  unfold combineMaps
  apply foldl_invariant P _ _ _ hacc
  intro acc1 entryL _ hacc1
  apply foldl_invariant P _ _ _ hacc1
  intro acc2 entryR _ hacc2
  unfold combinePair
  apply foldl_invariant P _ _ _ hacc2
  intro acc3 entry _ hacc3
  unfold applyOp
  simp only
  split
  · exact hrec _ _ _ (hrec _ _ _ hacc3)
  · exact hrec _ _ _ hacc3

theorem jsString_ne_empty (n : Int) : jsString n ≠ "" := by
  intro h
  have := (jsString_chars n).1
  rw [h] at this
  exact this rfl

/-- A recorded value is never overwritten: the guarded store leaves a property with a
non-empty text as it is. -/
theorem recordResult_get (results : ReachabilityMap) (res : Option Int) (expr : String)
    (key : Int) (text : String) (htext : text ≠ "") (h : results.get key = some text) :
    (recordResult results res expr).get key = some text := by
  unfold recordResult
  cases res with
  | none => exact h
  | some r =>
      simp only
      split
      · split
        · rename_i hset
          rw [get_of_set]
          by_cases hr : r = key
          · subst hr
            have hu := hset.2
            unfold isUnset at hu
            rw [h] at hu
            simp only [decide_eq_true_eq] at hu
            exact absurd hu htext
          · rw [if_neg hr]; exact h
        · exact h
      · exact h

/-- The `forEach` records every input with its decimal literal. -/
theorem singletons_get (numbers : List Int) (n : Int) (h : n ∈ numbers) :
    (singletons numbers).get n = some (jsString n) := by
  unfold singletons
  apply foldl_establish (fun m : ReachabilityMap => m.get n = some (jsString n)) _ _ _ n h
  · intro acc
    show (acc.set n (jsString n)).get n = some (jsString n)
    rw [get_of_set]; simp
  · intro acc y hacc
    show (acc.set y (jsString y)).get n = some (jsString n)
    rw [get_of_set]
    by_cases hy : y = n
    · subst hy; simp
    · rw [if_neg hy]; exact hacc

theorem singletons_keys (numbers : List Int) :
    ∀ k ∈ (singletons numbers).keys, k ∈ numbers := by
  unfold singletons
  apply foldl_invariant (fun m : ReachabilityMap => ∀ k ∈ m.keys, k ∈ numbers)
  · intro k hk; simp [ReachabilityMap.keys] at hk
  · intro acc x hx hacc k hk
    rcases (acc.mem_keys_set x k _).1 hk with rfl | hk
    · exact hx
    · exact hacc k hk

theorem Solved.get_input {numbers : List Int} {m : ReachabilityMap} (h : Solved numbers m)
    (n : Int) (hn : n ∈ numbers) : m.get n = some (jsString n) := by
  cases h with
  | single n0 =>
      simp only [List.mem_singleton] at hn
      subst hn
      rw [get_of_set]; simp
  | split _ runs hne hidx hleft hright hl hr =>
      exact foldRuns_invariant (fun m => m.get n = some (jsString n))
        (fun results res expr hres =>
          recordResult_get results res expr n _ (jsString_ne_empty n) hres)
        runs _ (singletons_get numbers n hn)

theorem Solved.keys_positive_or_input {numbers : List Int} {m : ReachabilityMap}
    (h : Solved numbers m) : ∀ k ∈ m.keys, 0 < k ∨ k ∈ numbers := by
  cases h with
  | single n0 =>
      intro k hk
      rcases (ReachabilityMap.mem_keys_set [] n0 k _).1 hk with rfl | hk
      · exact Or.inr (List.mem_singleton.2 rfl)
      · simp [ReachabilityMap.keys] at hk
  | split _ runs hne hidx hleft hright hl hr =>
      apply foldRuns_invariant (fun m => ∀ k ∈ m.keys, 0 < k ∨ k ∈ numbers)
      · intro results res expr hres k hk
        unfold recordResult at hk
        cases res with
        | none => exact hres k hk
        | some r =>
            simp only at hk
            split at hk
            · split at hk
              · rename_i hset
                rcases (results.mem_keys_set r k expr).1 hk with rfl | hk
                · exact Or.inl hset.1
                · exact hres k hk
              · exact hres k hk
            · exact hres k hk
      · intro k hk
        exact Or.inr (singletons_keys numbers k hk)

theorem Solved.input_mem_keys {numbers : List Int} {m : ReachabilityMap} (h : Solved numbers m)
    (n : Int) (hn : n ∈ numbers) : n ∈ m.keys :=
  (m.get_isSome_iff n).1 (by rw [h.get_input n hn]; rfl)

/-- C24, counterexample to the claim as stated: `[0, 5]` is a list of non-negative
integers, and the map `solveNumbersGame` returns for it has the key 0. -/
theorem solver_zero_key_counterexample :
    (∀ n ∈ ([0, 5] : List Int), 0 ≤ n) ∧
    ∃ m cache', solveNumbersGame [0, 5] [] = some (m, cache') ∧ 0 ∈ m.keys ∧
      m = [(0, "0"), (5, "5")] := by
  refine ⟨by decide, [(0, "0"), (5, "5")], ?_⟩
  obtain ⟨cache', hrun⟩ := solve_spec [0, 5]
  have hsolve : solve [0, 5] = [(0, "0"), (5, "5")] := by decide
  rw [hsolve] at hrun
  exact ⟨cache', hrun, by decide, rfl⟩

/-- C24, amended: for every finite list of integers, in particular of non-negative
ones, every key of the map returned by `solveNumbersGame` is strictly positive or is
one of the inputs (a value computed by an operator is recorded only when strictly
positive, an input is recorded as it is); so 0 is a key exactly when 0 is one of the
inputs. -/
theorem solver_zero_key (numbers : List Int) (solveCache : SolveCache) :
    ∃ m cache', solveNumbersGame numbers solveCache = some (m, cache') ∧
      (∀ key ∈ m.keys, 0 < key ∨ key ∈ numbers) ∧
      (∀ results res expr key, key ∈ (recordResult results res expr).keys →
        key ∈ results.keys ∨ 0 < key) ∧
      (0 ∈ m.keys ↔ 0 ∈ numbers) := by
  obtain ⟨cache', hrun⟩ := solve_spec numbers
  have hs := solve_solved numbers
  refine ⟨solve numbers, cache', hrun, hs.keys_positive_or_input, ?_, ?_, ?_⟩
  · intro results res expr key hk
    unfold recordResult at hk
    cases res with
    | none => exact Or.inl hk
    | some r =>
        simp only at hk
        split at hk
        · split at hk
          · rename_i hset
            rcases (results.mem_keys_set r key expr).1 hk with rfl | hk
            · exact Or.inr hset.1
            · exact Or.inl hk
          · exact Or.inl hk
        · exact Or.inl hk
  · intro h0
    rcases hs.keys_positive_or_input 0 h0 with h | h
    · exact absurd h (by decide)
    · exact h
  · exact hs.input_mem_keys 0

/-! ## The defensive branches of `getSolutionMessage` -/

theorem exprOf_ne_empty (exprL opSym exprR : String) : exprOf exprL opSym exprR ≠ "" := by
  intro h
  have hd := congrArg String.data h
  simp [exprOf] at hd

theorem Tree.render_ne_empty (t : Tree) : t.render ≠ "" := by
  cases t with
  | leaf n => exact jsString_ne_empty n
  | node op l r => exact exprOf_ne_empty _ _ _

/-- The scan ends on one of the keys it has seen, with a finite `minDiff`. -/
theorem closest_fold_key (target : Int) : ∀ (l : ReachabilityMap) (v d : Int),
    ∃ w d', l.foldl (closestStep target) (v, some d) = (w, some d') ∧
      (w = v ∨ w ∈ l.keys) := by
  intro l
  induction l with
  | nil => intro v d; exact ⟨v, d, rfl, Or.inl rfl⟩
  | cons q rest ih =>
      intro v d
      rw [List.foldl_cons]
      have hstep : ∃ v' d', closestStep target (v, some d) q = (v', some d') ∧
          (v' = v ∨ v' = q.1) := by
        simp only [closestStep]
        split
        · exact ⟨_, _, rfl, Or.inr rfl⟩
        · split
          · split
            · exact ⟨_, _, rfl, Or.inr rfl⟩
            · exact ⟨_, _, rfl, Or.inl rfl⟩
          · exact ⟨_, _, rfl, Or.inl rfl⟩
      obtain ⟨v', d', hq, hv'⟩ := hstep
      rw [hq]
      obtain ⟨w, d'', hrun, hw⟩ := ih v' d'
      refine ⟨w, d'', hrun, ?_⟩
      rcases hw with rfl | hw
      · rcases hv' with h | h
        · exact Or.inl h
        · exact Or.inr (by simp [ReachabilityMap.keys, h])
      · exact Or.inr (by simp only [ReachabilityMap.keys, List.map_cons, List.mem_cons]; exact Or.inr hw)

theorem closest_fold_init (target : Int) (m : ReachabilityMap) (hne : m ≠ []) :
    ∃ w d', m.foldl (closestStep target) (-1, none) = (w, some d') ∧ w ∈ m.keys := by
  cases m with
  | nil => exact absurd rfl hne
  | cons q rest =>
      rw [List.foldl_cons]
      have hstep : closestStep target (-1, none) q = (q.1, some (jsAbs (q.1 - target))) := rfl
      rw [hstep]
      obtain ⟨w, d', hrun, hw⟩ := closest_fold_key target rest q.1 (jsAbs (q.1 - target))
      refine ⟨w, d', hrun, ?_⟩
      rcases hw with rfl | hw
      · simp [ReachabilityMap.keys]
      · simp only [ReachabilityMap.keys, List.map_cons, List.mem_cons]; exact Or.inr hw

theorem optimal_ne_defensive (rest : String) :
    "Optimal solution: " ++ rest ≠ "No solution possible with these numbers." ∧
    "Optimal solution: " ++ rest ≠ "No positive solution found by computer." := by
  constructor
  · intro h
    have hd := congrArg (fun s : String => s.data.head?) h
    simp at hd
  · intro h
    have hd := congrArg (fun s : String => s.data.head?) h
    simp at hd

theorem closest_ne_defensive (rest : String) :
    "Exact target not found by computer. Closest possible: " ++ rest ≠
      "No solution possible with these numbers." ∧
    "Exact target not found by computer. Closest possible: " ++ rest ≠
      "No positive solution found by computer." := by
  constructor
  · intro h
    have hd := congrArg (fun s : String => s.data.head?) h
    simp at hd
  · intro h
    have hd := congrArg (fun s : String => s.data.head?) h
    simp at hd

/-- The message for a non-empty map with positive keys and non-empty texts. -/
theorem getSolutionMessage_cases (m : ReachabilityMap) (target : Int) (hne : m ≠ [])
    (hkeys : ∀ key ∈ m.keys, 0 < key) (htext : ∀ p ∈ m, p.2 ≠ "") :
    (∃ expr, m.get target = some expr ∧
      getSolutionMessage m target = "Optimal solution: " ++ jsString target ++ " = " ++ expr) ∨
    (∃ closestVal expr diff, m.get target = none ∧ m.get closestVal = some expr ∧
      getSolutionMessage m target =
        "Exact target not found by computer. Closest possible: " ++ jsString closestVal ++
          " = " ++ expr ++ " (Difference: " ++ jsString diff ++ ")") := by
  unfold getSolutionMessage
  cases hg : m.get target with
  | some expr =>
      left
      have hexpr : expr ≠ "" := htext _ (m.mem_of_get target expr hg)
      exact ⟨expr, rfl, by simp only [if_neg hexpr]⟩
  | none =>
      right
      obtain ⟨w, d, hrun, hw⟩ := closest_fold_init target m hne
      obtain ⟨expr, hget, _⟩ := m.get_of_mem_keys w hw
      have hlen : m.keys.length ≠ 0 := by
        intro h0
        rw [List.length_eq_zero.1 h0] at hw
        simp at hw
      have hw1 : w ≠ -1 := by
        have := hkeys w hw
        omega
      refine ⟨w, expr, d, rfl, hget, ?_⟩
      simp only [closestMessage, if_neg hlen, hrun, if_neg hw1, hget, propertyText, minDiffText]

/-- C21 (the defensive branches are unreachable from the solver): for every non-empty
list `numbers` of positive integers and every target,
`getSolutionMessage(solveNumbersGame(numbers), target)` is either an
`Optimal solution: ...` message or an
`Exact target not found by computer. Closest possible: ...` message, and is neither
`No solution possible with these numbers.` nor
`No positive solution found by computer.`. -/
theorem defensive_branches_unreachable (numbers : List Int) (solveCache : SolveCache)
    (target : Int) (hne : numbers ≠ []) (hpos : ∀ n ∈ numbers, 0 < n) :
    ∃ m cache', solveNumbersGame numbers solveCache = some (m, cache') ∧
      ((∃ expr, m.get target = some expr ∧
          getSolutionMessage m target =
            "Optimal solution: " ++ jsString target ++ " = " ++ expr) ∨
        (∃ closestVal expr diff, m.get target = none ∧ m.get closestVal = some expr ∧
          getSolutionMessage m target =
            "Exact target not found by computer. Closest possible: " ++ jsString closestVal ++
              " = " ++ expr ++ " (Difference: " ++ jsString diff ++ ")")) ∧
      getSolutionMessage m target ≠ "No solution possible with these numbers." ∧
      getSolutionMessage m target ≠ "No positive solution found by computer." := by
  obtain ⟨cache', hrun⟩ := solve_spec numbers
  have hs := solve_solved numbers
  have hsound := solve_sound numbers hpos
  have hm : solve numbers ≠ [] := by
    obtain ⟨n, hn⟩ := List.exists_mem_of_ne_nil numbers hne
    have hk := hs.input_mem_keys n hn
    intro h0
    rw [h0] at hk
    simp [ReachabilityMap.keys] at hk
  have hkeys : ∀ key ∈ (solve numbers).keys, 0 < key := by
    intro key hkey
    obtain ⟨p, hp, rfl⟩ := List.mem_map.1 hkey
    exact (hsound p hp).choose_spec.2.2.1
  have htext : ∀ p ∈ solve numbers, p.2 ≠ "" := by
    intro p hp
    obtain ⟨t, hrender, _⟩ := hsound p hp
    rw [← hrender]
    exact t.render_ne_empty
  have hcases := getSolutionMessage_cases (solve numbers) target hm hkeys htext
  refine ⟨solve numbers, cache', hrun, hcases, ?_, ?_⟩
  · rcases hcases with ⟨expr, _, hmsg⟩ | ⟨w, expr, d, _, _, hmsg⟩
    · rw [hmsg, String.append_assoc, String.append_assoc]
      exact (optimal_ne_defensive _).1
    · rw [hmsg, String.append_assoc, String.append_assoc, String.append_assoc,
        String.append_assoc, String.append_assoc]
      exact (closest_ne_defensive _).1
  · rcases hcases with ⟨expr, _, hmsg⟩ | ⟨w, expr, d, _, _, hmsg⟩
    · rw [hmsg, String.append_assoc, String.append_assoc]
      exact (optimal_ne_defensive _).2
    · rw [hmsg, String.append_assoc, String.append_assoc, String.append_assoc,
        String.append_assoc, String.append_assoc]
      exact (closest_ne_defensive _).2

theorem defensive_branches_unreachable_witness :
    ([1, 2, 3] : List Int) ≠ [] ∧ (∀ n ∈ ([1, 2, 3] : List Int), 0 < n) ∧
    ∃ m cache', solveNumbersGame [1, 2, 3] [] = some (m, cache') ∧
      ((∃ expr, m.get 20 = some expr ∧
          getSolutionMessage m 20 =
            "Optimal solution: " ++ jsString 20 ++ " = " ++ expr) ∨
        (∃ closestVal expr diff, m.get 20 = none ∧ m.get closestVal = some expr ∧
          getSolutionMessage m 20 =
            "Exact target not found by computer. Closest possible: " ++ jsString closestVal ++
              " = " ++ expr ++ " (Difference: " ++ jsString diff ++ ")")) ∧
      getSolutionMessage m 20 ≠ "No solution possible with these numbers." ∧
      getSolutionMessage m 20 ≠ "No positive solution found by computer." :=
  ⟨by decide, by decide, defensive_branches_unreachable [1, 2, 3] [] 20 (by decide) (by decide)⟩

/-! ## Texts that are not infix formulas -/

theorem scanTokens_number (ds cs : List Char) (hne : ds ≠ [])
    (hall : ∀ c ∈ ds, isDigit c = true) (h : StartsNonDigit cs) :
    scanTokens (ds ++ cs) [] = String.mk ds :: scanTokens cs [] := by
  rw [scanTokens_digits ds cs [] hall, scanTokens_flush _ _ h]
  simp [flushRun, hne]

theorem scanTokens_space (cs : List Char) : scanTokens (' ' :: cs) [] = scanTokens cs [] :=
  scanTokens_whiteSpace [' '] cs (by decide)

/-- The tokens of the postfix-style text `a b +`. -/
theorem tokenize_postfix_style (ds es : List Char) (hds : ds ≠ [])
    (hdall : ∀ c ∈ ds, isDigit c = true) (hes : es ≠ []) (heall : ∀ c ∈ es, isDigit c = true) :
    tokenize (String.mk ds ++ " " ++ String.mk es ++ " +") = [String.mk ds, String.mk es, "+"] := by
  have hdata : (String.mk ds ++ " " ++ String.mk es ++ " +").data =
      ds ++ ' ' :: (es ++ [' ', '+']) := by
    simp [String.data_append]
  have h1 : StartsNonDigit (' ' :: (es ++ [' ', '+'])) := by
    intro c hc
    have : c = ' ' := by simpa using hc.symm
    subst this; decide
  have h2 : StartsNonDigit [' ', '+'] := by
    intro c hc
    have : c = ' ' := by simpa using hc.symm
    subst this; decide
  have h3 : scanTokens [' ', '+'] [] = ["+"] := by decide
  have ht1 : tokenTest (String.mk ds) = true :=
    tokenTest_of_isToken (Or.inl ⟨ds, hds, hdall, rfl⟩)
  have ht2 : tokenTest (String.mk es) = true :=
    tokenTest_of_isToken (Or.inl ⟨es, hes, heall, rfl⟩)
  have ht3 : tokenTest "+" = true := by decide
  rw [tokenize, hdata, scanTokens_number ds _ hds hdall h1, scanTokens_space,
    scanTokens_number es _ hes heall h2, h3]
  simp [List.filter_cons, ht1, ht2, ht3]

/-- The tokens of the prefix-style text `+ a b`. -/
theorem tokenize_prefix_style (ds es : List Char) (hds : ds ≠ [])
    (hdall : ∀ c ∈ ds, isDigit c = true) (hes : es ≠ []) (heall : ∀ c ∈ es, isDigit c = true) :
    tokenize ("+ " ++ String.mk ds ++ " " ++ String.mk es) = ["+", String.mk ds, String.mk es] := by
  have hdata : ("+ " ++ String.mk ds ++ " " ++ String.mk es).data =
      '+' :: ' ' :: (ds ++ ' ' :: (es ++ [])) := by
    simp [String.data_append]
  have h1 : StartsNonDigit (' ' :: (es ++ [])) := by
    intro c hc
    have : c = ' ' := by simpa using hc.symm
    subst this; decide
  have h2 : StartsNonDigit ([] : List Char) := by
    intro c hc; simp at hc
  have h0 : ∀ cs, scanTokens ('+' :: cs) [] = "+" :: scanTokens cs [] := by
    intro cs
    have hd : isDigit '+' = false := by decide
    have hw : isWhiteSpace '+' = false := by decide
    rw [scanTokens]
    simp only [hd, hw, Bool.false_eq_true, if_false, flushRun, if_true, List.nil_append]
    rfl
  have h3 : scanTokens [] [] = [] := by decide
  have ht1 : tokenTest (String.mk ds) = true :=
    tokenTest_of_isToken (Or.inl ⟨ds, hds, hdall, rfl⟩)
  have ht2 : tokenTest (String.mk es) = true :=
    tokenTest_of_isToken (Or.inl ⟨es, hes, heall, rfl⟩)
  have ht3 : tokenTest "+" = true := by decide
  rw [tokenize, hdata, h0, scanTokens_space, scanTokens_number ds _ hds hdall h1,
    scanTokens_space, scanTokens_number es _ hes heall h2, h3]
  simp [List.filter_cons, ht1, ht2, ht3]

theorem not_numbersApart_pair (before after : List String) (x y : String)
    (hx : isNumberToken x = true) (hy : isNumberToken y = true) :
    ¬ NumbersApart (before ++ x :: y :: after) := by
  intro h
  unfold NumbersApart at h
  have h1 := (List.chain'_append.1 h).2.1
  exact (List.chain'_cons.1 h1).1 ⟨hx, hy⟩

/-- No well-formed infix formula is spelled by a text whose tokens hold two adjacent
numerals. -/
theorem not_infix_of_adjacent (formula : String) (before after : List String) (x y : String)
    (htz : tokenize formula = before ++ x :: y :: after)
    (hx : isNumberToken x = true) (hy : isNumberToken y = true) :
    ¬ ∃ e : Formula, e.WellFormed ∧ Spaced e.tokens formula.data := by
  rintro ⟨e, hwf, hsp⟩
  have h := tokenize_spaced hsp (e.tokens_isToken hwf) e.tokens_apart
  rw [htz] at h
  have hap := e.tokens_apart
  rw [← h] at hap
  exact not_numbersApart_pair before after x y hx hy hap

/-- With the tokens, the parse and a non-blank text given, `evaluateUserFormula` is
`evaluatePostfix` on the parse. -/
theorem evaluateUserFormula_of_tokens (formula : String) (toks post : List String)
    (pool : List Int) (htz : tokenize formula = toks) (hne : toks ≠ [])
    (htok : ∀ tok ∈ toks, IsToken tok) (hpost : toPostfix toks = .ok post) :
    evaluateUserFormula formula pool = evaluatePostfix post pool := by
  have hblank : formula.data.all isWhiteSpace = false := by
    cases hb : formula.data.all isWhiteSpace with
    | false => rfl
    | true =>
        exfalso
        apply hne
        rw [← htz, tokenize]
        have hscan : scanTokens formula.data [] = [] := by
          have := scanTokens_whiteSpace formula.data [] (by simpa using hb)
          simpa [scanTokens, flushRun] using this
        rw [hscan]; rfl
  simp [evaluateUserFormula, hblank, htz, validateTokens_of_isToken _ htok, hpost]

/-- C26 (the parser does not enforce infix grammar): for all non-negative `a`, `b` at
distinct positions of the pool, the postfix-style text `a b +` and the prefix-style
text `+ a b` both evaluate to `a + b`, although neither spells a well-formed infix
formula: `toPostfix` moves the operator behind the numerals and never checks that
operands and operators alternate. -/
theorem grammar_not_enforced (numbers : List Int) (a b : Int) (i j : Nat) (hij : i ≠ j)
    (hi : numbers[i]? = some a) (hj : numbers[j]? = some b) (ha : 0 ≤ a) (hb : 0 ≤ b) :
    evaluateUserFormula (jsString a ++ " " ++ jsString b ++ " +") numbers = .ok (a + b) ∧
    evaluateUserFormula ("+ " ++ jsString a ++ " " ++ jsString b) numbers = .ok (a + b) ∧
    (¬ ∃ e : Formula, e.WellFormed ∧
      Spaced e.tokens (jsString a ++ " " ++ jsString b ++ " +").data) ∧
    (¬ ∃ e : Formula, e.WellFormed ∧
      Spaced e.tokens ("+ " ++ jsString a ++ " " ++ jsString b).data) ∧
    toPostfix [jsString a, jsString b, "+"] = .ok [jsString a, jsString b, "+"] ∧
    toPostfix ["+", jsString a, jsString b] = .ok [jsString a, jsString b, "+"] := by
  obtain ⟨hane, haall, haval⟩ := jsString_digits ha
  obtain ⟨hbne, hball, hbval⟩ := jsString_digits hb
  have hA : String.mk (jsString a).data = jsString a := rfl
  have hB : String.mk (jsString b).data = jsString b := rfl
  have hna : isNumberToken (jsString a) = true := isNumberToken_digits hane haall
  have hnb : isNumberToken (jsString b) = true := isNumberToken_digits hbne hball
  have htz1 := tokenize_postfix_style _ _ hane haall hbne hball
  have htz2 := tokenize_prefix_style _ _ hane haall hbne hball
  rw [hA, hB] at htz1 htz2
  have hp1 : toPostfix [jsString a, jsString b, "+"] = .ok [jsString a, jsString b, "+"] := by
    unfold toPostfix
    rw [toPostfixLoop_cons_number _ _ _ _ hna, toPostfixLoop_cons_number _ _ _ _ hnb]
    have := toPostfixLoop_cons_op .add [] ([] ++ [jsString a] ++ [jsString b]) []
    simp only [Op.sym] at this
    rw [this, toPostfixLoop]
    simp [drainOperators]
  have hp2 : toPostfix ["+", jsString a, jsString b] = .ok [jsString a, jsString b, "+"] := by
    unfold toPostfix
    have := toPostfixLoop_cons_op .add [jsString a, jsString b] [] []
    simp only [Op.sym] at this
    rw [this, toPostfixLoop_cons_number _ _ _ _ hna, toPostfixLoop_cons_number _ _ _ _ hnb,
      toPostfixLoop]
    simp [drainOperators]
  have hIsA : IsToken (jsString a) := Or.inl ⟨_, hane, haall, rfl⟩
  have hIsB : IsToken (jsString b) := Or.inl ⟨_, hbne, hball, rfl⟩
  have hIsP : IsToken "+" := Or.inr ⟨'+', by decide, rfl⟩
  have hwf : (Formula.bin .add (.num (jsString a).data) (.num (jsString b).data)).WellFormed :=
    ⟨⟨hane, haall⟩, ⟨hbne, hball⟩, by simp [Op.prec, Formula.level],
      by simp [Op.prec, Formula.level]⟩
  have hev : evaluatePostfix [jsString a, jsString b, "+"] numbers = .ok (a + b) := by
    have h := evaluatePostfix_formula
      (Formula.bin .add (.num (jsString a).data) (.num (jsString b).data)) hwf numbers (a + b)
      (by
        simp only [Formula.eval, haval, hbval, Op.apply]
        rw [if_pos (by omega)])
      (by
        intro n
        simp only [Formula.numerals, haval, hbval, List.singleton_append]
        exact count_pair_le numbers a b i j hij hi hj n)
    simpa [Formula.postfixOrder] using h
  refine ⟨?_, ?_, ?_, ?_, hp1, hp2⟩
  · rw [evaluateUserFormula_of_tokens _ _ _ numbers htz1 (by simp) (by
      intro tok htk
      simp only [List.mem_cons, List.mem_singleton, List.mem_nil_iff, or_false] at htk
      rcases htk with rfl | rfl | rfl
      · exact hIsA
      · exact hIsB
      · exact hIsP) hp1]
    exact hev
  · rw [evaluateUserFormula_of_tokens _ _ _ numbers htz2 (by simp) (by
      intro tok htk
      simp only [List.mem_cons, List.mem_singleton, List.mem_nil_iff, or_false] at htk
      rcases htk with rfl | rfl | rfl
      · exact hIsP
      · exact hIsA
      · exact hIsB) hp2]
    exact hev
  · exact not_infix_of_adjacent _ [] ["+"] _ _ htz1 hna hnb
  · exact not_infix_of_adjacent _ ["+"] [] _ _ htz2 hna hnb

theorem grammar_not_enforced_witness :
    (0 : Nat) ≠ 1 ∧ ([3, 4] : List Int)[0]? = some 3 ∧ ([3, 4] : List Int)[1]? = some 4 ∧
    (0 : Int) ≤ 3 ∧ (0 : Int) ≤ 4 ∧
    (evaluateUserFormula (jsString 3 ++ " " ++ jsString 4 ++ " +") [3, 4] = .ok (3 + 4) ∧
    evaluateUserFormula ("+ " ++ jsString 3 ++ " " ++ jsString 4) [3, 4] = .ok (3 + 4) ∧
    (¬ ∃ e : Formula, e.WellFormed ∧
      Spaced e.tokens (jsString 3 ++ " " ++ jsString 4 ++ " +").data) ∧
    (¬ ∃ e : Formula, e.WellFormed ∧
      Spaced e.tokens ("+ " ++ jsString 3 ++ " " ++ jsString 4).data) ∧
    toPostfix [jsString 3, jsString 4, "+"] = .ok [jsString 3, jsString 4, "+"] ∧
    toPostfix ["+", jsString 3, jsString 4] = .ok [jsString 3, jsString 4, "+"]) :=
  ⟨by decide, by decide, by decide, by decide, by decide,
    grammar_not_enforced [3, 4] 3 4 0 1 (by decide) (by decide) (by decide) (by decide)
      (by decide)⟩

/-! ## The split enumeration -/

/-- The right side of a split holds the numbers at the indices of `rightIndicesOf`. -/
theorem rightNumsOf_aux (q : Nat → Bool) : ∀ (numbers : List Int) (k : Nat),
    ((numbers.enumFrom k).filter (fun p => q p.1)).map Prod.snd =
      ((List.range' k numbers.length).filter q).map (fun idx => numbers.getD (idx - k) 0) := by
  intro numbers
  induction numbers with
  | nil => intro k; simp
  | cons x xs ih =>
      intro k
      have hshift : ((List.range' (k + 1) xs.length).filter q).map
            (fun idx => (x :: xs).getD (idx - k) 0) =
          ((List.range' (k + 1) xs.length).filter q).map
            (fun idx => xs.getD (idx - (k + 1)) 0) := by
        apply List.map_congr_left
        intro idx hidx
        have := List.mem_range'_1.1 (List.mem_filter.1 hidx).1
        have e : idx - k = (idx - (k + 1)) + 1 := by omega
        rw [e, List.getD_cons_succ]
      rw [List.enumFrom_cons, List.length_cons, List.range'_succ, List.filter_cons,
        List.filter_cons]
      by_cases hq : q k = true
      · simp only [hq, if_true, List.map_cons, Nat.sub_self, List.getD_cons_zero]
        rw [ih (k + 1), hshift]
      · simp only [hq, Bool.false_eq_true, if_false]
        rw [ih (k + 1), hshift]

theorem rightNumsOf_eq (numbers : List Int) (leftIndices : List Nat) :
    rightNumsOf numbers leftIndices =
      (rightIndicesOf numbers.length leftIndices).map (fun idx => numbers.getD idx 0) := by
  have h := rightNumsOf_aux (fun idx => !leftIndices.contains idx) numbers 0
  simpa [rightNumsOf, rightIndicesOf, List.enum, List.range_eq_range'] using h

/-- Index sets taken in increasing order from `0 .. length - 1` are equal as soon as
they have the same elements. -/
theorem indexSet_ext {length : Nat} {s t : List Nat} (hs : s.Sublist (List.range length))
    (ht : t.Sublist (List.range length)) (h : ∀ idx, idx ∈ s ↔ idx ∈ t) : s = t := by
  have hperm : s.Perm t :=
    (List.perm_ext_iff_of_nodup (hs.nodup (List.nodup_range length))
      (ht.nodup (List.nodup_range length))).2 h
  exact List.eq_of_perm_of_sorted hperm
    (List.Pairwise.sublist hs (List.pairwise_lt_range length))
    (List.Pairwise.sublist ht (List.pairwise_lt_range length))

theorem rightIndicesOf_sublist (length : Nat) (leftIndices : List Nat) :
    (rightIndicesOf length leftIndices).Sublist (List.range length) :=
  List.filter_sublist _

theorem mem_rightIndicesOf (length : Nat) (leftIndices : List Nat) (idx : Nat) :
    idx ∈ rightIndicesOf length leftIndices ↔ idx < length ∧ idx ∉ leftIndices := by
  simp [rightIndicesOf, List.mem_filter]

theorem length_rightIndicesOf (length : Nat) (leftIndices : List Nat)
    (h : leftIndices.Sublist (List.range length)) :
    leftIndices.length + (rightIndicesOf length leftIndices).length = length := by
  have hperm := List.filter_append_perm (fun idx => leftIndices.contains idx) (List.range length)
  have hleft : (List.range length).filter (fun idx => leftIndices.contains idx) = leftIndices := by
    apply indexSet_ext (List.filter_sublist _) h
    intro idx
    rw [List.mem_filter]
    constructor
    · intro hx; simpa using hx.2
    · intro hx
      exact ⟨h.subset hx, by simpa using hx⟩
  have hlen := hperm.length_eq
  rw [List.length_append, hleft, List.length_range] at hlen
  exact hlen

theorem rightIndicesOf_involutive (length : Nat) (leftIndices : List Nat)
    (h : leftIndices.Sublist (List.range length)) :
    rightIndicesOf length (rightIndicesOf length leftIndices) = leftIndices := by
  apply indexSet_ext (rightIndicesOf_sublist _ _) h
  intro idx
  rw [mem_rightIndicesOf, mem_rightIndicesOf]
  constructor
  · rintro ⟨hlt, hnot⟩
    by_contra hmem
    exact hnot ⟨hlt, hmem⟩
  · intro hmem
    exact ⟨List.mem_range.1 (h.subset hmem), fun hr => hr.2 hmem⟩

/-- Every index set of an admitted size is visited. -/
theorem mem_allLeftIndices_of {length : Nat} {leftIndices : List Nat}
    (hs : leftIndices.Sublist (List.range length)) (h1 : 1 ≤ leftIndices.length)
    (h2 : leftIndices.length ≤ length / 2) : leftIndices ∈ allLeftIndices length := by
  simp only [allLeftIndices, List.mem_flatMap, List.mem_range'_1]
  refine ⟨leftIndices.length, ⟨h1, by omega⟩, ?_⟩
  have := combine_complete leftIndices.length (List.range length) [] leftIndices hs (by simp)
  simpa [getCombinations] using this

theorem combine_nodup {α : Type} (k : Nat) : ∀ (rest current : List α), rest.Nodup →
    (combine k rest current).Nodup := by
  intro rest
  induction rest with
  | nil =>
      intro current _
      simp only [combine]
      split <;> simp
  | cons x rest ih =>
      intro current hnd
      rw [List.nodup_cons] at hnd
      simp only [combine]
      split
      · simp
      · rw [List.nodup_append]
        refine ⟨ih _ hnd.2, ih _ hnd.2, ?_⟩
        rw [List.disjoint_left]
        intro out h1 h2
        obtain ⟨_, s1, _, e1⟩ := combine_spec k _ _ _ h1
        obtain ⟨_, s2, hs2, e2⟩ := combine_spec k _ _ _ h2
        rw [e1, List.append_assoc] at e2
        have e3 := List.append_cancel_left e2
        have hx : x ∈ s2 := by rw [← e3]; simp
        exact hnd.1 (hs2.subset hx)

/-- No index set is visited twice. -/
theorem allLeftIndices_nodup (length : Nat) : (allLeftIndices length).Nodup := by
  unfold allLeftIndices
  rw [List.nodup_flatMap]
  refine ⟨fun i _ => combine_nodup i _ _ (List.nodup_range length), ?_⟩
  apply (List.nodup_range' 1 (length / 2)).pairwise_of_forall_ne
  intro i _ j _ hij
  show List.Disjoint (getCombinations (List.range length) i) (getCombinations (List.range length) j)
  rw [List.disjoint_left]
  intro out h1 h2
  have e1 := (combine_spec i _ _ _ h1).1
  have e2 := (combine_spec j _ _ _ h2).1
  exact hij (e1.symm.trans e2)

/-- Two different visited index sets give the same bipartition only as the two
halves of an even split. -/
theorem sameBipartition_halves {length : Nat} {s t : List Nat}
    (hs : s ∈ allLeftIndices length) (ht : t ∈ allLeftIndices length) (hne : s ≠ t)
    (h : SameBipartition (s, rightIndicesOf length s) (t, rightIndicesOf length t)) :
    2 * s.length = length ∧ 2 * t.length = length ∧ s = rightIndicesOf length t := by
  obtain ⟨hss, _, hs2⟩ := mem_allLeftIndices hs
  obtain ⟨hts, _, ht2⟩ := mem_allLeftIndices ht
  rcases h with ⟨h1, _⟩ | ⟨h1, _⟩
  · exact absurd (indexSet_ext hss hts h1) hne
  · have heq : s = rightIndicesOf length t :=
      indexSet_ext hss (rightIndicesOf_sublist _ _) h1
    have hlen := length_rightIndicesOf length t hts
    rw [← heq] at hlen
    exact ⟨by omega, by omega, heq⟩

/-- C23, counterexample to the claim as stated: for a list of 2 numbers the loops
visit the split `[0] | [1]` and then the split `[1] | [0]`, which are the same
unordered bipartition. -/
theorem split_enumeration_counterexample :
    2 ≤ 2 ∧ allSplits 2 = [([0], [1]), ([1], [0])] ∧
    SameBipartition ([0], [1]) ([1], [0]) ∧
    ¬ List.Pairwise (fun s t => ¬ SameBipartition s t) (allSplits 2) := by
  have hall : allSplits 2 = [([0], [1]), ([1], [0])] := by decide
  have hsame : SameBipartition ([0], [1]) ([1], [0]) := Or.inr ⟨fun _ => Iff.rfl, fun _ => Iff.rfl⟩
  refine ⟨le_refl 2, hall, hsame, ?_⟩
  rw [hall]
  intro h
  exact (List.pairwise_cons.1 h).1 _ (List.mem_singleton.2 rfl) hsame

/-- C23, amended: for every list of `length` numbers, the loops over the sizes `i`
from 1 to `floor(length / 2)` never visit the same left index set twice, and two
visited splits are the same unordered bipartition only when both sides have exactly
`length / 2` elements; so for odd `length` no bipartition is visited twice, while for
even `length` every split into two halves is visited a second time with its sides
exchanged. -/
theorem split_enumeration (length : Nat) :
    (allLeftIndices length).Nodup ∧
    List.Pairwise
      (fun s t => SameBipartition s t → 2 * s.1.length = length ∧ 2 * t.1.length = length)
      (allSplits length) ∧
    (length % 2 = 1 → List.Pairwise (fun s t => ¬ SameBipartition s t) (allSplits length)) ∧
    (∀ s ∈ allSplits length, 2 * s.1.length = length →
      (s.2, s.1) ∈ allSplits length ∧ (s.2, s.1) ≠ s ∧ SameBipartition s (s.2, s.1)) ∧
    (∀ numbers : List Int, ∀ leftIndices : List Nat,
      rightNumsOf numbers leftIndices =
        (rightIndicesOf numbers.length leftIndices).map (fun idx => numbers.getD idx 0)) := by
  have hpair : List.Pairwise
      (fun s t => SameBipartition s t → 2 * s.1.length = length ∧ 2 * t.1.length = length)
      (allSplits length) := by
    unfold allSplits
    rw [List.pairwise_map]
    apply List.Pairwise.imp_of_mem _ (allLeftIndices_nodup length)
    intro s t hs ht hne hsame
    obtain ⟨h1, h2, _⟩ := sameBipartition_halves hs ht hne hsame
    exact ⟨h1, h2⟩
  refine ⟨allLeftIndices_nodup length, hpair, ?_, ?_, rightNumsOf_eq⟩
  · intro hodd
    apply hpair.imp
    intro s t himp hsame
    have := (himp hsame).1
    omega
  · intro s hs hhalf
    unfold allSplits at hs ⊢
    obtain ⟨leftIndices, hmem, rfl⟩ := List.mem_map.1 hs
    obtain ⟨hsub, h1, h2⟩ := mem_allLeftIndices hmem
    have hlen := length_rightIndicesOf length leftIndices hsub
    simp only at hhalf
    have hright : rightIndicesOf length leftIndices ∈ allLeftIndices length :=
      mem_allLeftIndices_of (rightIndicesOf_sublist _ _) (by omega) (by omega)
    refine ⟨List.mem_map.2 ⟨_, hright, ?_⟩, ?_, Or.inr ⟨fun _ => Iff.rfl, fun _ => Iff.rfl⟩⟩
    · rw [rightIndicesOf_involutive length leftIndices hsub]
    · intro heq
      have h3 : rightIndicesOf length leftIndices = leftIndices := congrArg Prod.fst heq
      obtain ⟨idx, hidx⟩ := List.exists_mem_of_length_pos (by omega : 0 < leftIndices.length)
      have hin : idx ∈ rightIndicesOf length leftIndices := by rw [h3]; exact hidx
      exact ((mem_rightIndicesOf _ _ _).1 hin).2 hidx

/-! ## Numbers as doubles: the safe range -/

theorem toDouble_safe (x : Int) (h : x.natAbs < 9007199254740992) : toDouble x = some x := by
  simp only [toDouble, if_pos h]

theorem toDouble_of_bounds {x : Int} (h1 : -9007199254740992 < x) (h2 : x < 9007199254740992) :
    toDouble x = some x :=
  toDouble_safe x (by omega)

theorem bitLength_zero (fuel : Nat) : bitLength fuel 0 = 0 := by
  cases fuel <;> simp [bitLength]

theorem bitLength_spec : ∀ (fuel a : Nat), a ≤ fuel →
    a < 2 ^ bitLength fuel a ∧ (a ≠ 0 → 2 ^ (bitLength fuel a - 1) ≤ a) := by
  intro fuel
  induction fuel with
  | zero =>
      intro a ha
      have : a = 0 := by omega
      subst this
      simp [bitLength]
  | succ fuel ih =>
      intro a ha
      by_cases h0 : a = 0
      · subst h0; simp [bitLength]
      · simp only [bitLength, if_neg h0]
        obtain ⟨hlt, hge⟩ := ih (a / 2) (by omega)
        refine ⟨by rw [pow_succ]; omega, fun _ => ?_⟩
        rw [Nat.add_sub_cancel]
        by_cases h2 : a / 2 = 0
        · rw [h2, bitLength_zero]; simp; omega
        · have h3 := hge h2
          have hpos : 0 < bitLength fuel (a / 2) := by
            rcases Nat.eq_zero_or_pos (bitLength fuel (a / 2)) with h | h
            · rw [h] at hlt; simp at hlt; omega
            · exact h
          have : 2 ^ bitLength fuel (a / 2) = 2 * 2 ^ (bitLength fuel (a / 2) - 1) := by
            rw [← pow_succ']; congr 1; omega
          omega

/-- Rounding does not lead from an unsafe magnitude into the safe range. -/
theorem toDouble_ge (a : Nat) (h : 9007199254740992 ≤ a) (y : Int)
    (hy : toDouble (a : Int) = some y) : 9007199254740992 ≤ y := by
  obtain ⟨hlt, hge⟩ := bitLength_spec a a (le_refl a)
  have hge := hge (by omega)
  have hbl : 54 ≤ bitLength a a := by
    by_contra hc
    have : 2 ^ bitLength a a ≤ 2 ^ 53 := Nat.pow_le_pow_right (by decide) (by omega)
    have h53 : (2 : Nat) ^ 53 = 9007199254740992 := by norm_num
    omega
  have hna : ¬ (a < 9007199254740992) := by omega
  have hnn : ¬ ((a : Int) < 0) := by omega
  have hq : 2 ^ 52 ≤ a / 2 ^ (bitLength a a - 53) := by
    rw [Nat.le_div_iff_mul_le (by positivity), ← pow_add]
    have : 52 + (bitLength a a - 53) = bitLength a a - 1 := by omega
    rw [this]; exact hge
  have hpow : (2 : Nat) ^ 53 ≤ 2 ^ 52 * 2 ^ (bitLength a a - 53) := by
    rw [← pow_add]
    exact Nat.pow_le_pow_right (by decide) (by omega)
  have h53 : (2 : Nat) ^ 53 = 9007199254740992 := by norm_num
  have hround : ∀ q1 : Nat, a / 2 ^ (bitLength a a - 53) ≤ q1 →
      (9007199254740992 : Int) ≤ ((q1 * 2 ^ (bitLength a a - 53) : Nat) : Int) := by
    intro q1 hq1
    have hmul : 2 ^ 52 * 2 ^ (bitLength a a - 53) ≤ q1 * 2 ^ (bitLength a a - 53) :=
      Nat.mul_le_mul_right _ (le_trans hq hq1)
    have := le_trans hpow hmul
    rw [h53] at this
    exact_mod_cast this
  simp only [toDouble, Int.natAbs_ofNat, if_neg hna, if_neg hnn] at hy
  split_ifs at hy with h1 h2 h2
  · simp only [Option.some.injEq] at hy
    rw [← hy]
    exact hround _ (Nat.le_succ _)
  · simp only [Option.some.injEq] at hy
    rw [← hy]
    exact hround _ (le_refl _)

theorem shortestDecimalAt_spec (a k c : Nat) (h : shortestDecimalAt a k = some c) :
    toDouble (c : Int) = some (a : Int) := by
  simp only [shortestDecimalAt] at h
  split at h
  · rename_i hboth
    simp only [Bool.and_eq_true, decide_eq_true_eq] at hboth
    split at h
    · cases h; exact hboth.1
    · split at h
      · cases h; exact_mod_cast hboth.2
      · split at h
        · cases h; exact hboth.1
        · cases h; exact_mod_cast hboth.2
  · split at h
    · rename_i hlo
      cases h
      simpa using hlo
    · split at h
      · rename_i hhi
        cases h
        have := of_decide_eq_true hhi
        exact_mod_cast this
      · cases h

/-- A safe integer is its own shortest decimal. -/
theorem shortestDecimal_safe (a : Nat) (h : a < 9007199254740992) : shortestDecimal a = a := by
  unfold shortestDecimal
  cases hf : (List.range' 1 17).findSome? (shortestDecimalAt a) with
  | none => rfl
  | some c =>
      obtain ⟨k, _, hk⟩ := List.exists_of_findSome?_eq_some hf
      have hc := shortestDecimalAt_spec a k c hk
      simp only [Option.getD_some]
      by_cases hcs : c < 9007199254740992
      · rw [toDouble_safe (c : Int) (by simpa using hcs)] at hc
        exact_mod_cast Option.some.inj hc
      · have := toDouble_ge c (by omega) _ hc
        omega

/-- On a safe non-negative integer `String(n)` is the decimal numeral. -/
theorem numberToString_safe (n : Int) (h0 : 0 ≤ n) (h : n < 9007199254740992) :
    numberToString n = jsString n := by
  obtain ⟨a, rfl⟩ := Int.eq_ofNat_of_zero_le h0
  have ha : a < 9007199254740992 := by omega
  have hlt : a < 10 ^ 21 := by
    have : (9007199254740992 : Nat) < 10 ^ 21 := by norm_num
    omega
  simp only [numberToString, Int.natAbs_ofNat, shortestDecimal_safe a ha, if_pos hlt]
  rw [if_neg (by omega), jsString_ofNat]

/-- On a safe non-negative integer the property name reads back as the number. -/
theorem parseIntDouble_numberToString (n : Int) (h0 : 0 ≤ n) (h : n < 9007199254740992) :
    parseIntDouble (numberToString n) = some n := by
  rw [numberToString_safe n h0 h, parseIntDouble, parseInt_jsString_of_nonneg h0]
  exact toDouble_of_bounds (by omega) h

/-! ## The bound on the values over a pool -/

theorem poolBound_append (l₁ l₂ : List Int) :
    poolBound (l₁ ++ l₂) = poolBound l₁ * poolBound l₂ := by
  simp [poolBound, List.prod_append]

theorem poolBound_perm {l₁ l₂ : List Int} (h : l₁.Perm l₂) : poolBound l₁ = poolBound l₂ :=
  (h.map _).prod_eq

theorem poolBound_pos (l : List Int) (h : ∀ n ∈ l, 0 < n) : 1 ≤ poolBound l := by
  induction l with
  | nil => simp [poolBound]
  | cons x l ih =>
      have hx := h x (List.mem_cons_self _ _)
      have hl := ih (fun n hn => h n (List.mem_cons_of_mem _ hn))
      simp only [poolBound, List.map_cons, List.prod_cons] at hl ⊢
      nlinarith

theorem poolBound_sublist {l₁ l₂ : List Int} (hs : l₁.Sublist l₂) (h : ∀ n ∈ l₂, 0 < n) :
    poolBound l₁ ≤ poolBound l₂ := by
  induction hs with
  | slnil => exact le_refl _
  | cons x hs ih =>
      rename_i s t
      have hx := h x (List.mem_cons_self _ _)
      have ht := ih (fun n hn => h n (List.mem_cons_of_mem _ hn))
      have hpos := poolBound_pos s (fun n hn => h n (List.mem_cons_of_mem _ (hs.subset hn)))
      simp only [poolBound, List.map_cons, List.prod_cons] at ht hpos ⊢
      nlinarith
  | cons₂ x hs ih =>
      rename_i s t
      have hx := h x (List.mem_cons_self _ _)
      have ht := ih (fun n hn => h n (List.mem_cons_of_mem _ hn))
      simp only [poolBound, List.map_cons, List.prod_cons] at ht ⊢
      nlinarith

/-- A list that uses no number more often than the pool has a bound below the pool's. -/
theorem poolBound_le_of_count {l pool : List Int} (hcount : ∀ n, l.count n ≤ pool.count n)
    (hpos : ∀ n ∈ pool, 0 < n) : poolBound l ≤ poolBound pool := by
  have hsub : l.Subperm pool := List.subperm_ext_iff.2 (fun n _ => hcount n)
  obtain ⟨l', hperm, hl'⟩ := hsub
  rw [← poolBound_perm hperm]
  exact poolBound_sublist hl' hpos

theorem Op.apply_bound {op : Op} {a b v A B : Int} (h : op.apply a b = some v)
    (ha : 0 ≤ a) (hb : 0 ≤ b) (hA : a + 1 ≤ A) (hB : b + 1 ≤ B) : v + 1 ≤ A * B := by
  have hab : (a + 1) * (b + 1) ≤ A * B := by nlinarith
  cases op
  · simp only [Op.apply] at h
    split at h
    · simp only [Option.some.injEq] at h; nlinarith
    · cases h
  · simp only [Op.apply] at h
    split at h
    · simp only [Option.some.injEq] at h; nlinarith
    · cases h
  · simp only [Op.apply] at h
    split at h
    · simp only [Option.some.injEq] at h; nlinarith
    · cases h
  · simp only [Op.apply] at h
    split at h
    · rename_i hc
      simp only [Option.some.injEq] at h
      have hle : a / b ≤ a := Int.ediv_le_self b ha
      nlinarith
    · cases h

/-- The value of a tree over positive leaves is below the bound of its leaves. -/
theorem Tree.eval_bound (t : Tree) : ∀ (v : Int), (∀ n ∈ t.leaves, 0 < n) → t.eval = some v →
    v + 1 ≤ poolBound t.leaves := by
  induction t with
  | leaf n =>
      intro v _ h
      simp only [Tree.eval, Option.some.injEq] at h
      subst h
      simp [Tree.leaves, poolBound]
  | node op l r ihl ihr =>
      intro v hpos h
      have hlpos : ∀ n ∈ l.leaves, 0 < n := fun n hn => hpos n (by simp [Tree.leaves, hn])
      have hrpos : ∀ n ∈ r.leaves, 0 < n := fun n hn => hpos n (by simp [Tree.leaves, hn])
      simp only [Tree.eval] at h
      cases hl : l.eval with
      | none => simp [hl] at h
      | some a =>
          cases hr : r.eval with
          | none => simp [hl, hr] at h
          | some b =>
              simp only [hl, hr] at h
              have ha := l.eval_nonneg (fun n hn => le_of_lt (hlpos n hn)) a hl
              have hb := r.eval_nonneg (fun n hn => le_of_lt (hrpos n hn)) b hr
              simp only [Tree.leaves, poolBound_append]
              exact Op.apply_bound h ha hb (ihl a hlpos hl) (ihr b hrpos hr)

/-- Every key of a sound map over positive numbers is positive and below the bound
of the pool. -/
theorem Sound.key_bound {pool : List Int} {m : ReachabilityMap} (h : Sound pool m)
    (hpos : ∀ n ∈ pool, 0 < n) : ∀ k ∈ m.keys, 0 < k ∧ k + 1 ≤ poolBound pool := by
  intro k hk
  obtain ⟨p, hp, rfl⟩ := List.mem_map.1 hk
  obtain ⟨t, _, heval, hkpos, hcount⟩ := h p hp
  have hlpos : ∀ n ∈ t.leaves, 0 < n := by
    intro n hn
    have h1 := List.count_pos_iff.2 hn
    have h2 := hcount n
    exact hpos n (List.count_pos_iff.1 (by omega))
  exact ⟨hkpos, le_trans (t.eval_bound p.1 hlpos heval) (poolBound_le_of_count hcount hpos)⟩

/-! ## The solver on Numbers agrees with the solver on integers in the safe range -/

theorem applyOp_congr (a b : Int) (exprL exprR : String) (results : ReachabilityMap)
    (sym : String) (f g : Int → Int → Option Int) (h1 : f a b = g a b) (h2 : f b a = g b a) :
    applyOp a b exprL exprR results (sym, f) = applyOp a b exprL exprR results (sym, g) := by
  simp only [applyOp, h1, h2]

theorem solverOpsDouble_foldl (a b : Int) (exprL exprR : String) (results : ReachabilityMap)
    (ha : 0 ≤ a) (hb : 0 ≤ b) (hab : (a + 1) * (b + 1) ≤ 9007199254740992) :
    solverOpsDouble.foldl (applyOp a b exprL exprR) results =
      solverOps.foldl (applyOp a b exprL exprR) results := by
  have hmul : 0 ≤ a * b := mul_nonneg ha hb
  have h1 : toDouble (a + b) = some (a + b) := toDouble_of_bounds (by omega) (by nlinarith)
  have h1' : toDouble (b + a) = some (b + a) := toDouble_of_bounds (by omega) (by nlinarith)
  have h2 : toDouble (a - b) = some (a - b) := toDouble_of_bounds (by nlinarith) (by nlinarith)
  have h3 : toDouble (b - a) = some (b - a) := toDouble_of_bounds (by nlinarith) (by nlinarith)
  have h4 : toDouble (a * b) = some (a * b) := toDouble_of_bounds (by omega) (by nlinarith)
  have h4' : toDouble (b * a) = some (b * a) := toDouble_of_bounds (by nlinarith) (by nlinarith)
  have h5 : toDouble (a.tdiv b) = some (a.tdiv b) := by
    have hn := Int.tdiv_nonneg ha hb
    have hle : a.tdiv b ≤ a := by
      rw [Int.tdiv_eq_ediv ha hb]; exact Int.ediv_le_self b ha
    exact toDouble_of_bounds (by omega) (by nlinarith)
  have h6 : toDouble (b.tdiv a) = some (b.tdiv a) := by
    have hn := Int.tdiv_nonneg hb ha
    have hle : b.tdiv a ≤ b := by
      rw [Int.tdiv_eq_ediv hb ha]; exact Int.ediv_le_self a hb
    exact toDouble_of_bounds (by omega) (by nlinarith)
  simp only [solverOpsDouble, solverOps, List.foldl]
  rw [applyOp_congr a b exprL exprR results "+" _ (fun a b => some (a + b)) h1 h1',
    applyOp_congr a b exprL exprR _ "-" _ (fun a b => some (a - b)) h2 h3,
    applyOp_congr a b exprL exprR _ "*" _ (fun a b => some (a * b)) h4 h4',
    applyOp_congr a b exprL exprR _ "/" _
      (fun a b => if b ≠ 0 ∧ a.tmod b = 0 then some (a.tdiv b) else none)
      (by simp only [h5]) (by simp only [h6])]

theorem combinePairDouble_eq (entryL entryR : Int × String) (results : ReachabilityMap)
    (hL : 0 < entryL.1) (hR : 0 < entryR.1)
    (hLR : (entryL.1 + 1) * (entryR.1 + 1) ≤ 9007199254740992) :
    combinePairDouble entryL entryR results = combinePair entryL entryR results := by
  have h1 : parseIntDouble (numberToString entryL.1) = some entryL.1 :=
    parseIntDouble_numberToString _ (le_of_lt hL) (by nlinarith)
  have h2 : parseIntDouble (numberToString entryR.1) = some entryR.1 :=
    parseIntDouble_numberToString _ (le_of_lt hR) (by nlinarith)
  simp only [combinePairDouble, h1, h2, combinePair]
  exact solverOpsDouble_foldl _ _ _ _ _ (le_of_lt hL) (le_of_lt hR) hLR

theorem combineMapsDouble_eq (resLeft resRight results : ReachabilityMap)
    (h : ∀ entryL ∈ resLeft, ∀ entryR ∈ resRight, 0 < entryL.1 ∧ 0 < entryR.1 ∧
      (entryL.1 + 1) * (entryR.1 + 1) ≤ 9007199254740992) :
    combineMapsDouble resLeft resRight results = combineMaps resLeft resRight results := by
  unfold combineMapsDouble combineMaps
  apply List.foldl_ext
  intro acc entryL hentryL
  apply List.foldl_ext
  intro acc1 entryR hentryR
  obtain ⟨h1, h2, h3⟩ := h entryL hentryL entryR hentryR
  exact combinePairDouble_eq entryL entryR acc1 h1 h2 h3

theorem singletonsDouble_eq (numbers : List Int)
    (h : ∀ n ∈ numbers, 0 ≤ n ∧ n < 9007199254740992) :
    singletonsDouble numbers = singletons numbers := by
  unfold singletonsDouble singletons
  apply List.foldl_ext
  intro acc n hn
  rw [numberToString_safe n (h n hn).1 (h n hn).2]

theorem numbersTupleDouble_eq (numbers : List Int)
    (h : ∀ n ∈ numbers, 0 ≤ n ∧ n < 9007199254740992) :
    numbersTupleDouble numbers = numbersTuple numbers := by
  unfold numbersTupleDouble numbersTuple
  congr 1
  apply List.map_congr_left
  intro n hn
  have hn' : n ∈ numbers := (List.perm_insertionSort _ numbers).mem_iff.1 hn
  exact numberToString_safe n (h n hn').1 (h n hn').2

/-- Each number of a positive list within the bound is a safe integer. -/
theorem safe_of_poolBound (numbers : List Int) (hpos : ∀ n ∈ numbers, 0 < n)
    (hsafe : poolBound numbers ≤ 9007199254740992) :
    ∀ n ∈ numbers, 0 ≤ n ∧ n < 9007199254740992 := by
  intro n hn
  have h1 : poolBound [n] ≤ poolBound numbers :=
    poolBound_sublist (List.singleton_sublist.2 hn) hpos
  simp only [poolBound, List.map_cons, List.map_nil, List.prod_cons, List.prod_nil,
    mul_one] at h1
  have := hpos n hn
  simp only [poolBound] at hsafe
  omega

/-- The two sides of a split of a positive list within the bound are positive lists
whose bounds multiply to the bound of the list. -/
theorem split_poolBound (numbers : List Int) (leftIndices : List Nat)
    (hL : leftIndices ∈ allLeftIndices numbers.length) (hpos : ∀ n ∈ numbers, 0 < n) :
    (∀ n ∈ leftNumsOf numbers leftIndices, 0 < n) ∧
    (∀ n ∈ rightNumsOf numbers leftIndices, 0 < n) ∧
    poolBound (leftNumsOf numbers leftIndices) * poolBound (rightNumsOf numbers leftIndices) =
      poolBound numbers := by
  have hperm := split_perm numbers leftIndices (mem_allLeftIndices hL).1
  refine ⟨?_, ?_, ?_⟩
  · intro n hn
    exact hpos n (hperm.mem_iff.1 (List.mem_append_left _ hn))
  · intro n hn
    exact hpos n (hperm.mem_iff.1 (List.mem_append_right _ hn))
  · rw [← poolBound_append, poolBound_perm hperm]

theorem solveSplitsDouble_eq (recur recurD : List Int → SolveCache → SolveResult)
    (hrec : CallOK recur) (numbers : List Int) (hpos : ∀ n ∈ numbers, 0 < n)
    (hsafe : poolBound numbers ≤ 9007199254740992)
    (hagree : ∀ ns cache, (∀ n ∈ ns, 0 < n) → poolBound ns ≤ 9007199254740992 →
      CacheOK cache → recurD ns cache = recur ns cache) :
    ∀ (splits : List (List Nat)), (∀ L ∈ splits, L ∈ allLeftIndices numbers.length) →
      ∀ (results : ReachabilityMap) (cache : SolveCache), CacheOK cache →
        solveSplitsDouble recurD numbers splits results cache =
          solveSplits recur numbers splits results cache := by
  intro splits
  induction splits with
  | nil => intro _ results cache _; rfl
  | cons L more ih =>
      intro hs results cache hc
      obtain ⟨hlpos, hrpos, hprod⟩ :=
        split_poolBound numbers L (hs L (List.mem_cons_self _ _)) hpos
      have hl1 := poolBound_pos _ hlpos
      have hr1 := poolBound_pos _ hrpos
      have hlsafe : poolBound (leftNumsOf numbers L) ≤ 9007199254740992 := by nlinarith
      have hrsafe : poolBound (rightNumsOf numbers L) ≤ 9007199254740992 := by nlinarith
      simp only [solveSplitsDouble, solveSplits]
      rw [hagree _ cache hlpos hlsafe hc]
      cases hL : recur (leftNumsOf numbers L) cache with
      | none => rfl
      | some pL =>
          obtain ⟨resLeft, cache1⟩ := pL
          obtain ⟨⟨lns, hlp, hls⟩, _, hc1⟩ := hrec _ _ _ _ hc hL
          simp only
          rw [hagree _ cache1 hrpos hrsafe hc1]
          cases hR : recur (rightNumsOf numbers L) cache1 with
          | none => rfl
          | some pR =>
              obtain ⟨resRight, cache2⟩ := pR
              obtain ⟨⟨rns, hrp, hrs⟩, _, hc2⟩ := hrec _ _ _ _ hc1 hR
              simp only
              have hlns : ∀ n ∈ lns, 0 < n := fun n hn => hlpos n (hlp.mem_iff.1 hn)
              have hrns : ∀ n ∈ rns, 0 < n := fun n hn => hrpos n (hrp.mem_iff.1 hn)
              have hkl := (hls.sound hlns).key_bound hlns
              have hkr := (hrs.sound hrns).key_bound hrns
              rw [poolBound_perm hlp] at hkl
              rw [poolBound_perm hrp] at hkr
              rw [combineMapsDouble_eq resLeft resRight results (by
                intro entryL hentryL entryR hentryR
                obtain ⟨h1, h2⟩ := hkl entryL.1 (List.mem_map_of_mem _ hentryL)
                obtain ⟨h3, h4⟩ := hkr entryR.1 (List.mem_map_of_mem _ hentryR)
                refine ⟨h1, h3, ?_⟩
                have : (entryL.1 + 1) * (entryR.1 + 1) ≤
                    poolBound (leftNumsOf numbers L) * poolBound (rightNumsOf numbers L) := by
                  nlinarith
                omega)]
              exact ih (fun L' hL' => hs L' (List.mem_cons_of_mem _ hL')) _ _ hc2

theorem solveStepDouble_eq (recur recurD : List Int → SolveCache → SolveResult)
    (hrec : CallOK recur)
    (hagree : ∀ ns cache, (∀ n ∈ ns, 0 < n) → poolBound ns ≤ 9007199254740992 →
      CacheOK cache → recurD ns cache = recur ns cache)
    (numbers : List Int) (cache : SolveCache) (hpos : ∀ n ∈ numbers, 0 < n)
    (hsafe : poolBound numbers ≤ 9007199254740992) (hc : CacheOK cache) :
    solveStepDouble recurD numbers cache = solveStep recur numbers cache := by
  have hnum := safe_of_poolBound numbers hpos hsafe
  unfold solveStepDouble solveStep
  rw [numbersTupleDouble_eq numbers hnum]
  cases cache.get (numbersTuple numbers) with
  | some cached => rfl
  | none =>
      simp only
      split
      · rename_i n
        have hn := hnum n (List.mem_singleton.2 rfl)
        rw [numberToString_safe n hn.1 hn.2]
      · rw [singletonsDouble_eq numbers hnum,
          solveSplitsDouble_eq recur recurD hrec numbers hpos hsafe hagree _ (fun L hL => hL) _ _ hc]

/-- In the safe range the solver on Numbers computes what the solver on integers
computes, memo table included. -/
theorem solveNumbersGameInternalDouble_eq : ∀ (fuel : Nat) (ns : List Int) (cache : SolveCache),
    (∀ n ∈ ns, 0 < n) → poolBound ns ≤ 9007199254740992 → CacheOK cache →
      solveNumbersGameInternalDouble fuel ns cache = solveNumbersGameInternal fuel ns cache := by
  intro fuel
  induction fuel with
  | zero => intro ns cache _ _ _; rfl
  | succ fuel ih =>
      intro ns cache hpos hsafe hc
      exact solveStepDouble_eq (solveNumbersGameInternal fuel)
        (solveNumbersGameInternalDouble fuel) (solveNumbersGameInternal_callOK fuel) ih ns
        cache hpos hsafe hc

theorem solveNumbersGameDouble_eq (numbers : List Int) (solveCache : SolveCache)
    (hpos : ∀ n ∈ numbers, 0 < n) (hsafe : poolBound numbers ≤ 9007199254740992) :
    solveNumbersGameDouble numbers solveCache = solveNumbersGame numbers solveCache :=
  solveNumbersGameInternalDouble_eq _ numbers [] hpos hsafe cacheOK_nil

/-! ## The formula checker on Numbers -/

theorem applyOperatorDouble_of_apply {op : Op} {a b v : Int} (h : op.apply a b = some v)
    (hsafe : v < 9007199254740992) : applyOperatorDouble op.sym a b = some (.ok v) := by
  have hv := Op.apply_nonneg h
  have hd : toDouble v = some v := toDouble_of_bounds (by omega) hsafe
  have hneg : ¬ v < 0 := by omega
  cases op
  · simp only [Op.apply] at h
    split at h
    · cases h; simp [applyOperatorDouble, Op.sym, hd, hneg]
    · cases h
  · simp only [Op.apply] at h
    split at h
    · cases h
      have h1 : ("-" : String) ≠ "+" := by decide
      simp [applyOperatorDouble, Op.sym, h1, hd, hneg]
    · cases h
  · simp only [Op.apply] at h
    split at h
    · cases h
      have h1 : ("*" : String) ≠ "+" := by decide
      have h2 : ("*" : String) ≠ "-" := by decide
      simp [applyOperatorDouble, Op.sym, h1, h2, hd, hneg]
    · cases h
  · simp only [Op.apply] at h
    split at h
    · rename_i hc
      cases h
      obtain ⟨hb, hdvd, hpos⟩ := hc
      have h1 : ("/" : String) ≠ "+" := by decide
      have h2 : ("/" : String) ≠ "-" := by decide
      have h3 : ("/" : String) ≠ "*" := by decide
      have hm : a.tmod b = 0 := Int.tmod_eq_zero_of_dvd hdvd
      have hq : a.tdiv b = a / b := Int.tdiv_eq_ediv_of_dvd hdvd
      simp [applyOperatorDouble, Op.sym, h1, h2, h3, hb, hm, hq, hd, hneg]
    · cases h

/-- On Numbers, evaluating the postfix order of a well-formed formula whose values
stay in the safe range pushes its reference value and counts its numerals as used. -/
theorem evalLoopDouble_formula (available : CountTable) (e : Formula) (hwf : e.WellFormed) :
    ∀ (v : Int) (rest : List String) (st : EvalState), e.eval = some v → e.Safe →
      (∀ n, (st.usedNumbers n).getD 0 + e.numerals.count n ≤ (available n).getD 0) →
      evalLoopDouble available (e.postfixOrder ++ rest) st =
        evalLoopDouble available rest
          { valueStack := v :: st.valueStack
            usedNumbers := e.numerals.foldl increment st.usedNumbers } := by
  induction e with
  | num digits =>
      intro v rest st hv hsafe huse
      simp only [Formula.eval, Option.some.injEq] at hv
      subst hv
      have hp := parseInt_digits digits hwf.1 hwf.2
      have hd : toDouble (digitsValue 10 digits : Int) = some (digitsValue 10 digits : Int) :=
        toDouble_of_bounds (by omega) hsafe
      have hu : usageExceeded available st.usedNumbers (digitsValue 10 digits : Int) = false := by
        apply usageExceeded_eq_false
        have := huse (digitsValue 10 digits : Int)
        simp [Formula.numerals] at this
        omega
      simp [Formula.postfixOrder, evalLoopDouble, evalTokenDouble, hp, hd, hu, Formula.numerals]
  | paren e ih =>
      intro v rest st hv hsafe huse
      exact ih hwf v rest st hv hsafe huse
  | bin op l r ihl ihr =>
      intro v rest st hv hsafe huse
      obtain ⟨hwl, hwr, _, _⟩ := hwf
      obtain ⟨hsl, hsr, hsv⟩ := hsafe
      have hvsafe := hsv v hv
      simp only [Formula.eval] at hv
      cases hl : l.eval with
      | none => simp [hl] at hv
      | some a =>
          cases hr : r.eval with
          | none => simp [hl, hr] at hv
          | some b =>
              simp only [hl, hr] at hv
              have husel : ∀ n, (st.usedNumbers n).getD 0 + l.numerals.count n ≤
                  (available n).getD 0 := by
                intro n
                have := huse n
                simp only [Formula.numerals, List.count_append] at this
                omega
              have huser : ∀ n, ((l.numerals.foldl increment st.usedNumbers) n).getD 0 +
                  r.numerals.count n ≤ (available n).getD 0 := by
                intro n
                have := huse n
                simp only [Formula.numerals, List.count_append] at this
                rw [foldl_increment_getD]
                omega
              have hpost : (Formula.bin op l r).postfixOrder ++ rest =
                  l.postfixOrder ++ (r.postfixOrder ++ (op.sym :: rest)) := by
                simp [Formula.postfixOrder]
              have hn : parseInt op.sym = none := by
                have := (Op.sym_facts op).1
                simpa [isNumberToken] using this
              rw [hpost, ihl hwl a _ st hl hsl husel, ihr hwr b _ _ hr hsr huser]
              simp [evalLoopDouble, evalTokenDouble, hn, applyOperatorDouble_of_apply hv hvsafe,
                Formula.numerals, List.foldl_append]

theorem evaluatePostfixDouble_formula (e : Formula) (hwf : e.WellFormed) (pool : List Int)
    (v : Int) (hv : e.eval = some v) (hsafe : e.Safe)
    (huse : ∀ n, e.numerals.count n ≤ pool.count n) :
    evaluatePostfixDouble e.postfixOrder pool = some (.ok v) := by
  have h := evalLoopDouble_formula (availableNumbersCount pool) e hwf v []
    { valueStack := [], usedNumbers := fun _ => none } hv hsafe (by
      intro n
      rw [availableNumbersCount_getD]
      simpa using huse n)
  rw [List.append_nil] at h
  simp [evaluatePostfixDouble, h, evalLoopDouble]

/-- On Numbers, `evaluateUserFormula` on a text that spells a well-formed formula
whose values stay in the safe range returns the reference value. -/
theorem evaluateUserFormulaDouble_formula (e : Formula) (hwf : e.WellFormed) (formula : String)
    (hsp : Spaced e.tokens formula.data) (pool : List Int) (v : Int)
    (hv : e.eval = some v) (hsafe : e.Safe) (huse : ∀ n, e.numerals.count n ≤ pool.count n) :
    evaluateUserFormulaDouble formula pool = some (.ok v) := by
  have htok := e.tokens_isToken hwf
  have hblank := hsp.not_blank e.tokens_ne_nil htok
  have htz := tokenize_spaced hsp htok e.tokens_apart
  simp [evaluateUserFormulaDouble, hblank, htz, validateTokens_of_isToken _ htok,
    toPostfix_formula e hwf, evaluatePostfixDouble_formula e hwf pool v hv hsafe huse]

/-- The formula of a tree over positive leaves is safe when the bound of the leaves
is at most `2^53`. -/
theorem Tree.toFormula_safe (t : Tree) : ∀ (v : Int), (∀ n ∈ t.leaves, 0 < n) →
    t.eval = some v → poolBound t.leaves ≤ 9007199254740992 → t.toFormula.Safe := by
  induction t with
  | leaf n =>
      intro v hpos _ hb
      have hn := hpos n (by simp [Tree.leaves])
      have hd := (jsString_digits (le_of_lt hn)).2.2
      simp only [Tree.leaves, poolBound, List.map_cons, List.map_nil, List.prod_cons,
        List.prod_nil, mul_one] at hb
      simp only [Tree.toFormula, Formula.Safe, hd]
      omega
  | node op l r ihl ihr =>
      intro v hpos hv hb
      have hlpos : ∀ n ∈ l.leaves, 0 < n := fun n hn => hpos n (by simp [Tree.leaves, hn])
      have hrpos : ∀ n ∈ r.leaves, 0 < n := fun n hn => hpos n (by simp [Tree.leaves, hn])
      have hbound := (Tree.node op l r).eval_bound v hpos hv
      simp only [Tree.leaves, poolBound_append] at hb
      have hl1 := poolBound_pos _ hlpos
      have hr1 := poolBound_pos _ hrpos
      have hv' := hv
      simp only [Tree.eval] at hv'
      cases hl : l.eval with
      | none => simp [hl] at hv'
      | some a =>
          cases hr : r.eval with
          | none => simp [hl, hr] at hv'
          | some b =>
              refine ⟨ihl a hlpos hl (by nlinarith), ihr b hrpos hr (by nlinarith), ?_⟩
              intro v' hv''
              have heq : (Tree.node op l r).toFormula.eval = (Tree.node op l r).eval :=
                (Tree.node op l r).toFormula_eval (fun n hn => le_of_lt (hpos n hn))
              simp only [Tree.toFormula, Formula.eval] at heq hv''
              rw [heq, hv] at hv''
              cases hv''
              simp only [Tree.leaves, poolBound_append] at hbound
              omega

/-- On Numbers, the text the solver writes for a tree over a pool within the bound
evaluates to the value of the tree. -/
theorem evaluateUserFormulaDouble_render (t : Tree) (pool : List Int) (v : Int)
    (hpos : ∀ n ∈ pool, 0 < n) (hsafe : poolBound pool ≤ 9007199254740992)
    (hv : t.eval = some v) (huse : ∀ n, t.leaves.count n ≤ pool.count n) :
    evaluateUserFormulaDouble t.render pool = some (.ok v) := by
  have hlpos : ∀ n ∈ t.leaves, 0 < n := by
    intro n hn
    have h1 := List.count_pos_iff.2 hn
    have h2 := huse n
    exact hpos n (List.count_pos_iff.1 (by omega))
  have hleaves : ∀ n ∈ t.leaves, 0 ≤ n := fun n hn => le_of_lt (hlpos n hn)
  apply evaluateUserFormulaDouble_formula t.toFormula (t.toFormula_wellFormed hleaves) t.render
    t.render_spaced pool v
  · rw [t.toFormula_eval hleaves, hv]
  · exact t.toFormula_safe v hlpos hv (le_trans (poolBound_le_of_count huse hpos) hsafe)
  · rw [t.toFormula_numerals hleaves]; exact huse

/-! ## The solver on Numbers at any magnitude -/

theorem exponentText_ne_empty (c : Nat) : exponentText c ≠ "" := by
  unfold exponentText
  simp only
  split
  · decide
  · intro h
    have := congrArg String.data h
    simp at this
  · intro h
    have := congrArg String.data h
    simp at this

theorem numberToString_ne_empty (n : Int) : numberToString n ≠ "" := by
  have htext : ∀ c : Nat, (if c < 10 ^ 21 then Nat.repr c else exponentText c) ≠ "" := by
    intro c
    split
    · rw [← jsString_ofNat]; exact jsString_ne_empty _
    · exact exponentText_ne_empty c
  unfold numberToString
  simp only
  split
  · intro h
    have := congrArg String.data h
    simp at this
  · exact htext _

theorem combineMapsDouble_invariant (P : ReachabilityMap → Prop)
    (hrec : ∀ results res expr, P results → P (recordResult results res expr))
    (resLeft resRight results : ReachabilityMap) (h : P results) :
    P (combineMapsDouble resLeft resRight results) := by
  unfold combineMapsDouble
  apply foldl_invariant P _ _ _ h
  intro acc1 entryL _ hacc1
  apply foldl_invariant P _ _ _ hacc1
  intro acc2 entryR _ hacc2
  unfold combinePairDouble
  split
  · apply foldl_invariant P _ _ _ hacc2
    intro acc3 entry _ hacc3
    unfold applyOp
    simp only
    split
    · exact hrec _ _ _ (hrec _ _ _ hacc3)
    · exact hrec _ _ _ hacc3
  · exact hacc2

theorem solveSplitsDouble_invariant (P : ReachabilityMap → Prop)
    (hrec : ∀ results res expr, P results → P (recordResult results res expr))
    (recur : List Int → SolveCache → SolveResult) (numbers : List Int) :
    ∀ (splits : List (List Nat)) (results : ReachabilityMap) (cache : SolveCache)
      (m : ReachabilityMap) (cache' : SolveCache), P results →
      solveSplitsDouble recur numbers splits results cache = some (m, cache') → P m := by
  intro splits
  induction splits with
  | nil =>
      intro results cache m cache' hP h
      simp only [solveSplitsDouble, Option.some.injEq, Prod.mk.injEq] at h
      rw [← h.1]; exact hP
  | cons leftIndices more ih =>
      intro results cache m cache' hP h
      simp only [solveSplitsDouble] at h
      cases hL : recur (leftNumsOf numbers leftIndices) cache with
      | none => simp [hL] at h
      | some pL =>
          obtain ⟨resLeft, cache1⟩ := pL
          simp only [hL] at h
          cases hR : recur (rightNumsOf numbers leftIndices) cache1 with
          | none => simp [hR] at h
          | some pR =>
              obtain ⟨resRight, cache2⟩ := pR
              simp only [hR] at h
              exact ih _ _ _ _ (combineMapsDouble_invariant P hrec _ _ _ hP) h

theorem solveSplitsDouble_isSome (recur : List Int → SolveCache → SolveResult)
    (numbers : List Int)
    (hrec : ∀ ns cache, ns.length < numbers.length → (recur ns cache).isSome = true) :
    ∀ (splits : List (List Nat)), (∀ L ∈ splits, L ∈ allLeftIndices numbers.length) →
      ∀ (results : ReachabilityMap) (cache : SolveCache),
        (solveSplitsDouble recur numbers splits results cache).isSome = true := by
  intro splits
  induction splits with
  | nil => intro _ results cache; rfl
  | cons L more ih =>
      intro hs results cache
      have hlen := split_lengths numbers L (hs L (List.mem_cons_self _ _))
      simp only [solveSplitsDouble]
      obtain ⟨pL, hL⟩ := Option.isSome_iff_exists.1 (hrec (leftNumsOf numbers L) cache hlen.2.1)
      obtain ⟨resLeft, cache1⟩ := pL
      obtain ⟨pR, hR⟩ :=
        Option.isSome_iff_exists.1 (hrec (rightNumsOf numbers L) cache1 hlen.2.2.2)
      obtain ⟨resRight, cache2⟩ := pR
      simp only [hL, hR]
      exact ih (fun L' hL' => hs L' (List.mem_cons_of_mem _ hL')) _ _

/-- With more fuel than numbers, the solver on Numbers returns. -/
theorem solveNumbersGameInternalDouble_isSome : ∀ (fuel : Nat) (ns : List Int)
    (cache : SolveCache), ns.length < fuel →
      (solveNumbersGameInternalDouble fuel ns cache).isSome = true := by
  intro fuel
  induction fuel with
  | zero => intro ns cache h; omega
  | succ fuel ih =>
      intro ns cache h
      simp only [solveNumbersGameInternalDouble, solveStepDouble]
      cases cache.get (numbersTupleDouble ns) with
      | some cached => rfl
      | none =>
          simp only
          split
          · rfl
          · have := solveSplitsDouble_isSome (solveNumbersGameInternalDouble fuel) ns
              (fun ns' cache' hlt => ih ns' cache' (by omega))
              (allLeftIndices ns.length) (fun L hL => hL) (singletonsDouble ns) cache
            obtain ⟨p, hp⟩ := Option.isSome_iff_exists.1 this
            simp [hp]

theorem solveNumbersGameDouble_isSome (numbers : List Int) (cache : SolveCache) :
    ∃ m cache', solveNumbersGameDouble numbers cache = some (m, cache') := by
  have := solveNumbersGameInternalDouble_isSome (numbers.length + 1) numbers [] (by omega)
  obtain ⟨p, hp⟩ := Option.isSome_iff_exists.1 this
  exact ⟨p.1, p.2, hp⟩

theorem singletonsDouble_get (numbers : List Int) (n : Int) (h : n ∈ numbers) :
    (singletonsDouble numbers).get n = some (numberToString n) := by
  unfold singletonsDouble
  apply foldl_establish (fun m : ReachabilityMap => m.get n = some (numberToString n)) _ _ _ n h
  · intro acc
    show (acc.set n (numberToString n)).get n = some (numberToString n)
    rw [get_of_set]; simp
  · intro acc y hacc
    show (acc.set y (numberToString y)).get n = some (numberToString n)
    rw [get_of_set]
    by_cases hy : y = n
    · subst hy; simp
    · rw [if_neg hy]; exact hacc

/-- On Numbers, at any magnitude: the returned map has every input under its own
text `String(n)`. -/
theorem solveNumbersGameDouble_get_input (numbers : List Int) (cache : SolveCache)
    (m : ReachabilityMap) (cache' : SolveCache)
    (h : solveNumbersGameDouble numbers cache = some (m, cache')) (n : Int)
    (hn : n ∈ numbers) : m.get n = some (numberToString n) := by
  simp only [solveNumbersGameDouble, solveNumbersGameInternalDouble, solveStepDouble,
    SolveCache.get] at h
  split at h
  · rename_i n0
    simp only [Option.some.injEq, Prod.mk.injEq] at h
    rw [← h.1]
    simp only [List.mem_singleton] at hn
    subst hn
    rw [get_of_set]; simp
  · cases hs : solveSplitsDouble (solveNumbersGameInternalDouble numbers.length) numbers
        (allLeftIndices numbers.length) (singletonsDouble numbers) [] with
    | none => simp [hs] at h
    | some p =>
        obtain ⟨results, cache1⟩ := p
        simp only [hs, Option.some.injEq, Prod.mk.injEq] at h
        rw [← h.1]
        exact solveSplitsDouble_invariant (fun m => m.get n = some (numberToString n))
          (fun results res expr hres =>
            recordResult_get results res expr n _ (numberToString_ne_empty n) hres)
          _ numbers _ _ _ _ _ (singletonsDouble_get numbers n hn) hs

/-! ## Claims that hold in the safe range only

The program computes with Numbers. The claims of this part are stated for all
positive integers; they hold while every value stays below `2^53` and fail beyond. -/

set_option maxRecDepth 100000 in
theorem solveNumbersGameDouble_large :
    (solveNumbersGameDouble [50000000000, 50000000000, 7] []).map (fun p => p.1.get 9) =
      some (some "(7 + (50000000000 * 50000000000))") := by
  decide

/-- C1, counterexample to the claim as stated: for the positive numbers
`[50000000000, 50000000000, 7]` the map `solveNumbersGame` returns has the entry
`9 -> (7 + (50000000000 * 50000000000))` (the product is stored under the name
`2.5e+21`, which `parseInt` reads back as 2), and `evaluateUserFormula` evaluates
that expression to `2500000000000000000000`, not to 9. -/
theorem witnesses_sound_counterexample :
    (∀ n ∈ ([50000000000, 50000000000, 7] : List Int), 0 < n) ∧
    (∃ m cache', solveNumbersGameDouble [50000000000, 50000000000, 7] [] = some (m, cache') ∧
      ((9 : Int), "(7 + (50000000000 * 50000000000))") ∈ m) ∧
    numberToString 2500000000000000000000 = "2.5e+21" ∧
    parseIntDouble "2.5e+21" = some 2 ∧
    evaluateUserFormulaDouble "(7 + (50000000000 * 50000000000))" [50000000000, 50000000000, 7] =
      some (.ok 2500000000000000000000) ∧
    evaluateUserFormulaDouble "(7 + (50000000000 * 50000000000))" [50000000000, 50000000000, 7] ≠
      some (.ok 9) := by
  have hget := solveNumbersGameDouble_large
  refine ⟨by decide, ?_, by decide, by decide, by decide, by decide⟩
  obtain ⟨m, cache', hrun⟩ := solveNumbersGameDouble_isSome [50000000000, 50000000000, 7] []
  rw [hrun] at hget
  simp only [Option.map_some', Option.some.injEq] at hget
  exact ⟨m, cache', hrun, m.mem_of_get _ _ hget⟩

/-- C1, amended (soundness of witnesses): for every list `numbers` of positive
integers for which the product of `n + 1` over its elements is at most `2^53`,
`solveNumbersGame(numbers)` returns a map, and for every entry `(value, expr)` of it
`evaluateUserFormula(expr, numbers)` succeeds with exactly `value`; the numerals
occurring in `expr` use each number at most as many times as it occurs in `numbers`. -/
theorem witnesses_sound_safe (numbers : List Int) (solveCache : SolveCache)
    (hpos : ∀ n ∈ numbers, 0 < n) (hsafe : poolBound numbers ≤ 9007199254740992) :
    ∃ m cache', solveNumbersGameDouble numbers solveCache = some (m, cache') ∧
      ∀ value expr, (value, expr) ∈ m →
        evaluateUserFormulaDouble expr numbers = some (.ok value) ∧
        ∀ n, (numeralsOf expr).count n ≤ numbers.count n := by
  obtain ⟨cache', hrun⟩ := solve_spec numbers
  refine ⟨solve numbers, cache', ?_, ?_⟩
  · rw [solveNumbersGameDouble_eq numbers solveCache hpos hsafe]; exact hrun
  intro value expr hentry
  obtain ⟨t, hrender, heval, _, hcount⟩ := solve_sound numbers hpos (value, expr) hentry
  have hleaves : ∀ n ∈ t.leaves, 0 ≤ n := by
    intro n hn
    have h1 := List.count_pos_iff.2 hn
    have h2 := hcount n
    exact le_of_lt (hpos n (List.count_pos_iff.1 (by omega)))
  simp only at hrender heval
  subst hrender
  exact ⟨evaluateUserFormulaDouble_render t numbers value hpos hsafe heval hcount, by
    rw [numeralsOf_render t hleaves]; exact hcount⟩

theorem witnesses_sound_safe_witness :
    (∀ n ∈ ([2, 3] : List Int), 0 < n) ∧ poolBound [2, 3] ≤ 9007199254740992 ∧
    ∃ m cache', solveNumbersGameDouble [2, 3] [] = some (m, cache') ∧
      ∀ value expr, (value, expr) ∈ m →
        evaluateUserFormulaDouble expr [2, 3] = some (.ok value) ∧
        ∀ n, (numeralsOf expr).count n ≤ ([2, 3] : List Int).count n :=
  ⟨by decide, by decide, witnesses_sound_safe [2, 3] [] (by decide) (by decide)⟩

/-- C2, counterexample to the claim as stated: for the positive numbers
`[94906267, 94906267]` the tree `94906267 * 94906267` has the value
`9007199515875289`, which is not a key of the map `solveNumbersGame` returns: the
product is rounded to `9007199515875288`. -/
theorem complete_counterexample :
    (∀ n ∈ ([94906267, 94906267] : List Int), 0 < n) ∧
    (Tree.node .mul (.leaf 94906267) (.leaf 94906267)).leaves =
      ([0, 1] : List Nat).map (fun i => ([94906267, 94906267] : List Int).getD i 0) ∧
    (Tree.node .mul (.leaf 94906267) (.leaf 94906267)).eval = some 9007199515875289 ∧
    ∃ m cache', solveNumbersGameDouble [94906267, 94906267] [] = some (m, cache') ∧
      (9007199515875289 : Int) ∉ m.keys ∧ (9007199515875288 : Int) ∈ m.keys := by
  have hmap : (solveNumbersGameDouble [94906267, 94906267] []).map Prod.fst =
      some [(1, "(94906267 / 94906267)"), (94906267, "94906267"),
        (189812534, "(94906267 + 94906267)"), (9007199515875288, "(94906267 * 94906267)")] := by
    decide
  refine ⟨by decide, by decide, by decide, ?_⟩
  obtain ⟨m, cache', hrun⟩ := solveNumbersGameDouble_isSome [94906267, 94906267] []
  rw [hrun] at hmap
  simp only [Option.map_some', Option.some.injEq] at hmap
  subst hmap
  exact ⟨_, cache', hrun, by decide, by decide⟩

/-- C2, amended (completeness): let `numbers` be positive integers for which the
product of `n + 1` over the elements is at most `2^53`, and `t` an expression tree
over `+ - * /` whose leaves are the elements of `numbers` at pairwise distinct
positions. If the reference evaluation of `t` succeeds (every division exact with a
non-zero divisor, every intermediate result an integer `≥ 0`) with a strictly
positive value `v`, then `v` is a key of the map `solveNumbersGame(numbers)` returns. -/
theorem complete_safe (numbers : List Int) (solveCache : SolveCache) (t : Tree) (v : Int)
    (positions : List Nat) (hpos : ∀ n ∈ numbers, 0 < n)
    (hsafe : poolBound numbers ≤ 9007199254740992) (hdistinct : positions.Nodup)
    (hrange : ∀ i ∈ positions, i < numbers.length)
    (hleaves : t.leaves = positions.map (fun i => numbers.getD i 0))
    (hv : t.eval = some v) (hvpos : 0 < v) :
    ∃ m cache', solveNumbersGameDouble numbers solveCache = some (m, cache') ∧ v ∈ m.keys := by
  obtain ⟨cache', hrun⟩ := solve_spec numbers
  refine ⟨solve numbers, cache', ?_, ?_⟩
  · rw [solveNumbersGameDouble_eq numbers solveCache hpos hsafe]; exact hrun
  have hcount : ∀ n, t.leaves.count n ≤ numbers.count n := by
    intro n
    rw [hleaves]
    exact count_positions_le numbers positions hdistinct hrange n
  have hlpos : ∀ n ∈ t.leaves, 0 < n := by
    intro n hn
    have h1 := List.count_pos_iff.2 hn
    have h2 := hcount n
    exact hpos n (List.count_pos_iff.1 (by omega))
  obtain ⟨t', ht', hc'⟩ := t.prune v hlpos hv hvpos
  exact (solve_solved numbers).complete t' v ht' (fun n => le_trans (hc' n) (hcount n))

theorem complete_safe_witness :
    (∀ n ∈ ([2, 3] : List Int), 0 < n) ∧ poolBound [2, 3] ≤ 9007199254740992 ∧
    ([1, 0] : List Nat).Nodup ∧ (∀ i ∈ ([1, 0] : List Nat), i < ([2, 3] : List Int).length) ∧
    (Tree.node .mul (.leaf 3) (.leaf 2)).leaves =
      ([1, 0] : List Nat).map (fun i => ([2, 3] : List Int).getD i 0) ∧
    (Tree.node .mul (.leaf 3) (.leaf 2)).eval = some 6 ∧ (0 : Int) < 6 ∧
    ∃ m cache', solveNumbersGameDouble [2, 3] [] = some (m, cache') ∧ (6 : Int) ∈ m.keys :=
  ⟨by decide, by decide, by decide, by decide, by decide, by decide, by decide,
    complete_safe [2, 3] [] (.node .mul (.leaf 3) (.leaf 2)) 6 [1, 0] (by decide) (by decide)
      (by decide) (by decide) (by decide) (by decide) (by decide)⟩

/-- C4, counterexample to the claim as stated: for the positive integer `10^21` the
map `solveNumbersGame([n])` returns has the single entry `1e+21 -> 1e+21`, which is
not the decimal literal `1000000000000000000000`. -/
theorem singleton_counterexample :
    (0 : Int) < 1000000000000000000000 ∧
    (solveNumbersGameDouble [1000000000000000000000] []).map Prod.fst =
      some [(1000000000000000000000, "1e+21")] ∧
    numberToString 1000000000000000000000 = "1e+21" ∧
    jsString 1000000000000000000000 = "1000000000000000000000" ∧
    "1e+21" ≠ jsString 1000000000000000000000 := by
  decide

/-- C4, amended: for every positive integer `n` below `2^53`, `solveNumbersGame([n])`
returns the map with the single entry `n -> String(n)`, whose name and text are the
decimal literal of `n`. -/
theorem singleton_safe (n : Int) (solveCache : SolveCache) (hpos : 0 < n)
    (hsafe : n < 9007199254740992) :
    ∃ cache', solveNumbersGameDouble [n] solveCache = some ([(n, jsString n)], cache') ∧
      numberToString n = jsString n := by
  have htext := numberToString_safe n (le_of_lt hpos) hsafe
  refine ⟨[(numbersTupleDouble [n], [(n, jsString n)])], ?_, htext⟩
  rw [← htext]
  rfl

theorem singleton_safe_witness :
    (0 : Int) < 7 ∧ (7 : Int) < 9007199254740992 ∧
    ∃ cache', solveNumbersGameDouble [7] [] = some ([(7, jsString 7)], cache') ∧
      numberToString 7 = jsString 7 :=
  ⟨by decide, by decide, singleton_safe 7 [] (by decide) (by decide)⟩

/-- C25, counterexample to the claim as stated: for the positive numbers
`[1000000000000000000000, 3]` the map `solveNumbersGame` returns maps the input
`10^21` to `1e+21`, which is not its decimal literal. -/
theorem inputs_literal_counterexample :
    (∀ n ∈ ([1000000000000000000000, 3] : List Int), 0 < n) ∧
    (1000000000000000000000 : Int) ∈ ([1000000000000000000000, 3] : List Int) ∧
    (solveNumbersGameDouble [1000000000000000000000, 3] []).map
      (fun p => p.1.get 1000000000000000000000) = some (some "1e+21") ∧
    "1e+21" ≠ jsString 1000000000000000000000 := by
  decide

/-- C25, amended (first discovery wins for the inputs): for every list `numbers` of
positive integers, `solveNumbersGame(numbers)` maps every element to its own text
`String(n)`, and an element `n` below `2^53` to its bare decimal literal, never to a
compound expression; the `forEach` records `n` with that literal before any split,
and a guarded store never overwrites a recorded non-empty text. -/
theorem inputs_literal_safe (numbers : List Int) (solveCache : SolveCache)
    (hpos : ∀ n ∈ numbers, 0 < n) (n : Int) (hn : n ∈ numbers)
    (hsafe : n < 9007199254740992) :
    ∃ m cache', solveNumbersGameDouble numbers solveCache = some (m, cache') ∧
      m.get n = some (jsString n) ∧
      (∀ exprL opSym exprR, m.get n ≠ some (exprOf exprL opSym exprR)) ∧
      (∀ k ∈ numbers, m.get k = some (numberToString k)) ∧
      (singletonsDouble numbers).get n = some (jsString n) ∧
      (∀ results res expr, results.get n = some (jsString n) →
        (recordResult results res expr).get n = some (jsString n)) := by
  obtain ⟨m, cache', hrun⟩ := solveNumbersGameDouble_isSome numbers solveCache
  have htext := numberToString_safe n (le_of_lt (hpos n hn)) hsafe
  have hget : m.get n = some (jsString n) := by
    rw [← htext]
    exact solveNumbersGameDouble_get_input numbers solveCache m cache' hrun n hn
  refine ⟨m, cache', hrun, hget, ?_,
    fun k hk => solveNumbersGameDouble_get_input numbers solveCache m cache' hrun k hk,
    by rw [← htext]; exact singletonsDouble_get numbers n hn,
    fun results res expr h => recordResult_get results res expr n _ (jsString_ne_empty n) h⟩
  intro exprL opSym exprR h
  rw [hget] at h
  have hd := (jsString_digits (le_of_lt (hpos n hn))).2.1
  have heq : (jsString n).data = (exprOf exprL opSym exprR).data := by
    rw [Option.some.inj h]
  have hmem : '(' ∈ (jsString n).data := by
    rw [heq]; simp [exprOf]
  exact absurd (hd _ hmem) (by decide)

theorem inputs_literal_safe_witness :
    (∀ n ∈ ([2, 3] : List Int), 0 < n) ∧ (3 : Int) ∈ ([2, 3] : List Int) ∧
    (3 : Int) < 9007199254740992 ∧
    ∃ m cache', solveNumbersGameDouble [2, 3] [] = some (m, cache') ∧
      m.get 3 = some (jsString 3) ∧
      (∀ exprL opSym exprR, m.get 3 ≠ some (exprOf exprL opSym exprR)) ∧
      (∀ k ∈ ([2, 3] : List Int), m.get k = some (numberToString k)) ∧
      (singletonsDouble [2, 3]).get 3 = some (jsString 3) ∧
      (∀ results res expr, results.get 3 = some (jsString 3) →
        (recordResult results res expr).get 3 = some (jsString 3)) :=
  ⟨by decide, by decide, by decide,
    inputs_literal_safe [2, 3] [] (by decide) 3 (by decide) (by decide)⟩

/-- C7, counterexample to the claim as stated: the text `94906267*94906267` spells a
well-formed formula whose numerals are within the pool `[94906267, 94906267]` and
whose reference value is `9007199515875289`, but `evaluateUserFormula` returns the
rounded product `9007199515875288`. -/
theorem infix_evaluation_counterexample :
    (Formula.bin .mul (.num ['9', '4', '9', '0', '6', '2', '6', '7'])
      (.num ['9', '4', '9', '0', '6', '2', '6', '7'])).WellFormed ∧
    Spaced (Formula.bin .mul (.num ['9', '4', '9', '0', '6', '2', '6', '7'])
      (.num ['9', '4', '9', '0', '6', '2', '6', '7'])).tokens "94906267*94906267".data ∧
    (Formula.bin .mul (.num ['9', '4', '9', '0', '6', '2', '6', '7'])
      (.num ['9', '4', '9', '0', '6', '2', '6', '7'])).numerals = [94906267, 94906267] ∧
    (Formula.bin .mul (.num ['9', '4', '9', '0', '6', '2', '6', '7'])
      (.num ['9', '4', '9', '0', '6', '2', '6', '7'])).eval = some 9007199515875289 ∧
    evaluateUserFormulaDouble "94906267*94906267" [94906267, 94906267] =
      some (.ok 9007199515875288) ∧
    evaluateUserFormulaDouble "94906267*94906267" [94906267, 94906267] ≠
      some (.ok 9007199515875289) := by
  refine ⟨?_, ?_, by decide, by decide, by decide, by decide⟩
  · simp [Formula.WellFormed, Formula.level, Op.prec]; decide
  · exact ((Spaced.single "94906267").append ((Spaced.single "*").append
      (Spaced.single "94906267")) :)

/-- C7, amended (infix evaluation): let `formula` spell, with any white space between
tokens, the tokens of a well-formed infix formula `e` (numerals, `+ - * /`,
parentheses, read with `*` and `/` binding tighter than `+` and `-`, equal precedence
associating to the left). If the numerals of `e` are within the multiplicities of the
pool, the reference evaluation of `e` succeeds with `v` (no division by zero, no
inexact division, no negative intermediate), and every numeral and every
intermediate result is below `2^53`, then `evaluateUserFormula(formula, numbers)`
returns `v`. -/
theorem infix_evaluation_safe (e : Formula) (formula : String) (numbers : List Int) (v : Int)
    (hwf : e.WellFormed) (hspell : Spaced e.tokens formula.data)
    (huse : ∀ n, e.numerals.count n ≤ numbers.count n) (hv : e.eval = some v)
    (hsafe : e.Safe) :
    evaluateUserFormulaDouble formula numbers = some (.ok v) :=
  evaluateUserFormulaDouble_formula e hwf formula hspell numbers v hv hsafe huse

theorem infix_evaluation_safe_witness :
    evaluateUserFormulaDouble "(10+5)*2" [10, 5, 2, 1, 1, 1] = some (.ok 30) :=
  infix_evaluation_safe
    (.bin .mul (.paren (.bin .add (.num ['1', '0']) (.num ['5']))) (.num ['2']))
    "(10+5)*2" [10, 5, 2, 1, 1, 1] 30
    (by simp [Formula.WellFormed, Formula.level, Op.prec]; decide)
    (((Spaced.single "(").append ((Spaced.single "10").append ((Spaced.single "+").append
      ((Spaced.single "5").append ((Spaced.single ")").append ((Spaced.single "*").append
        (Spaced.single "2")))))) :))
    (by
      intro n
      simp only [Formula.numerals, digitsValue, digitValue, isDigit, List.foldl]
      by_cases h10 : n = 10
      · subst h10; decide
      · by_cases h5 : n = 5
        · subst h5; decide
        · by_cases h2 : n = 2
          · subst h2; decide
          · have e10 : (10 : Int) ≠ n := fun e => h10 e.symm
            have e5 : (5 : Int) ≠ n := fun e => h5 e.symm
            have e2 : (2 : Int) ≠ n := fun e => h2 e.symm
            simp [List.count_cons, e10, e5, e2])
    (by decide)
    (by
      refine ⟨⟨by unfold Formula.Safe; decide, by unfold Formula.Safe; decide, ?_⟩,
        by unfold Formula.Safe; decide, ?_⟩
      · intro v hv
        have : (Formula.bin Op.add (.num ['1', '0']) (.num ['5'])).eval = some 15 := by decide
        rw [this] at hv; cases hv; decide
      · intro v hv
        have : (Formula.bin Op.mul (.paren (.bin .add (.num ['1', '0']) (.num ['5'])))
            (.num ['2'])).eval = some 30 := by decide
        rw [this] at hv; cases hv; decide)

/-! ## The closest match and the scoring -/

/-- The scan keeps the first key, in the order of the scan, among those nearest to
the target: every key before it is strictly farther, every key after it at least as
far. -/
theorem closest_fold_first (target : Int) : ∀ (l : ReachabilityMap) (pre : List Int) (v : Int)
    (post : List Int),
    (∀ k ∈ pre, jsAbs (v - target) < jsAbs (k - target)) →
    (∀ k ∈ post, jsAbs (v - target) ≤ jsAbs (k - target)) →
    ∃ w pre' post', l.foldl (closestStep target) (v, some (jsAbs (v - target))) =
        (w, some (jsAbs (w - target))) ∧
      pre ++ v :: post ++ l.keys = pre' ++ w :: post' ∧
      (∀ k ∈ pre', jsAbs (w - target) < jsAbs (k - target)) ∧
      (∀ k ∈ post', jsAbs (w - target) ≤ jsAbs (k - target)) := by
  intro l
  induction l with
  | nil =>
      intro pre v post hpre hpost
      exact ⟨v, pre, post, rfl, by simp [ReachabilityMap.keys], hpre, hpost⟩
  | cons q rest ih =>
      obtain ⟨k', e⟩ := q
      intro pre v post hpre hpost
      rw [List.foldl_cons]
      by_cases h1 : jsAbs (k' - target) < jsAbs (v - target)
      · have hstep : closestStep target (v, some (jsAbs (v - target))) (k', e) =
            (k', some (jsAbs (k' - target))) := by
          simp [closestStep, h1]
        rw [hstep]
        obtain ⟨w, pre', post', hrun, hlist, h2, h3⟩ := ih (pre ++ v :: post) k' [] (by
          intro k hk
          rcases List.mem_append.1 hk with hk | hk
          · have := hpre k hk; omega
          · rcases List.mem_cons.1 hk with rfl | hk
            · exact h1
            · have := hpost k hk; omega) (by simp)
        refine ⟨w, pre', post', hrun, ?_, h2, h3⟩
        rw [← hlist]
        simp [ReachabilityMap.keys]
      · have hstep : closestStep target (v, some (jsAbs (v - target))) (k', e) =
            (v, some (jsAbs (v - target))) := by
          simp only [closestStep, h1, if_false]
          split
          · rename_i heq
            simp [heq]
          · rfl
        rw [hstep]
        obtain ⟨w, pre', post', hrun, hlist, h2, h3⟩ := ih pre v (post ++ [k']) hpre (by
          intro k hk
          rcases List.mem_append.1 hk with hk | hk
          · exact hpost k hk
          · rw [List.mem_singleton.1 hk]; omega)
        refine ⟨w, pre', post', hrun, ?_, h2, h3⟩
        rw [← hlist]
        simp [ReachabilityMap.keys]

theorem jsAbs_eq_abs (x : Int) : jsAbs x = |x| := by
  unfold jsAbs
  split
  · rw [abs_of_neg (by assumption)]
  · rw [abs_of_nonneg (by omega)]

/-- C17 (closest match): for every non-empty reachability map, an object in
enumeration order, whose keys are positive integers and which does not have the
target as a key, and for every target below `2^31` (targets are drawn from 101 to
999), `getSolutionMessage(map, target)` is the message
`Exact target not found by computer. Closest possible: v = map[v] (Difference: d)`,
where `d` is the least `|k - target|` over the keys `k` and `v` the smallest key at
that distance; an entry whose difference is not strictly smaller than the current
minimum leaves the current best unchanged. -/
theorem closest_match (allReachable : ReachabilityMap) (target : Int)
    (hobj : allReachable.Ordered) (hne : allReachable ≠ [])
    (hkeys : ∀ k ∈ allReachable.keys, 0 < k) (htarget : target ∉ allReachable.keys)
    (hrange : target < 2147483648) :
    (∃ v expr, allReachable.get v = some expr ∧ v ∈ allReachable.keys ∧
      (∀ k ∈ allReachable.keys, |v - target| ≤ |k - target|) ∧
      (∀ k ∈ allReachable.keys, |k - target| = |v - target| → v ≤ k) ∧
      getSolutionMessage allReachable target =
        "Exact target not found by computer. Closest possible: " ++ jsString v ++ " = " ++
          expr ++ " (Difference: " ++ jsString |v - target| ++ ")") ∧
    (∀ (closestVal : Int) (entry : Int × String),
      |closestVal - target| ≤ |entry.1 - target| →
      closestStep target (closestVal, some (jsAbs (closestVal - target))) entry =
        (closestVal, some (jsAbs (closestVal - target)))) := by
  constructor
  · obtain ⟨q, rest, rfl⟩ := List.exists_cons_of_ne_nil hne
    obtain ⟨k0, e0⟩ := q
    obtain ⟨w, pre, post, hfold, hlist, hpre, hpost⟩ :=
      closest_fold_first target rest [] k0 [] (by simp) (by simp)
    have hkeys' : ReachabilityMap.keys ((k0, e0) :: rest) = pre ++ w :: post := by
      rw [← hlist]; simp [ReachabilityMap.keys]
    have hw' : w ∈ ReachabilityMap.keys ((k0, e0) :: rest) := by
      rw [hkeys']; simp
    obtain ⟨expr, hget, _⟩ := ReachabilityMap.get_of_mem_keys _ w hw'
    have hmin : ∀ k ∈ ReachabilityMap.keys ((k0, e0) :: rest),
        jsAbs (w - target) ≤ jsAbs (k - target) := by
      intro k hk
      rw [hkeys'] at hk
      rcases List.mem_append.1 hk with hk | hk
      · exact le_of_lt (hpre k hk)
      · rcases List.mem_cons.1 hk with rfl | hk
        · exact le_refl _
        · exact hpost k hk
    have hord : List.Pairwise
        (fun a b : Int => a ≠ b ∧ (isArrayIndex b = true → isArrayIndex a = true ∧ a < b))
        (pre ++ w :: post) := by
      have := hobj
      unfold ReachabilityMap.Ordered at this
      rw [hkeys'] at this
      exact this
    have hafter := (List.pairwise_cons.1 (List.pairwise_append.1 hord).2.1).1
    have hwpos : 0 < w := hkeys w hw'
    refine ⟨w, expr, hget, hw', ?_, ?_, ?_⟩
    · intro k hk
      rw [← jsAbs_eq_abs, ← jsAbs_eq_abs]
      exact hmin k hk
    · intro k hk heq
      rw [← jsAbs_eq_abs, ← jsAbs_eq_abs] at heq
      have hkpos : 0 < k := hkeys k hk
      rw [hkeys'] at hk
      rcases List.mem_append.1 hk with hk | hk
      · have := hpre k hk; omega
      · rcases List.mem_cons.1 hk with rfl | hk
        · exact le_refl _
        · have hrel := hafter k hk
          by_cases hwk : w ≤ k
          · exact hwk
          · exfalso
            have hidx : isArrayIndex k = true := by
              simp only [isArrayIndex, Bool.and_eq_true, decide_eq_true_eq]
              simp only [jsAbs] at heq
              split_ifs at heq <;> omega
            have := (hrel.2 hidx).2
            omega
    · have hnone := ReachabilityMap.get_eq_none _ target htarget
      have hrun : List.foldl (closestStep target) (-1, none) ((k0, e0) :: rest) =
          (w, some (jsAbs (w - target))) := by
        rw [List.foldl_cons]
        have : closestStep target (-1, none) (k0, e0) = (k0, some (jsAbs (k0 - target))) := rfl
        rw [this, hfold]
      have hw1 : w ≠ -1 := by omega
      rw [← jsAbs_eq_abs]
      simp only [getSolutionMessage, hnone, closestMessage, hrun, hw1, hget,
        propertyText, minDiffText]
      simp [ReachabilityMap.keys]
  · intro closestVal entry hle
    rw [← jsAbs_eq_abs, ← jsAbs_eq_abs] at hle
    have h1 : ¬ jsAbs (entry.1 - target) < jsAbs (closestVal - target) := by omega
    simp only [closestStep, h1, if_false]
    split
    · rename_i heq
      simp [heq]
    · rfl

theorem closest_match_witness :
    ReachabilityMap.Ordered [(100, "100"), (104, "(100 + 4)")] ∧
    ([(100, "100"), (104, "(100 + 4)")] : ReachabilityMap) ≠ [] ∧
    (∀ k ∈ ReachabilityMap.keys [(100, "100"), (104, "(100 + 4)")], 0 < k) ∧
    (102 : Int) ∉ ReachabilityMap.keys [(100, "100"), (104, "(100 + 4)")] ∧
    (102 : Int) < 2147483648 ∧
    ∃ v expr, ReachabilityMap.get [(100, "100"), (104, "(100 + 4)")] v = some expr ∧
      v ∈ ReachabilityMap.keys [(100, "100"), (104, "(100 + 4)")] ∧
      (∀ k ∈ ReachabilityMap.keys [(100, "100"), (104, "(100 + 4)")],
        |v - 102| ≤ |k - 102|) ∧
      (∀ k ∈ ReachabilityMap.keys [(100, "100"), (104, "(100 + 4)")],
        |k - 102| = |v - 102| → v ≤ k) ∧
      getSolutionMessage [(100, "100"), (104, "(100 + 4)")] 102 =
        "Exact target not found by computer. Closest possible: " ++ jsString v ++ " = " ++
          expr ++ " (Difference: " ++ jsString |v - 102| ++ ")" :=
  ⟨by unfold ReachabilityMap.Ordered; decide, by decide, by decide, by decide, by decide,
    (closest_match [(100, "100"), (104, "(100 + 4)")] 102
      (by unfold ReachabilityMap.Ordered; decide) (by decide) (by decide) (by decide)
      (by decide)).1⟩

/-- C19 (scoring): `handleFormulaSubmit` takes `diff = |result - target|`, which is
never negative, and awards 10 points if `diff = 0`, 7 if `1 ≤ diff ≤ 5`, 5 if
`6 ≤ diff ≤ 10`, and 0 otherwise. -/
theorem scoring (result target : Int) :
    jsAbs (result - target) = |result - target| ∧ 0 ≤ |result - target| ∧
    pointsAwarded result target = pointsOfDiff |result - target| ∧
    (|result - target| = 0 → pointsAwarded result target = 10) ∧
    (1 ≤ |result - target| ∧ |result - target| ≤ 5 → pointsAwarded result target = 7) ∧
    (6 ≤ |result - target| ∧ |result - target| ≤ 10 → pointsAwarded result target = 5) ∧
    (10 < |result - target| → pointsAwarded result target = 0) ∧
    (pointsAwarded result target = 10 ↔ result = target) := by
  have habs := jsAbs_eq_abs (result - target)
  have hpoints : pointsAwarded result target = pointsOfDiff |result - target| := by
    rw [pointsAwarded, habs]
  refine ⟨habs, abs_nonneg _, hpoints, ?_, ?_, ?_, ?_, ?_⟩
  · intro h
    simp [hpoints, pointsOfDiff, h]
  · intro h
    have h0 : |result - target| ≠ 0 := by omega
    simp [hpoints, pointsOfDiff, h0, h.2]
  · intro h
    have h0 : |result - target| ≠ 0 := by omega
    have h5 : ¬ |result - target| ≤ 5 := by omega
    simp [hpoints, pointsOfDiff, h0, h5, h.2]
  · intro h
    have h0 : |result - target| ≠ 0 := by omega
    have h5 : ¬ |result - target| ≤ 5 := by omega
    have h10 : ¬ |result - target| ≤ 10 := by omega
    simp [hpoints, pointsOfDiff, h0, h5, h10]
  · rw [hpoints]
    constructor
    · intro h
      unfold pointsOfDiff at h
      split at h
      · rename_i h0
        have := abs_eq_zero.1 h0
        omega
      · split at h
        · cases h
        · split at h <;> cases h
    · intro h
      subst h
      simp [pointsOfDiff]

end Countdown
